import Mathlib

/-!
# A conservative mark-and-sweep collector (`gc.c`): embedding and verification

The heap is one region of `CHUNK_SIZE` bytes divided into 16-byte slots.  Two
intrusive lists (free list, used list) thread through the region; blocks are
named by 16-bit slot offsets.  The development below embeds the C functions of
`gc.c` over an explicit byte memory and proves properties of the embedding.

Conventions of the embedding

* Memory is a total map from byte addresses to byte values (little-endian
  multi-byte accesses).  The same map holds the stack that `mark` scans.
* A `cell*` is a byte address; `0` is the null pointer.
* `u16` stores truncate modulo `2^16`; `size_t` counters wrap modulo `2^64`.
* Loops take a fuel argument; a call "returns" when some fuel yields `.ok`.
* Addresses are natural numbers; the static `stack_top` is an `intptr_t` and is
  kept as a signed integer (64 bits, two's complement).
* Failed assertions, `abort()` and null dereferences are reported as distinct
  faults.
-/

namespace GC

/-! ## Constants -/

/-- Size of the heap region in bytes: `#define CHUNK_SIZE (1024 * 1024)`. -/
abbrev CHUNK_SIZE : Nat := 1024 * 1024

/-- Size of a slot in bytes: `#define ALLOC_UNIT 16`. -/
abbrev ALLOC_UNIT : Nat := 16

/-- Number of slots: `#define CELL_COUNT (CHUNK_SIZE / ALLOC_UNIT)`. -/
abbrev CELL_COUNT : Nat := CHUNK_SIZE / ALLOC_UNIT

/-- Largest offset: `#define MAX_INDEX ((1 << 16) - 1)`. -/
abbrev MAX_INDEX : Nat := (1 <<< 16) - 1

/-- Mark value: `#define GC_MARK 2`. -/
abbrev GC_MARK : Nat := 2

/-- Unmarked value: `#define GC_NO_MARK 0`. -/
abbrev GC_NO_MARK : Nat := 0

/-- Boolean true: `#define TRUE 1`. -/
abbrev TRUE : Nat := 1

/-- Boolean false: `#define FALSE 0`. -/
abbrev FALSE : Nat := 0

/-- Size in bytes of `struct cell` (three `u16` and two `u8` fields). -/
abbrev SIZEOF_CELL : Nat := 8

/-- Size in bytes of `intptr_t`. -/
abbrev SIZEOF_INTPTR : Nat := 8

/-! ## Faults and the result type -/

/-- Ways in which a call fails to return. -/
inductive Fault where
  | assertFailed
  | aborted
  | nullDeref
  | outOfBounds
  | outOfFuel
  deriving DecidableEq, Repr

/-- Result of running a function of the collector. -/
abbrev Run (α : Type) : Type := Except Fault α

/-! ## Byte memory -/

/-- Byte-addressed memory. -/
abbrev Mem : Type := Nat → Nat

/-- Load of a `u8`. -/
def read8 (m : Mem) (a : Nat) : Nat := m a % 256

/-- Store of a `u8` (the value is truncated to 8 bits). -/
def write8 (m : Mem) (a v : Nat) : Mem :=
  fun x => if x = a then v % 256 else m x

/-- Load of a little-endian `u16`. -/
def read16 (m : Mem) (a : Nat) : Nat := read8 m a + 256 * read8 m (a + 1)

/-- Store of a little-endian `u16` (the value is truncated to 16 bits). -/
def write16 (m : Mem) (a v : Nat) : Mem :=
  write8 (write8 m a v) (a + 1) (v / 256)

/-- Load of a little-endian 64-bit word. -/
def read64 (m : Mem) (a : Nat) : Nat :=
  read16 m a + 65536 * read16 m (a + 2) + 4294967296 * read16 m (a + 4)
    + 281474976710656 * read16 m (a + 6)

/-- Store of a little-endian 64-bit word. -/
def write64 (m : Mem) (a v : Nat) : Mem :=
  write16 (write16 (write16 (write16 m a v) (a + 2) (v / 65536)) (a + 4) (v / 4294967296))
    (a + 6) (v / 281474976710656)

/-- Effect of `memset(a, c, n)` on memory. -/
def memset (m : Mem) (a c n : Nat) : Mem :=
  fun x => if a ≤ x ∧ x < a + n then c % 256 else m x

/-- Reinterpretation of a 64-bit word as a signed `intptr_t`. -/
def toIntptr (w : Nat) : Int :=
  if w % 18446744073709551616 < 9223372036854775808 then ((w % 18446744073709551616 : Nat) : Int)
  else ((w % 18446744073709551616 : Nat) : Int) - 18446744073709551616

/-! ## Process-wide state -/

/-- The static variables of `gc.c` together with the memory of the process. -/
structure State where
  mem : Mem
  chunk_base : Nat
  free_list : Nat
  used_list : Nat
  stack_top : Int
  bytes_allocated : Nat
  bytes_freed : Nat
  blocks_allocated : Nat
  blocks_freed : Nat

/-- State at program start: every static variable is zero. -/
def boot (m : Mem) : State :=
  { mem := m, chunk_base := 0, free_list := 0, used_list := 0, stack_top := 0,
    bytes_allocated := 0, bytes_freed := 0, blocks_allocated := 0, blocks_freed := 0 }

/-! ## Cell header fields

`struct cell { u16 size; u16 next; u16 conf; u8 used; u8 mark; }` -/

/-- Field `cc->size`. -/
def size (s : State) (cc : Nat) : Nat := read16 s.mem cc

/-- Field `cc->next`. -/
def next (s : State) (cc : Nat) : Nat := read16 s.mem (cc + 2)

/-- Field `cc->conf`. -/
def conf (s : State) (cc : Nat) : Nat := read16 s.mem (cc + 4)

/-- Field `cc->used`. -/
def used (s : State) (cc : Nat) : Nat := read8 s.mem (cc + 6)

/-- Field `cc->mark`. -/
def mark_of (s : State) (cc : Nat) : Nat := read8 s.mem (cc + 7)

/-- Assignment `cc->size = v`. -/
def set_size (s : State) (cc v : Nat) : State := { s with mem := write16 s.mem cc v }

/-- Assignment `cc->next = v`. -/
def set_next (s : State) (cc v : Nat) : State := { s with mem := write16 s.mem (cc + 2) v }

/-- Assignment `cc->conf = v`. -/
def set_conf (s : State) (cc v : Nat) : State := { s with mem := write16 s.mem (cc + 4) v }

/-- Assignment `cc->used = v`. -/
def set_used (s : State) (cc v : Nat) : State := { s with mem := write8 s.mem (cc + 6) v }

/-- Assignment `cc->mark = v`. -/
def set_mark (s : State) (cc v : Nat) : State := { s with mem := write8 s.mem (cc + 7) v }

/-! ## Offset codec -/

/-- Offset to pointer: `o2p`. -/
def o2p (s : State) (off : Nat) : Nat :=
  if off = 0 then 0 else s.chunk_base + off * ALLOC_UNIT

/-- Pointer to offset: `p2o`.  The difference and the division are computed on
`intptr_t` (division truncating toward zero), the result is cast to `u16`. -/
def p2o (s : State) (ptr : Nat) : Nat :=
  if ptr = 0 then 0
  else (Int.tdiv ((ptr : Int) - (s.chunk_base : Int)) (ALLOC_UNIT : Int) % 65536).toNat

/-! ## Pointers to list links

`u16* pptr` in `gc_malloc1` and `sweep` points either at a list head (a static
variable) or at the `next` field of a cell. -/

/-- A location holding a `u16` list link. -/
inductive Link where
  | free_head
  | used_head
  | next_of (cc : Nat)
  deriving DecidableEq, Repr

/-- Load `*pptr`. -/
def Link.get (s : State) : Link → Nat
  | .free_head => s.free_list
  | .used_head => s.used_list
  | .next_of cc => next s cc

/-- Store `*pptr = v` (truncated to 16 bits). -/
def Link.set (s : State) (l : Link) (v : Nat) : State :=
  match l with
  | .free_head => { s with free_list := v % 65536 }
  | .used_head => { s with used_list := v % 65536 }
  | .next_of cc => set_next s cc v

/-! ## Statistics helpers -/

/-- Length of the list starting at `off`: `list_length`. -/
def list_length : Nat → State → Nat → Run Nat
  | 0, _, _ => .error Fault.outOfFuel
  | fuel + 1, s, off =>
    if off = 0 then .ok 0
    else
      match list_length fuel s (next s (o2p s off)) with
      | .ok n => .ok (1 + n)
      | .error e => .error e

/-- Bytes held by the list starting at `off`: `list_total`. -/
def list_total : Nat → State → Nat → Run Nat
  | 0, _, _ => .error Fault.outOfFuel
  | fuel + 1, s, off =>
    if off = 0 then .ok 0
    else
      match list_total fuel s (next s (o2p s off)) with
      | .ok rest => .ok (rest + ALLOC_UNIT * size s (o2p s off))
      | .error e => .error e

/-! ## Free-list insertion -/

/-- Body of `insert_free` once a current cell `C` with `i_coff <= c_coff`
has been found. -/
def insert_free_at (s : State) (coff i_coff p_coff c_coff : Nat) : State :=
  let c_cell := o2p s c_coff
  let p_cell := o2p s p_coff
  let i_cell := o2p s i_coff
  if p_coff = c_coff then
    let s1 :=
      if i_coff + size s i_cell = c_coff then
        let s2 := set_size s i_cell (size s i_cell + size s c_cell)
        set_next s2 i_cell (next s2 c_cell)
      else
        set_next s i_cell c_coff
    { s1 with free_list := i_coff }
  else
    if p_coff + size s p_cell = i_coff ∧ coff + size s i_cell = c_coff then
      let s2 := set_size s p_cell (size s p_cell + size s i_cell + size s c_cell)
      set_next s2 p_cell (next s2 c_cell)
    else if p_coff + size s p_cell = i_coff then
      let s2 := set_size s p_cell (size s p_cell + size s i_cell)
      set_next s2 p_cell c_coff
    else if i_coff + size s i_cell = c_coff then
      let s2 := set_next s p_cell i_coff
      let s3 := set_size s2 i_cell (size s2 i_cell + size s2 c_cell)
      set_next s3 i_cell (next s3 c_cell)
    else
      let s2 := set_next s p_cell i_coff
      set_next s2 i_cell c_coff

/-- The walk of `insert_free` over the free list.  The result is the `u16`
return value (`0`, or `65535` for `-1`). -/
def insert_free_loop : Nat → State → Nat → Nat → Nat → Nat → Run (State × Nat)
  | 0, _, _, _, _, _ => .error Fault.outOfFuel
  | fuel + 1, s, coff, i_coff, p_coff, c_coff =>
    if p_coff = 0 then .ok (s, 65535)
    else if i_coff ≤ c_coff then
      if i_coff = 0 then .error Fault.nullDeref
      else .ok (insert_free_at s coff i_coff p_coff c_coff, 0)
    else if o2p s c_coff = 0 then .error Fault.nullDeref
    else insert_free_loop fuel s coff i_coff c_coff (next s (o2p s c_coff))

/-- Function `insert_free(coff, item)`. -/
def insert_free (fuel : Nat) (s : State) (coff item : Nat) : Run (State × Nat) :=
  if item = 0 then .error Fault.assertFailed
  else
    let s1 := { s with
      bytes_freed := (s.bytes_freed + ALLOC_UNIT * size s item) % 18446744073709551616,
      blocks_freed := (s.blocks_freed + 1) % 18446744073709551616 }
    insert_free_loop fuel s1 coff (p2o s1 item) s1.free_list s1.free_list

/-! ## Used list -/

/-- The walk of `find_ptr_gc_used_list`; returns the `int` result and the
value of the out-parameter. -/
def find_ptr_loop : Nat → State → Int → Nat → Nat → Run (Nat × Nat)
  | 0, _, _, _, _ => .error Fault.outOfFuel
  | fuel + 1, s, address, cell_offset, cc =>
    if cc = 0 then .ok (FALSE, cell_offset)
    else
      let address_bot : Int := (cc : Int) + (SIZEOF_CELL : Int)
      let address_top : Int :=
        address_bot + (ALLOC_UNIT : Int) * (size s cc : Int) - (SIZEOF_CELL : Int)
      if address ≥ address_bot ∧ address < address_top then .ok (TRUE, p2o s cc)
      else find_ptr_loop fuel s address cell_offset (o2p s (next s cc))

/-- Function `find_ptr_gc_used_list(address, &cell_offset)`. -/
def find_ptr_gc_used_list (fuel : Nat) (s : State) (address : Int) (cell_offset : Nat) :
    Run (Nat × Nat) :=
  find_ptr_loop fuel s address cell_offset (o2p s s.used_list)

/-- Function `insert_used(item)`. -/
def insert_used (s : State) (item : Nat) : Run State :=
  if item = 0 then .error Fault.assertFailed
  else
    let ioff := p2o s item
    let s1 := set_used s item 1
    let s2 := set_next s1 item s1.used_list
    .ok { s2 with used_list := ioff }

/-! ## Initialisation -/

/-- Function `gc_init(main_frame)`; `main_frame` is the pointer passed in (a
64-bit word) and `base` the result of `aligned_alloc`.  The arithmetic is that of
`intptr_t`: the pointer is read as a signed number, the division truncates toward
zero and the product is kept modulo `2^64`. -/
def gc_init (s : State) (main_frame base : Nat) : Run State :=
  let addr := toIntptr main_frame
  let pages := Int.tdiv addr 4096 + 1
  let s1 := { s with
    stack_top := toIntptr (pages * 4096 % 18446744073709551616).toNat, chunk_base := base }
  if base = 0 then .error Fault.assertFailed
  else
    let s2 := { s1 with mem := memset s1.mem base 0 CHUNK_SIZE }
    let base_cell := o2p s2 1
    let s3 := set_size s2 base_cell (CELL_COUNT - 1)
    let s4 := set_next s3 base_cell 0
    .ok { s4 with free_list := 1 }

/-! ## Allocation -/

/-- Conversion of a `size_t` to `int` (two's complement, 32 bits). -/
def toInt32 (n : Nat) : Int :=
  if n % 4294967296 < 2147483648 then ((n % 4294967296 : Nat) : Int)
  else ((n % 4294967296 : Nat) : Int) - 4294967296

/-- Function `div_round_up(num, den)` on C `int` (division truncates toward zero). -/
def div_round_up (num den : Int) : Int :=
  let quo := Int.tdiv num den
  if Int.tmod num den = 0 then quo else quo + 1

/-- Slot count of a request: `(u16)div_round_up(bytes + sizeof(cell), ALLOC_UNIT)`. -/
def units_of (bytes : Nat) : Nat :=
  (div_round_up (toInt32 ((bytes + SIZEOF_CELL) % 18446744073709551616))
    (ALLOC_UNIT : Int) % 65536).toNat

/-- Lines 288-290 of `gc_malloc1`: the block `dd` gets `units` slots and its
confirmation tag is set from the size just stored. -/
def take_shrink (s : State) (units dd : Nat) : State :=
  let s1 := set_size s dd units
  set_conf s1 dd (7 * size s1 dd)

/-- Lines 297-307 of `gc_malloc1`: a remainder of `new_size` slots becomes a new
free cell reached through `pptr`; with no remainder the block is unlinked. -/
def take_relink (s : State) (units : Nat) (pptr : Link) (cc new_size : Nat) : Run State :=
  if new_size ≠ 0 then
    let s3 := pptr.set s (pptr.get s + units)
    let new_cell_created := o2p s3 (pptr.get s3)
    if new_cell_created = 0 then .error Fault.nullDeref
    else
      let s4 := set_size s3 new_cell_created new_size
      .ok (set_next s4 new_cell_created (next s4 cc))
  else
    .ok (pptr.set s (next s cc))

/-- Lines 318-327 of `gc_malloc1`: the block `dd` is put on the used list, `bytes`
bytes from its payload address on are poisoned (whatever the size of the block)
and the two assertions are checked. -/
def take_finish (s : State) (bytes units dd : Nat) : Run (State × Nat) :=
  let s6 := set_mark s dd GC_NO_MARK
  match insert_used s6 dd with
  | .error e => .error e
  | .ok s7 =>
    let addr := dd + SIZEOF_CELL
    let s8 := { s7 with mem := memset s7.mem addr 127 bytes }
    if size s8 dd = units then
      if conf s8 dd = 7 * size s8 dd then .ok (s8, addr)
      else .error Fault.assertFailed
    else .error Fault.assertFailed

/-- Body of the `if (units <= cc->size)` branch of `gc_malloc1` (lines 285-327):
the block `cc` reached through `pptr` is taken.  The second component of the
result is the returned pointer. -/
def gc_malloc1_take (s : State) (bytes units : Nat) (pptr : Link) (cc : Nat) :
    Run (State × Nat) :=
  let dd := cc
  let old_size := size s dd
  let s2 := take_shrink s units dd
  let new_size := (old_size - units) % 65536
  match take_relink s2 units pptr cc new_size with
  | .error e => .error e
  | .ok s5 =>
    if pptr.get s5 ≥ MAX_INDEX then .ok (s5, 0)
    else take_finish s5 bytes units dd

/-- The first-fit walk of `gc_malloc1` over the free list. -/
def gc_malloc1_loop : Nat → State → Nat → Nat → Link → Nat → Run (State × Nat)
  | 0, _, _, _, _, _ => .error Fault.outOfFuel
  | fuel + 1, s, bytes, units, pptr, cc =>
    if cc = 0 then .ok (s, 0)
    else if units ≤ size s cc then gc_malloc1_take s bytes units pptr cc
    else gc_malloc1_loop fuel s bytes units (Link.next_of cc) (o2p s (next s cc))

/-- Function `gc_malloc1(bytes)`: the single-shot allocator.  A returned pointer
`0` is the null result. -/
def gc_malloc1 (fuel : Nat) (s : State) (bytes : Nat) : Run (State × Nat) :=
  let units := units_of bytes
  let s1 := { s with
    bytes_allocated := (s.bytes_allocated + units * ALLOC_UNIT) % 18446744073709551616,
    blocks_allocated := (s.blocks_allocated + 1) % 18446744073709551616 }
  gc_malloc1_loop fuel s1 bytes units Link.free_head (o2p s1 s1.free_list)

/-! ## Mark phase -/

/-- Function `mark_range(bot, top)`.  The loop variable `i` is the first argument
after the state; every loop iteration and every recursive call uses fuel. -/
def mark_range : Nat → State → Nat → Nat → Run State
  | 0, _, _, _ => .error Fault.outOfFuel
  | fuel + 1, s, i, top =>
    if i < top then
      let stack_addr_val := toIntptr (read64 s.mem i)
      match find_ptr_gc_used_list fuel s stack_addr_val 0 with
      | .error e => .error e
      | .ok (found, cell_offset) =>
        if found = TRUE then
          let gc_cell_ptr := o2p s cell_offset
          if gc_cell_ptr = 0 then .error Fault.nullDeref
          else
            let s1 := set_mark s gc_cell_ptr (mark_of s gc_cell_ptr ||| GC_MARK)
            let gc_cell_bot := gc_cell_ptr + SIZEOF_CELL
            let gc_cell_top := gc_cell_bot + ALLOC_UNIT * size s1 gc_cell_ptr - SIZEOF_CELL
            match mark_range fuel s1 gc_cell_bot gc_cell_top with
            | .error e => .error e
            | .ok s2 => mark_range fuel s2 (i + SIZEOF_INTPTR) top
        else mark_range fuel s (i + SIZEOF_INTPTR) top
    else .ok s

/-- Function `mark()`; `bot` is the address of its local variable `stack_bot`,
which is initialised to zero.  The scan ends at `stack_top`; when that is not
above the address `bot` (so also when it is negative) nothing is scanned. -/
def mark (fuel : Nat) (s : State) (bot : Nat) : Run State :=
  mark_range fuel { s with mem := write64 s.mem bot 0 } bot s.stack_top.toNat

/-- The walk of `init_gc_collect` over the used list. -/
def init_gc_collect_loop : Nat → State → Nat → Run State
  | 0, _, _ => .error Fault.outOfFuel
  | fuel + 1, s, cc =>
    if cc = 0 then .ok s
    else
      let s1 := set_mark s cc GC_NO_MARK
      init_gc_collect_loop fuel s1 (o2p s1 (next s1 cc))

/-- Function `init_gc_collect()`. -/
def init_gc_collect (fuel : Nat) (s : State) : Run State :=
  init_gc_collect_loop fuel s (o2p s s.used_list)

/-! ## Sweep phase -/

/-- The walk of `sweep` over the used list. -/
def sweep_loop : Nat → State → Link → Nat → Run State
  | 0, _, _, _ => .error Fault.outOfFuel
  | fuel + 1, s, pptr, cc =>
    if cc = 0 then .ok s
    else
      let next_cell := next s cc
      if mark_of s cc = GC_NO_MARK then
        let s1 := set_used s cc 0
        match insert_free fuel s1 (p2o s1 cc) cc with
        | .error e => .error e
        | .ok (s2, r) =>
          if r ≠ 0 then .error Fault.assertFailed
          else
            let s3 := pptr.set s2 next_cell
            sweep_loop fuel s3 pptr (o2p s3 (pptr.get s3))
      else
        let pptr1 := Link.next_of cc
        let s3 := pptr1.set s next_cell
        sweep_loop fuel s3 pptr1 (o2p s3 (pptr1.get s3))

/-- Function `sweep()`. -/
def sweep (fuel : Nat) (s : State) : Run State :=
  sweep_loop fuel s Link.used_head (o2p s s.used_list)

/-- Function `gc_collect()`; `bot` is the address of the local variable of `mark`. -/
def gc_collect (fuel : Nat) (s : State) (bot : Nat) : Run State :=
  match init_gc_collect fuel s with
  | .error e => .error e
  | .ok s1 =>
    match mark fuel s1 bot with
    | .error e => .error e
    | .ok s2 => sweep fuel s2

/-- Function `gc_malloc(bytes)`; `bot` is the address of the local variable of
`mark` should a collection run. -/
def gc_malloc (fuel : Nat) (s : State) (bytes bot : Nat) : Run (State × Nat) :=
  match gc_malloc1 fuel s bytes with
  | .error e => .error e
  | .ok (s1, addr) =>
    if addr ≠ 0 then .ok (s1, addr)
    else
      match gc_collect fuel s1 bot with
      | .error e => .error e
      | .ok s2 =>
        match gc_malloc1 fuel s2 bytes with
        | .error e => .error e
        | .ok (s3, addr2) =>
          if addr2 ≠ 0 then .ok (s3, addr2)
          else .error Fault.aborted

/-! ## Specification vocabulary -/

/-- The offsets met when following `next` links from `head` are exactly `l`
(so the list is finite and ends with the null offset). -/
def IsList (s : State) : Nat → List Nat → Prop
  | h, [] => h = 0
  | h, o :: l => h = o ∧ o ≠ 0 ∧ IsList s (next s (o2p s o)) l

/-- Size field of the block at offset `o`. -/
def bsize (s : State) (o : Nat) : Nat := size s (o2p s o)

/-- The slot extents of the blocks at offsets `a` and `b` do not intersect. -/
def Disjoint (s : State) (a b : Nat) : Prop :=
  a + bsize s a ≤ b ∨ b + bsize s b ≤ a

/-- The frame of `mark` (its local variable) lies outside the heap region. -/
def StackOutsideHeap (s : State) (bot : Nat) : Prop :=
  bot + SIZEOF_INTPTR ≤ s.chunk_base ∨ s.chunk_base + CHUNK_SIZE ≤ bot

/-- Byte address `a` belongs to the client: it lies outside the heap region or in
the payload of a block of the used list. -/
def ClientOwned (s : State) (a : Nat) : Prop :=
  a < s.chunk_base ∨ s.chunk_base + CHUNK_SIZE ≤ a ∨
  ∃ ul o, IsList s s.used_list ul ∧ o ∈ ul ∧
    o2p s o + SIZEOF_CELL ≤ a ∧ a < o2p s o + ALLOC_UNIT * bsize s o

/-- States reachable from `gc_init` by calls of `gc_malloc` and `gc_collect`
that return, interleaved with stores of the client into memory it owns. -/
inductive Reachable : State → Prop where
  | init (m : Mem) (main_frame base : Nat) (s : State) :
      gc_init (boot m) main_frame base = .ok s → Reachable s
  | malloc (s : State) (fuel bytes bot : Nat) (s' : State) (a : Nat) :
      Reachable s → StackOutsideHeap s bot →
      gc_malloc fuel s bytes bot = .ok (s', a) → Reachable s'
  | collect (s : State) (fuel bot : Nat) (s' : State) :
      Reachable s → StackOutsideHeap s bot →
      gc_collect fuel s bot = .ok s' → Reachable s'
  | store (s : State) (a v : Nat) :
      Reachable s → ClientOwned s a → Reachable { s with mem := write8 s.mem a v }

/-- Next field of the block at offset `o`. -/
def bnext (s : State) (o : Nat) : Nat := next s (o2p s o)

/-- The offsets met when following the links `nx` from `h` are `l`, and the
link of the last of them is `t` (`h = t` when `l` is empty). -/
def Seg (nx : Nat → Nat) : Nat → List Nat → Nat → Prop
  | h, [], t => h = t
  | h, o :: l, t => h = o ∧ o ≠ 0 ∧ Seg nx (nx o) l t

/-- Well-formed heap: `fl` and `ul` are the free list and the used list; every
block has at least one slot and ends inside the region; the free list is
ascending with a gap of at least one slot between neighbours; blocks of the
used list are pairwise disjoint and disjoint from the free blocks. -/
structure WF (s : State) (fl ul : List Nat) : Prop where
  free : IsList s s.free_list fl
  used : IsList s s.used_list ul
  bounds : ∀ o ∈ fl ++ ul, 1 ≤ bsize s o ∧ o + bsize s o ≤ CELL_COUNT
  sorted : fl.Pairwise (fun a b => a + bsize s a < b)
  used_disj : ul.Pairwise (Disjoint s)
  cross : ∀ f ∈ fl, ∀ u ∈ ul, Disjoint s f u

/-- The two states have the same region base and the blocks at the offsets `l`
have the same size and next fields in both. -/
def Agree (s s' : State) (l : List Nat) : Prop :=
  s'.chunk_base = s.chunk_base ∧ ∀ o ∈ l, bsize s' o = bsize s o ∧ bnext s' o = bnext s o

/-- The link through which the walk reaches the element after `pre`: the list
head `hd` when `pre` is empty, else the next field of the last cell of `pre`. -/
def linkOf (s : State) (hd : Link) (pre : List Nat) : Link :=
  match pre.getLast? with
  | none => hd
  | some p => Link.next_of (o2p s p)

/-- First offset of a list of offsets, `0` when the list is empty. -/
def headOr0 (l : List Nat) : Nat :=
  match l with
  | [] => 0
  | o :: _ => o

/-- Byte `a` belongs to the memory location of the link `l`. -/
def Link.touches (l : Link) (a : Nat) : Prop :=
  match l with
  | .next_of cc => cc + 2 ≤ a ∧ a < cc + 4
  | _ => False

/-- The signed word `w` points into the client payload of the block at offset
`o`: at or after the first payload byte and before the end of the block. -/
def PointsInto (s : State) (o : Nat) (w : Int) : Prop :=
  ((o2p s o + SIZEOF_CELL : Nat) : Int) ≤ w ∧ w < ((o2p s o + ALLOC_UNIT * bsize s o : Nat) : Int)

/-- Nothing but mark bytes of the blocks `ul` differs between the two states. -/
def MarkFrame (s s' : State) (ul : List Nat) : Prop :=
  s'.chunk_base = s.chunk_base ∧ s'.free_list = s.free_list ∧ s'.used_list = s.used_list ∧
    s'.stack_top = s.stack_top ∧
    ∀ x, (∀ u ∈ ul, x ≠ s.chunk_base + u * 16 + 7) → read8 s'.mem x = read8 s.mem x

/-- The block at offset `o` carries a mark. -/
def Marked (s : State) (o : Nat) : Prop := mark_of s (o2p s o) ≠ GC_NO_MARK

instance decMarked (s : State) (o : Nat) : Decidable (Marked s o) :=
  inferInstanceAs (Decidable (_ ≠ _))

/-- Last offset of `pre`, or `d` when `pre` is empty. -/
def lastOr (pre : List Nat) (d : Nat) : Nat :=
  match pre.getLast? with
  | some p => p
  | none => d

/-- The free-list part of well-formedness. -/
def FreeOK (s : State) (fl : List Nat) : Prop :=
  IsList s s.free_list fl ∧ fl.Pairwise (fun a b => a + bsize s a < b) ∧
    ∀ f ∈ fl, 1 ≤ bsize s f ∧ f + bsize s f ≤ 65536

/-- What the other blocks `K` must satisfy with respect to the free list `fl`
and the block `i` being inserted. -/
def Others (s : State) (fl K : List Nat) (i : Nat) : Prop :=
  ∀ u ∈ K, u ≠ 0 ∧ 1 ≤ bsize s u ∧ Disjoint s i u ∧ ∀ f ∈ fl, Disjoint s f u

/-! ## The insertion table of the specification -/

/-- The blocks at the offsets `l` as pairs (offset, size). -/
def blocks (s : State) (l : List Nat) : List (Nat × Nat) := l.map (fun o => (o, bsize s o))

/-- Slot `x` belongs to one of the blocks `L`, given as pairs (offset, size). -/
def Covers (L : List (Nat × Nat)) (x : Nat) : Prop := ∃ b ∈ L, b.1 ≤ x ∧ x < b.1 + b.2

/-- First row of the table of free-list insertion (spec 4.4): the block `I` goes in
front of the head `C`; if it is adjacent to `C` it absorbs `C`. -/
def table_head (I C : Nat × Nat) : List (Nat × Nat) :=
  if I.1 + I.2 = C.1 then [(I.1, I.2 + C.2)] else [I, C]

/-- Remaining rows of the table (spec 4.4): the block `I` goes between the
predecessor `P` and the current block `C`; merge all three, merge `I` into `P`,
merge `C` into `I`, or splice. -/
def table_mid (P I C : Nat × Nat) : List (Nat × Nat) :=
  if P.1 + P.2 = I.1 ∧ I.1 + I.2 = C.1 then [(P.1, P.2 + I.2 + C.2)]
  else if P.1 + P.2 = I.1 then [(P.1, P.2 + I.2), C]
  else if I.1 + I.2 = C.1 then [P, (I.1, I.2 + C.2)]
  else [P, I, C]

/-- The walk of the insertion procedure of the spec behind the predecessor `P`:
it stops at the first block `C` whose offset is at least that of `I`; past the
tail, adjacency to `C` counts as false. -/
def table_walk (P I : Nat × Nat) : List (Nat × Nat) → List (Nat × Nat)
  | [] => if P.1 + P.2 = I.1 then [(P.1, P.2 + I.2)] else [P, I]
  | C :: rest => if I.1 ≤ C.1 then table_mid P I C ++ rest else P :: table_walk C I rest

/-- Free-list insertion with coalescing as the spec words it (4.4), on a free
list given as pairs (offset, size) in list order. -/
def spec_insert (I : Nat × Nat) : List (Nat × Nat) → List (Nat × Nat)
  | [] => [I]
  | C :: rest => if I.1 ≤ C.1 then table_head I C ++ rest else table_walk C I rest

/-! ## Helpers for concrete runs -/

/-- The run finished with a result. -/
def isOk {α : Type} (r : Run α) : Bool :=
  match r with
  | .ok _ => true
  | .error _ => false

/-- Result of a run, or the default `d` when the run faulted. -/
def okOr {α : Type} (r : Run α) (d : α) : α :=
  match r with
  | .ok a => a
  | .error _ => d

/-- The fault of a run, if it faulted. -/
def faultOf {α : Type} (r : Run α) : Option Fault :=
  match r with
  | .ok _ => none
  | .error e => some e

/-- The run finished and its result passes the test `p`. -/
def okAnd {α : Type} (r : Run α) (p : α → Bool) : Bool :=
  match r with
  | .ok a => p a
  | .error _ => false

instance decIsList (s : State) : (h : Nat) → (l : List Nat) → Decidable (IsList s h l)
  | h, [] => inferInstanceAs (Decidable (h = 0))
  | _, o :: l =>
    @instDecidableAnd _ _ _ (@instDecidableAnd _ _ _ (decIsList s (next s (o2p s o)) l))

instance decStackOutsideHeap (s : State) (bot : Nat) : Decidable (StackOutsideHeap s bot) :=
  inferInstanceAs (Decidable (_ ∨ _))

/-- Memory of the example process before `gc_init`: all zero. -/
def ex_mem : Mem := fun _ => 0

/-- Address returned by `aligned_alloc` in the examples (a multiple of `CHUNK_SIZE`). -/
def ex_base : Nat := 0x7f0000100000

/-- Address of the main frame in the examples. -/
def ex_frame : Nat := 0x7ffd00000ff0

/-- Address of the local variable of `mark` in the examples. -/
def ex_bot : Nat := 0x7ffd00000fe0

/-- Example state right after `gc_init`. -/
def ex_init : State := okOr (gc_init (boot ex_mem) ex_frame ex_base) (boot ex_mem)

/-- Example: a single-shot allocation of 16 bytes in the initial state. -/
def ex_alloc16 : State × Nat := okOr (gc_malloc1 10 ex_init 16) (ex_init, 0)

/-- Sum of the size fields of the blocks at the offsets `l`. -/
def sizes_sum (s : State) (l : List Nat) : Nat := (l.map (bsize s)).sum

/-- A call of the client into the collector. -/
inductive Call where
  | malloc (bytes : Nat)
  | collect

/-- Runs a sequence of `gc_malloc` and `gc_collect` calls; the frame of `mark`
is at `bot` and must lie outside the heap region. -/
def run_calls (fuel bot : Nat) : List Call → State → Run State
  | [], s => .ok s
  | c :: cs, s =>
    if StackOutsideHeap s bot then
      match c with
      | .malloc bytes =>
        match gc_malloc fuel s bytes bot with
        | .ok (s1, _) => run_calls fuel bot cs s1
        | .error e => .error e
      | .collect =>
        match gc_collect fuel s bot with
        | .ok s1 => run_calls fuel bot cs s1
        | .error e => .error e
    else .error Fault.outOfBounds

/-- Runs a sequence of allocation requests each of which must succeed on its
first single-shot attempt. -/
def run_first_attempts (fuel bot : Nat) : List Nat → State → Run State
  | [], s => .ok s
  | bytes :: bs, s =>
    if StackOutsideHeap s bot then
      match gc_malloc1 fuel s bytes with
      | .ok (s1, a) => if a ≠ 0 then run_first_attempts fuel bot bs s1 else .error Fault.aborted
      | .error e => .error e
    else .error Fault.outOfBounds

/-- Example: six allocations of 149784 bytes (9362 slots each) after `gc_init`. -/
def ex_six : State :=
  okOr (run_calls 100 ex_bot (List.replicate 6 (Call.malloc 149784)) ex_init) ex_init

/-- Example: the state left by the first single-shot attempt of a seventh
allocation of 149784 bytes, which the `MAX_INDEX` guard rejects. -/
def ex_rejected : State × Nat := okOr (gc_malloc1 100 ex_six 149784) (ex_six, 1)

/-- Example: the state after the seventh `gc_malloc(149784)` has returned. -/
def ex_leak : State × Nat := okOr (gc_malloc 100 ex_six 149784 ex_bot) (ex_six, 0)

/-- Example: eight allocations that succeed on their first attempt and use up
every slot of the heap (6 * 9362 + 9361 + 2 = 65535 slots). -/
def ex_full : State :=
  okOr (run_first_attempts 100 ex_bot
    [149784, 149784, 149784, 149784, 149784, 149784, 149768, 24] ex_init) ex_init

/-- Example: `gc_malloc(16)`, `gc_collect()`, `gc_malloc(0)` after `gc_init`. -/
def ex_stale : State :=
  okOr (run_calls 100 ex_bot [Call.malloc 16, Call.collect, Call.malloc 0] ex_init) ex_init

/-- Example: one allocation of 8 bytes (one slot, at offset 1) after `gc_init`. -/
def ex_one : State × Nat := okOr (gc_malloc 100 ex_init 8 ex_bot) (ex_init, 0)

/-- Example: the client has stored the address of its 8-byte allocation into
that allocation itself and into the stack word above the frame of `mark`. -/
def ex_cyclic : State :=
  { ex_one.1 with
    mem := write64 (write64 ex_one.1.mem ex_one.2 ex_one.2) (ex_bot + 8) ex_one.2 }

/-- The used list of `s` starts with a one-slot block at offset 1 whose payload
word holds the address of that payload: a cyclic structure. -/
def SelfLoop (s : State) : Prop :=
  s.chunk_base + 32 < 9223372036854775808 ∧ s.used_list = 1 ∧
    size s (s.chunk_base + 16) = 1 ∧ next s (s.chunk_base + 16) = 0 ∧
    read64 s.mem (s.chunk_base + 24) = s.chunk_base + 24

instance decSelfLoop (s : State) : Decidable (SelfLoop s) :=
  inferInstanceAs (Decidable (_ ∧ _))

/-- Example: two allocations of 8 bytes after `gc_init`; the state with the
addresses `A` and `B` that were returned. -/
def ex_pair : State × Nat × Nat :=
  okOr (match gc_malloc 100 ex_init 8 ex_bot with
    | .error e => .error e
    | .ok (s1, a) =>
      match gc_malloc 100 s1 8 ex_bot with
      | .error e => .error e
      | .ok (s2, b) => .ok (s2, a, b)) (ex_init, 0, 0)

/-- Example: the client has stored `B` in the payload of `A` and keeps `A`, and
nothing else, in the stack word above the frame of `mark`. -/
def ex_linked : State :=
  { ex_pair.1 with
    mem := write64 (write64 ex_pair.1.mem ex_pair.2.1 ex_pair.2.2) (ex_bot + 8) ex_pair.2.1 }

instance decDisjoint (s : State) (a b : Nat) : Decidable (Disjoint s a b) :=
  inferInstanceAs (Decidable (_ ∨ _))

instance decPointsInto (s : State) (o : Nat) (w : Int) : Decidable (PointsInto s o w) :=
  inferInstanceAs (Decidable (_ ∧ _))

/-- Example: two allocations of 8 bytes after `gc_init`: the one-slot blocks `A`
at offset 1 and `B` at offset 2. -/
def ex_two_blocks : State :=
  okOr (run_calls 100 ex_bot [Call.malloc 8, Call.malloc 8] ex_init) ex_init

/-- Example: in `ex_two_blocks` the client keeps the address of `B`, and nothing
else, in the stack word above the frame of `mark`. -/
def ex_two : State :=
  { ex_two_blocks with
    mem := write64 ex_two_blocks.mem (ex_bot + 8) (o2p ex_two_blocks 2 + SIZEOF_CELL) }

/-- Example: from `ex_two`, a collection (which frees `A`), six allocations of
9362 slots and one of 9361 slots.  The requests skip the one-slot free block at
offset 1 and use up the rest of the heap, the last one as an exact fit. -/
def ex_gap : State :=
  okOr (run_calls 100 ex_bot
    (Call.collect :: (List.replicate 6 (Call.malloc 149784) ++ [Call.malloc 149768]))
    ex_two) ex_two

/-- Example: the state in which `gc_collect` on `ex_two` enters `sweep`: block `B`
(offset 2) is marked, block `A` (offset 1) is not. -/
def ex_two_marked : State :=
  okOr (mark 100 (okOr (init_gc_collect 100 ex_two) ex_two) ex_bot) ex_two

/-- Example: `ex_two` after a collection: `A` is free again, so the free list is
`[1, 3]` with the used block `B` at offset 2 in between. -/
def ex_hole : State := okOr (gc_collect 100 ex_two ex_bot) ex_two

/-- Example: the state in which `gc_collect` on `ex_full` enters `sweep`. -/
def ex_full_marked : State :=
  okOr (mark 100 (okOr (init_gc_collect 100 ex_full) ex_full) ex_bot) ex_full


/-- Example: what the single-shot allocator returns right after `gc_init` for a
request of 1048569 bytes, which would need 65537 slots. -/
def ex_oversize : State × Nat := okOr (gc_malloc1 10 ex_init 1048569) (ex_init, 0)

/-- Example: the state after `gc_init` and `gc_malloc(1048569)`. -/
def ex_over : State :=
  okOr (run_calls 100 ex_bot [Call.malloc 1048569] ex_init) ex_init

theorem read8_lt (m : Mem) (a : Nat) : read8 m a < 256 := by
  unfold read8; omega

theorem read16_lt (m : Mem) (a : Nat) : read16 m a < 65536 := by
  have h1 := read8_lt m a
  have h2 := read8_lt m (a + 1)
  unfold read16; omega

theorem read8_write8_eq (m : Mem) (a v : Nat) : read8 (write8 m a v) a = v % 256 := by
  simp [read8, write8]

theorem read8_write8_ne (m : Mem) (a v x : Nat) (h : x ≠ a) :
    read8 (write8 m a v) x = read8 m x := by
  simp [read8, write8, h]

theorem read8_write16_ne (m : Mem) (a v x : Nat) (h : x < a ∨ a + 2 ≤ x) :
    read8 (write16 m a v) x = read8 m x := by
  unfold write16
  rw [read8_write8_ne _ _ _ _ (by omega), read8_write8_ne _ _ _ _ (by omega)]

theorem read16_write8_ne (m : Mem) (a v x : Nat) (h : x + 2 ≤ a ∨ a < x) :
    read16 (write8 m a v) x = read16 m x := by
  unfold read16
  rw [read8_write8_ne _ _ _ _ (by omega), read8_write8_ne _ _ _ _ (by omega)]

theorem read16_write16_eq (m : Mem) (a v : Nat) : read16 (write16 m a v) a = v % 65536 := by
  unfold read16 write16
  rw [read8_write8_ne _ _ _ _ (by omega), read8_write8_eq, read8_write8_eq]
  omega

theorem read16_write16_ne (m : Mem) (a v x : Nat) (h : x + 2 ≤ a ∨ a + 2 ≤ x) :
    read16 (write16 m a v) x = read16 m x := by
  unfold write16
  rw [read16_write8_ne _ _ _ _ (by omega), read16_write8_ne _ _ _ _ (by omega)]

theorem read8_memset_out (m : Mem) (a c n x : Nat) (h : x < a ∨ a + n ≤ x) :
    read8 (memset m a c n) x = read8 m x := by
  unfold read8 memset
  rw [if_neg (by omega)]

theorem read8_memset_in (m : Mem) (a c n x : Nat) (h1 : a ≤ x) (h2 : x < a + n) :
    read8 (memset m a c n) x = c % 256 := by
  unfold read8 memset
  rw [if_pos ⟨h1, h2⟩]
  omega

theorem read16_memset_out (m : Mem) (a c n x : Nat) (h : x + 2 ≤ a ∨ a + n ≤ x) :
    read16 (memset m a c n) x = read16 m x := by
  unfold read16
  rw [read8_memset_out _ _ _ _ _ (by omega), read8_memset_out _ _ _ _ _ (by omega)]

/-! ## Arithmetic of the request size -/

theorem toInt32_small (n : Nat) (h : n < 2147483648) : toInt32 n = (n : Int) := by
  unfold toInt32
  have h1 : n % 4294967296 = n := Nat.mod_eq_of_lt (by omega)
  rw [h1, if_pos h]

theorem div_round_up_nat (n : Nat) :
    div_round_up (n : Int) (ALLOC_UNIT : Int) = (((n + 15) / 16 : Nat) : Int) := by
  unfold div_round_up
  have h1 : Int.tdiv (n : Int) (ALLOC_UNIT : Int) = ((n / 16 : Nat) : Int) :=
    (Int.ofNat_tdiv n 16).symm
  have h2 : Int.tmod (n : Int) (ALLOC_UNIT : Int) = ((n % 16 : Nat) : Int) :=
    (Int.ofNat_tmod n 16).symm
  simp only [h1, h2]
  split <;> omega

/-- For a request that fits the region no truncation happens: the slot count
is the exact ceiling of `(bytes + 8) / 16`. -/
theorem units_of_small (bytes : Nat) (h : bytes + 8 ≤ 1048560) :
    units_of bytes = (bytes + 8 + 15) / 16 := by
  unfold units_of
  have h1 : (bytes + SIZEOF_CELL) % 18446744073709551616 = bytes + 8 :=
    Nat.mod_eq_of_lt (by simp only [SIZEOF_CELL]; omega)
  rw [h1, toInt32_small _ (by omega), div_round_up_nat]
  omega

/-! ## Frame facts for the static variables -/

@[simp] theorem set_size_chunk_base (s : State) (p v : Nat) :
    (set_size s p v).chunk_base = s.chunk_base := rfl

@[simp] theorem set_next_chunk_base (s : State) (p v : Nat) :
    (set_next s p v).chunk_base = s.chunk_base := rfl

@[simp] theorem set_conf_chunk_base (s : State) (p v : Nat) :
    (set_conf s p v).chunk_base = s.chunk_base := rfl

@[simp] theorem set_used_chunk_base (s : State) (p v : Nat) :
    (set_used s p v).chunk_base = s.chunk_base := rfl

@[simp] theorem set_mark_chunk_base (s : State) (p v : Nat) :
    (set_mark s p v).chunk_base = s.chunk_base := rfl

@[simp] theorem link_set_chunk_base (s : State) (l : Link) (v : Nat) :
    (l.set s v).chunk_base = s.chunk_base := by
  cases l <;> rfl

theorem insert_used_chunk_base (s s' : State) (item : Nat)
    (h : insert_used s item = .ok s') : s'.chunk_base = s.chunk_base := by
  unfold insert_used at h
  split at h
  · cases h
  · cases h; rfl

theorem insert_used_size (s s' : State) (item q : Nat)
    (h : insert_used s item = .ok s') : size s' q = size (set_next (set_used s item 1) item s.used_list) q := by
  unfold insert_used at h
  split at h
  · cases h
  · cases h; rfl

theorem o2p_zero_or_ge (s : State) (off : Nat) :
    o2p s off = 0 ∨ s.chunk_base + 16 ≤ o2p s off := by
  unfold o2p
  split
  · exact Or.inl rfl
  · right; simp only [ALLOC_UNIT]; omega

/-! ## The size of a handed-out block -/

theorem take_relink_chunk_base (s : State) (units : Nat) (pptr : Link) (cc new_size : Nat)
    (s5 : State) (h : take_relink s units pptr cc new_size = .ok s5) :
    s5.chunk_base = s.chunk_base := by
  unfold take_relink at h
  split at h
  · simp only [] at h
    split at h
    · cases h
    · cases h; simp
  · cases h; simp

theorem take_finish_ok (s : State) (bytes units dd : Nat) (s' : State) (a : Nat)
    (h : take_finish s bytes units dd = .ok (s', a)) :
    a = dd + 8 ∧ size s' dd = units ∧ s'.chunk_base = s.chunk_base := by
  unfold take_finish at h
  simp only [] at h
  split at h
  · cases h
  · rename_i s7 h7
    have hb7 : s7.chunk_base = s.chunk_base := by
      rw [insert_used_chunk_base _ _ _ h7]; simp
    split at h
    · rename_i hsz
      split at h
      · cases h
        exact ⟨rfl, hsz, hb7⟩
      · cases h
    · cases h

theorem gc_malloc1_take_ok (s : State) (bytes units : Nat) (pptr : Link) (cc : Nat)
    (s' : State) (a : Nat)
    (h : gc_malloc1_take s bytes units pptr cc = .ok (s', a)) (ha : a ≠ 0) :
    a = cc + 8 ∧ size s' cc = units ∧ s'.chunk_base = s.chunk_base := by
  unfold gc_malloc1_take at h
  simp only [] at h
  split at h
  · cases h
  · rename_i s5 hl
    have hb5 : s5.chunk_base = s.chunk_base := by
      rw [take_relink_chunk_base _ _ _ _ _ _ hl]; rfl
    split at h
    · cases h; exact absurd rfl ha
    · obtain ⟨h1, h2, h3⟩ := take_finish_ok _ _ _ _ _ _ h
      exact ⟨h1, h2, h3.trans hb5⟩

theorem gc_malloc1_loop_ok (fuel : Nat) : ∀ (s : State) (bytes units : Nat) (pptr : Link)
    (cc : Nat) (s' : State) (a : Nat),
    (cc = 0 ∨ s.chunk_base + 16 ≤ cc) →
    gc_malloc1_loop fuel s bytes units pptr cc = .ok (s', a) → a ≠ 0 →
    s.chunk_base + 24 ≤ a ∧ size s' (a - 8) = units ∧ s'.chunk_base = s.chunk_base := by
  induction fuel with
  | zero =>
    intro s bytes units pptr cc s' a _ h _
    simp [gc_malloc1_loop] at h
  | succ n ih =>
    intro s bytes units pptr cc s' a hcc h ha
    unfold gc_malloc1_loop at h
    split at h
    · cases h; exact absurd rfl ha
    · rename_i hne
      split at h
      · obtain ⟨h1, h2, h3⟩ := gc_malloc1_take_ok _ _ _ _ _ _ _ h ha
        subst h1
        refine ⟨by omega, ?_, h3⟩
        simpa using h2
      · exact ih _ _ _ _ _ _ _ (o2p_zero_or_ge s _) h ha

/-! ## Divergence of the mark phase on a cyclic structure -/

theorem read64_write8_ne (m : Mem) (a v x : Nat) (h : x + 8 ≤ a ∨ a < x) :
    read64 (write8 m a v) x = read64 m x := by
  unfold read64
  rw [read16_write8_ne _ _ _ _ (by omega), read16_write8_ne _ _ _ _ (by omega),
    read16_write8_ne _ _ _ _ (by omega), read16_write8_ne _ _ _ _ (by omega)]

theorem read16_write64_ne (m : Mem) (a v x : Nat) (h : x + 2 ≤ a ∨ a + 8 ≤ x) :
    read16 (write64 m a v) x = read16 m x := by
  unfold write64
  rw [read16_write16_ne _ _ _ _ (by omega), read16_write16_ne _ _ _ _ (by omega),
    read16_write16_ne _ _ _ _ (by omega), read16_write16_ne _ _ _ _ (by omega)]

theorem read64_write64_ne (m : Mem) (a v x : Nat) (h : x + 8 ≤ a ∨ a + 8 ≤ x) :
    read64 (write64 m a v) x = read64 m x := by
  unfold read64
  rw [read16_write64_ne _ _ _ _ (by omega), read16_write64_ne _ _ _ _ (by omega),
    read16_write64_ne _ _ _ _ (by omega), read16_write64_ne _ _ _ _ (by omega)]

theorem read64_write64_eq (m : Mem) (a v : Nat) :
    read64 (write64 m a v) a = v % 18446744073709551616 := by
  unfold read64 write64
  rw [read16_write16_ne _ _ _ _ (by omega), read16_write16_ne _ _ _ _ (by omega),
    read16_write16_ne _ _ _ _ (by omega), read16_write16_eq,
    read16_write16_ne _ _ _ _ (by omega), read16_write16_ne _ _ _ _ (by omega),
    read16_write16_eq,
    read16_write16_ne _ _ _ _ (by omega), read16_write16_eq, read16_write16_eq]
  omega

theorem toIntptr_small (w : Nat) (h : w < 9223372036854775808) : toIntptr w = (w : Int) := by
  unfold toIntptr
  have h1 : w % 18446744073709551616 = w := Nat.mod_eq_of_lt (by omega)
  rw [h1, if_pos h]

theorem o2p_of_ne_zero (s : State) (off : Nat) (h : off ≠ 0) :
    o2p s off = s.chunk_base + off * 16 := by
  unfold o2p
  rw [if_neg h]

theorem p2o_cell (s : State) (off : Nat) (h1 : off ≠ 0) (h2 : off < 65536) :
    p2o s (s.chunk_base + off * 16) = off := by
  unfold p2o
  rw [if_neg (by omega)]
  have h3 : ((s.chunk_base + off * 16 : Nat) : Int) - (s.chunk_base : Int) = ((off * 16 : Nat) : Int) := by
    omega
  rw [h3]
  have h4 : Int.tdiv ((off * 16 : Nat) : Int) (ALLOC_UNIT : Int) = (((off * 16) / 16 : Nat) : Int) :=
    (Int.ofNat_tdiv (off * 16) 16).symm
  rw [h4]
  omega

theorem find_ptr_loop_zero (fuel : Nat) : ∀ (s : State) (co cc : Nat) (r : Nat × Nat),
    find_ptr_loop fuel s 0 co cc = .ok r → r.1 = FALSE := by
  induction fuel with
  | zero =>
    intro s co cc r h
    simp [find_ptr_loop] at h
  | succ n ih =>
    intro s co cc r h
    unfold find_ptr_loop at h
    split at h
    · cases h; rfl
    · simp only [] at h
      split at h
      · rename_i hc
        exfalso
        have := hc.1
        simp only [SIZEOF_CELL] at this
        omega
      · exact ih _ _ _ _ h

theorem selfLoop_set_mark (s : State) (v : Nat) (h : SelfLoop s) :
    SelfLoop (set_mark s (s.chunk_base + 16) v) := by
  obtain ⟨h1, h2, h3, h4, h5⟩ := h
  refine ⟨h1, h2, ?_, ?_, ?_⟩
  · show read16 (write8 s.mem (s.chunk_base + 16 + 7) v) (s.chunk_base + 16) = 1
    rw [read16_write8_ne _ _ _ _ (by omega)]
    exact h3
  · show read16 (write8 s.mem (s.chunk_base + 16 + 7) v) (s.chunk_base + 16 + 2) = 0
    rw [read16_write8_ne _ _ _ _ (by omega)]
    exact h4
  · show read64 (write8 s.mem (s.chunk_base + 16 + 7) v) (s.chunk_base + 24) = s.chunk_base + 24
    rw [read64_write8_ne _ _ _ _ (by omega)]
    exact h5

theorem find_ptr_selfLoop (fuel : Nat) (s : State) (h : SelfLoop s) :
    find_ptr_gc_used_list (fuel + 1) s (toIntptr (s.chunk_base + 24)) 0 = .ok (TRUE, 1) := by
  obtain ⟨h1, h2, h3, _, _⟩ := h
  unfold find_ptr_gc_used_list find_ptr_loop
  rw [h2, o2p_of_ne_zero s 1 (by omega), toIntptr_small _ (by omega)]
  rw [if_neg (by omega)]
  simp only [Nat.one_mul, h3, SIZEOF_CELL, ALLOC_UNIT]
  rw [if_pos (by omega)]
  have := p2o_cell s 1 (by omega) (by omega)
  simp only [Nat.one_mul] at this
  rw [this]

theorem mark_range_selfLoop (fuel : Nat) : ∀ (s : State) (i top : Nat), SelfLoop s →
    i < top → read64 s.mem i = s.chunk_base + 24 →
    mark_range fuel s i top = .error Fault.outOfFuel := by
  induction fuel with
  | zero =>
    intro s i top _ _ _
    rfl
  | succ n ih =>
    intro s i top hs hi hw
    unfold mark_range
    rw [if_pos hi]
    simp only [hw]
    cases n with
    | zero => rfl
    | succ m =>
      rw [find_ptr_selfLoop m s hs]
      simp only [if_true]
      rw [o2p_of_ne_zero s 1 (by omega), if_neg (by omega)]
      simp only [Nat.one_mul]
      have hs1 := selfLoop_set_mark s (mark_of s (s.chunk_base + 16) ||| GC_MARK) hs
      have h3 := hs1.2.2.1
      have h5 := hs1.2.2.2.2
      simp only [set_mark_chunk_base] at h3 h5
      rw [ih _ (s.chunk_base + 16 + SIZEOF_CELL) _ hs1 (by
        rw [h3]; simp only [SIZEOF_CELL, ALLOC_UNIT]; omega) (by
        simp only [SIZEOF_CELL, set_mark_chunk_base]; exact h5)]

/-! ## Walks along links -/

theorem isList_iff_seg (s : State) : ∀ (l : List Nat) (h : Nat),
    IsList s h l ↔ Seg (bnext s) h l 0 := by
  intro l
  induction l with
  | nil => intro h; simp [IsList, Seg]
  | cons o l ih =>
    intro h
    simp only [IsList, Seg, bnext]
    rw [ih]

theorem seg_congr (nx nx' : Nat → Nat) : ∀ (l : List Nat) (h t : Nat),
    (∀ o ∈ l, nx' o = nx o) → Seg nx h l t → Seg nx' h l t := by
  intro l
  induction l with
  | nil => intro h t _ hs; exact hs
  | cons o l ih =>
    intro h t hag hs
    obtain ⟨h1, h2, h3⟩ := hs
    refine ⟨h1, h2, ?_⟩
    rw [hag o (List.mem_cons_self _ _)]
    exact ih _ _ (fun x hx => hag x (List.mem_cons_of_mem _ hx)) h3

theorem seg_append (nx : Nat → Nat) : ∀ (l1 l2 : List Nat) (h m t : Nat),
    Seg nx h l1 m → Seg nx m l2 t → Seg nx h (l1 ++ l2) t := by
  intro l1
  induction l1 with
  | nil =>
    intro l2 h m t h1 h2
    simp only [Seg] at h1
    subst h1
    exact h2
  | cons o l ih =>
    intro l2 h m t h1 h2
    obtain ⟨ha, hb, hc⟩ := h1
    exact ⟨ha, hb, ih _ _ _ _ hc h2⟩

theorem seg_split (nx : Nat → Nat) : ∀ (l1 l2 : List Nat) (h t : Nat),
    Seg nx h (l1 ++ l2) t → ∃ m, Seg nx h l1 m ∧ Seg nx m l2 t := by
  intro l1
  induction l1 with
  | nil =>
    intro l2 h t hs
    exact ⟨h, rfl, hs⟩
  | cons o l ih =>
    intro l2 h t hs
    obtain ⟨ha, hb, hc⟩ := hs
    obtain ⟨m, h1, h2⟩ := ih _ _ _ hc
    exact ⟨m, ⟨ha, hb, h1⟩, h2⟩

theorem seg_head (nx : Nat → Nat) (l : List Nat) (h : Nat) (hs : Seg nx h l 0) :
    h = headOr0 l := by
  cases l with
  | nil => exact hs
  | cons o l => exact hs.1

theorem seg_snoc (nx : Nat → Nat) : ∀ (l : List Nat) (h p : Nat),
    Seg nx h (l ++ [p]) (nx p) ↔ Seg nx h l p ∧ p ≠ 0 := by
  intro l
  induction l with
  | nil =>
    intro h p
    show (h = p ∧ p ≠ 0 ∧ nx p = nx p) ↔ (h = p ∧ p ≠ 0)
    constructor
    · rintro ⟨h1, h2, _⟩; exact ⟨h1, h2⟩
    · rintro ⟨h1, h2⟩; exact ⟨h1, h2, rfl⟩
  | cons o l ih =>
    intro h p
    show (h = o ∧ o ≠ 0 ∧ Seg nx (nx o) (l ++ [p]) (nx p)) ↔ _
    rw [ih]
    show (h = o ∧ o ≠ 0 ∧ Seg nx (nx o) l p ∧ p ≠ 0) ↔ ((h = o ∧ o ≠ 0 ∧ Seg nx (nx o) l p) ∧ p ≠ 0)
    constructor
    · rintro ⟨h1, h2, h3, h4⟩; exact ⟨⟨h1, h2, h3⟩, h4⟩
    · rintro ⟨⟨h1, h2, h3⟩, h4⟩; exact ⟨h1, h2, h3, h4⟩

theorem seg_ne_zero (nx : Nat → Nat) : ∀ (l : List Nat) (h t : Nat),
    Seg nx h l t → ∀ o ∈ l, o ≠ 0 := by
  intro l
  induction l with
  | nil => intro h t _ o ho; cases ho
  | cons x l ih =>
    intro h t hs o ho
    obtain ⟨_, hb, hc⟩ := hs
    cases ho with
    | head => exact hb
    | tail _ hm => exact ih _ _ hc o hm

theorem isList_ne_zero (s : State) (l : List Nat) (h : Nat) (hl : IsList s h l) :
    ∀ o ∈ l, o ≠ 0 :=
  seg_ne_zero _ l h 0 ((isList_iff_seg s l h).1 hl)

theorem isList_congr (s s' : State) (l : List Nat) (h : Nat) (ha : Agree s s' l)
    (hl : IsList s h l) : IsList s' h l := by
  rw [isList_iff_seg] at hl ⊢
  exact seg_congr _ _ l h 0 (fun o ho => (ha.2 o ho).2) hl

theorem isList_unique (s : State) : ∀ (l1 l2 : List Nat) (h : Nat),
    IsList s h l1 → IsList s h l2 → l1 = l2 := by
  intro l1
  induction l1 with
  | nil =>
    intro l2 h h1 h2
    cases l2 with
    | nil => rfl
    | cons o l =>
      simp only [IsList] at h1 h2
      exact absurd (h2.1.symm.trans h1) h2.2.1
  | cons o l ih =>
    intro l2 h h1 h2
    cases l2 with
    | nil =>
      simp only [IsList] at h1 h2
      exact absurd (h1.1.symm.trans h2) h1.2.1
    | cons o2 l2 =>
      simp only [IsList] at h1 h2
      have : o = o2 := h1.1.symm.trans h2.1
      subst this
      rw [ih l2 _ h1.2.2 h2.2.2]

/-! ## Header fields under stores -/

theorem read16_congr (m m' : Mem) (a : Nat) (h0 : read8 m' a = read8 m a)
    (h1 : read8 m' (a + 1) = read8 m (a + 1)) : read16 m' a = read16 m a := by
  unfold read16
  rw [h0, h1]

theorem read64_congr (m m' : Mem) (a : Nat)
    (h : ∀ k, k < 8 → read8 m' (a + k) = read8 m (a + k)) : read64 m' a = read64 m a := by
  unfold read64
  rw [read16_congr m m' a (h 0 (by omega)) (h 1 (by omega)),
    read16_congr m m' (a + 2) (h 2 (by omega)) (h 3 (by omega)),
    read16_congr m m' (a + 4) (h 4 (by omega)) (h 5 (by omega)),
    read16_congr m m' (a + 6) (h 6 (by omega)) (h 7 (by omega))]

theorem read16_mod (m : Mem) (a : Nat) : read16 m a % 65536 = read16 m a :=
  Nat.mod_eq_of_lt (read16_lt m a)

theorem size_lt (s : State) (p : Nat) : size s p < 65536 := read16_lt _ _

theorem next_lt (s : State) (p : Nat) : next s p < 65536 := read16_lt _ _

theorem bsize_lt (s : State) (o : Nat) : bsize s o < 65536 := read16_lt _ _

theorem bnext_lt (s : State) (o : Nat) : bnext s o < 65536 := read16_lt _ _

theorem link_get_set (s : State) (l : Link) (v : Nat) : l.get (l.set s v) = v % 65536 := by
  cases l with
  | free_head => rfl
  | used_head => rfl
  | next_of cc => exact read16_write16_eq _ _ _

theorem link_set_mem (s : State) (l : Link) (v a : Nat) (h : ¬ l.touches a) :
    read8 (l.set s v).mem a = read8 s.mem a := by
  cases l with
  | free_head => rfl
  | used_head => rfl
  | next_of cc =>
    simp only [Link.touches] at h
    exact read8_write16_ne _ _ _ _ (by omega)

theorem link_set_used_list (s : State) (l : Link) (v : Nat) (h : l ≠ Link.used_head) :
    (l.set s v).used_list = s.used_list := by
  cases l with
  | free_head => rfl
  | used_head => exact absurd rfl h
  | next_of cc => rfl

theorem link_set_free_list (s : State) (l : Link) (v : Nat) (h : l ≠ Link.free_head) :
    (l.set s v).free_list = s.free_list := by
  cases l with
  | free_head => exact absurd rfl h
  | used_head => rfl
  | next_of cc => rfl

theorem link_set_stack_top (s : State) (l : Link) (v : Nat) :
    (l.set s v).stack_top = s.stack_top := by
  cases l <;> rfl

/-- A load through a link sees only the static variables and the bytes of the link. -/
theorem link_get_congr (s s' : State) (l : Link) (hf : s'.free_list = s.free_list)
    (hu : s'.used_list = s.used_list)
    (hm : ∀ a, l.touches a → read8 s'.mem a = read8 s.mem a) : l.get s' = l.get s := by
  cases l with
  | free_head => exact hf
  | used_head => exact hu
  | next_of cc =>
    exact read16_congr _ _ _ (hm _ (by simp only [Link.touches]; omega))
      (hm _ (by simp only [Link.touches]; omega))

theorem bsize_eq (s : State) (o : Nat) (h : o ≠ 0) : bsize s o = size s (s.chunk_base + o * 16) := by
  unfold bsize
  rw [o2p_of_ne_zero s o h]

theorem bnext_eq (s : State) (o : Nat) (h : o ≠ 0) : bnext s o = next s (s.chunk_base + o * 16) := by
  unfold bnext
  rw [o2p_of_ne_zero s o h]

/-! ## Static variables under header stores -/
@[simp] theorem set_size_free_list (s : State) (p v : Nat) :
    (set_size s p v).free_list = s.free_list := rfl
@[simp] theorem set_size_used_list (s : State) (p v : Nat) :
    (set_size s p v).used_list = s.used_list := rfl
@[simp] theorem set_size_stack_top (s : State) (p v : Nat) :
    (set_size s p v).stack_top = s.stack_top := rfl
@[simp] theorem set_next_free_list (s : State) (p v : Nat) :
    (set_next s p v).free_list = s.free_list := rfl
@[simp] theorem set_next_used_list (s : State) (p v : Nat) :
    (set_next s p v).used_list = s.used_list := rfl
@[simp] theorem set_next_stack_top (s : State) (p v : Nat) :
    (set_next s p v).stack_top = s.stack_top := rfl
@[simp] theorem set_conf_free_list (s : State) (p v : Nat) :
    (set_conf s p v).free_list = s.free_list := rfl
@[simp] theorem set_conf_used_list (s : State) (p v : Nat) :
    (set_conf s p v).used_list = s.used_list := rfl
@[simp] theorem set_conf_stack_top (s : State) (p v : Nat) :
    (set_conf s p v).stack_top = s.stack_top := rfl
@[simp] theorem set_used_free_list (s : State) (p v : Nat) :
    (set_used s p v).free_list = s.free_list := rfl
@[simp] theorem set_used_used_list (s : State) (p v : Nat) :
    (set_used s p v).used_list = s.used_list := rfl
@[simp] theorem set_used_stack_top (s : State) (p v : Nat) :
    (set_used s p v).stack_top = s.stack_top := rfl
@[simp] theorem set_mark_free_list (s : State) (p v : Nat) :
    (set_mark s p v).free_list = s.free_list := rfl
@[simp] theorem set_mark_used_list (s : State) (p v : Nat) :
    (set_mark s p v).used_list = s.used_list := rfl
@[simp] theorem set_mark_stack_top (s : State) (p v : Nat) :
    (set_mark s p v).stack_top = s.stack_top := rfl

theorem size_congr (s s' : State) (p : Nat)
    (h : ∀ x, p ≤ x → x < p + 2 → read8 s'.mem x = read8 s.mem x) : size s' p = size s p :=
  read16_congr _ _ _ (h _ (by omega) (by omega)) (h _ (by omega) (by omega))

theorem next_congr (s s' : State) (p : Nat)
    (h : ∀ x, p + 2 ≤ x → x < p + 4 → read8 s'.mem x = read8 s.mem x) : next s' p = next s p :=
  read16_congr _ _ _ (h _ (by omega) (by omega)) (h _ (by omega) (by omega))

theorem conf_congr (s s' : State) (p : Nat)
    (h : ∀ x, p + 4 ≤ x → x < p + 6 → read8 s'.mem x = read8 s.mem x) : conf s' p = conf s p :=
  read16_congr _ _ _ (h _ (by omega) (by omega)) (h _ (by omega) (by omega))

theorem used_congr (s s' : State) (p : Nat)
    (h : read8 s'.mem (p + 6) = read8 s.mem (p + 6)) : used s' p = used s p := h

theorem mark_congr (s s' : State) (p : Nat)
    (h : read8 s'.mem (p + 7) = read8 s.mem (p + 7)) : mark_of s' p = mark_of s p := h

/-! ## The pieces of the single-shot allocator -/

theorem take_shrink_spec (s : State) (units dd : Nat) :
    (take_shrink s units dd).chunk_base = s.chunk_base ∧
      (take_shrink s units dd).free_list = s.free_list ∧
      (take_shrink s units dd).used_list = s.used_list ∧
      (take_shrink s units dd).stack_top = s.stack_top ∧
      size (take_shrink s units dd) dd = units % 65536 ∧
      (∀ x, (x < dd ∨ dd + 2 ≤ x) → (x < dd + 4 ∨ dd + 6 ≤ x) →
        read8 (take_shrink s units dd).mem x = read8 s.mem x) := by
  refine ⟨rfl, rfl, rfl, rfl, ?_, ?_⟩
  · show read16 (write16 (write16 s.mem dd units) (dd + 4) _) dd = _
    rw [read16_write16_ne _ _ _ _ (by omega), read16_write16_eq]
  · intro x h1 h2
    show read8 (write16 (write16 s.mem dd units) (dd + 4) _) x = _
    rw [read8_write16_ne _ _ _ _ (by omega), read8_write16_ne _ _ _ _ (by omega)]

/-- The locations a link of the free list may occupy relative to the slots
`[lo, hi)` of the region starting at `base`: a static variable, or the next
field of a cell outside those slots. -/
theorem link_outside_cases (pptr : Link) (lo hi : Nat)
    (h : ∀ a, pptr.touches a → a < lo ∨ hi ≤ a) (x : Nat) (hx1 : lo ≤ x) (hx2 : x < hi) :
    ¬ pptr.touches x := by
  intro ht
  have := h x ht
  omega

theorem take_relink_split (s : State) (units : Nat) (pptr : Link) (cc c new_size : Nat)
    (s5 : State) (hn0 : new_size ≠ 0) (hget : pptr.get s = c) (hcu : c + units < 65536)
    (hP : ∀ a, pptr.touches a →
      a < s.chunk_base + (c + units) * 16 ∨ s.chunk_base + (c + units) * 16 + 4 ≤ a)
    (hcc : cc + 4 ≤ s.chunk_base + (c + units) * 16 ∨ s.chunk_base + (c + units) * 16 + 2 ≤ cc)
    (hPcc : ∀ a, pptr.touches a → a < cc + 2 ∨ cc + 4 ≤ a)
    (h : take_relink s units pptr cc new_size = .ok s5) :
    s5.chunk_base = s.chunk_base ∧ s5.used_list = (pptr.set s (c + units)).used_list ∧
      s5.free_list = (pptr.set s (c + units)).free_list ∧ s5.stack_top = s.stack_top ∧
      pptr.get s5 = c + units ∧
      size s5 (s.chunk_base + (c + units) * 16) = new_size % 65536 ∧
      next s5 (s.chunk_base + (c + units) * 16) = next s cc ∧
      (∀ x, ¬ pptr.touches x →
        (x < s.chunk_base + (c + units) * 16 ∨ s.chunk_base + (c + units) * 16 + 4 ≤ x) →
        read8 s5.mem x = read8 s.mem x) := by
  unfold take_relink at h
  rw [if_pos hn0] at h
  simp only [] at h
  rw [hget] at h
  have hg3 : pptr.get (pptr.set s (c + units)) = c + units := by
    rw [link_get_set]; omega
  rw [hg3] at h
  by_cases hu0 : c + units = 0
  · rw [hu0] at h
    simp [o2p] at h
  · rw [o2p_of_ne_zero _ _ hu0, link_set_chunk_base] at h
    rw [if_neg (by omega)] at h
    cases h
    have hframe : ∀ x, ¬ pptr.touches x →
        (x < s.chunk_base + (c + units) * 16 ∨ s.chunk_base + (c + units) * 16 + 4 ≤ x) →
        read8 (write16 (write16 (pptr.set s (c + units)).mem (s.chunk_base + (c + units) * 16)
          new_size) (s.chunk_base + (c + units) * 16 + 2)
            (next (set_size (pptr.set s (c + units)) (s.chunk_base + (c + units) * 16) new_size)
              cc)) x = read8 s.mem x := by
      intro x h1 h2
      rw [read8_write16_ne _ _ _ _ (by omega), read8_write16_ne _ _ _ _ (by omega)]
      exact link_set_mem _ _ _ _ h1
    refine ⟨by simp, rfl, rfl, by simp [link_set_stack_top], ?_, ?_, ?_, hframe⟩
    · refine Eq.trans ?_ hg3
      refine link_get_congr _ _ pptr ?_ ?_ ?_
      · rfl
      · rfl
      · intro a ha
        have := hP a ha
        show read8 (write16 (write16 _ _ _) _ _) a = _
        rw [read8_write16_ne _ _ _ _ (by omega), read8_write16_ne _ _ _ _ (by omega)]
    · show read16 (write16 (write16 _ _ _) _ _) _ = _
      rw [read16_write16_ne _ _ _ _ (by omega), read16_write16_eq]
    · show read16 (write16 (write16 _ _ _) _ _) _ = _
      rw [read16_write16_eq]
      have hn : next (set_size (pptr.set s (c + units)) (s.chunk_base + (c + units) * 16)
          new_size) cc = next s cc := by
        apply next_congr
        intro x hx1 hx2
        show read8 (write16 _ _ _) x = _
        rw [read8_write16_ne _ _ _ _ (by omega)]
        apply link_set_mem
        intro ht
        have := hPcc x ht
        omega
      rw [hn]
      exact Nat.mod_eq_of_lt (next_lt _ _)

theorem take_relink_exact (s : State) (units : Nat) (pptr : Link) (cc : Nat) (s5 : State)
    (h : take_relink s units pptr cc 0 = .ok s5) :
    s5 = pptr.set s (next s cc) ∧ s5.chunk_base = s.chunk_base ∧ s5.stack_top = s.stack_top ∧
      pptr.get s5 = next s cc ∧
      (∀ x, ¬ pptr.touches x → read8 s5.mem x = read8 s.mem x) := by
  unfold take_relink at h
  rw [if_neg (by simp)] at h
  cases h
  refine ⟨rfl, by simp, link_set_stack_top _ _ _, ?_, ?_⟩
  · rw [link_get_set]
    exact Nat.mod_eq_of_lt (next_lt _ _)
  · intro x hx
    exact link_set_mem _ _ _ _ hx

theorem take_finish_spec (s : State) (bytes units dd c : Nat) (s' : State) (a : Nat)
    (hdd : dd = s.chunk_base + c * 16) (hc0 : c ≠ 0) (hc1 : c < 65536)
    (h : take_finish s bytes units dd = .ok (s', a)) :
    a = dd + 8 ∧ s'.chunk_base = s.chunk_base ∧ s'.stack_top = s.stack_top ∧
      s'.free_list = s.free_list ∧ s'.used_list = c ∧
      size s' dd = units ∧ next s' dd = s.used_list % 65536 ∧
      used s' dd = 1 ∧ mark_of s' dd = 0 ∧
      (∀ x, (x < dd + 2 ∨ dd + 8 + bytes ≤ x ∨ (dd + 4 ≤ x ∧ x < dd + 6)) →
        read8 s'.mem x = read8 s.mem x) := by
  unfold take_finish at h
  simp only [] at h
  unfold insert_used at h
  rw [if_neg (by omega)] at h
  simp only [set_next_chunk_base, set_used_chunk_base, set_mark_chunk_base] at h
  split at h
  · rename_i hsz
    split at h
    · cases h
      have hp : p2o (set_mark s dd GC_NO_MARK) dd = c := by
        rw [hdd]
        exact p2o_cell _ c hc0 hc1
      refine ⟨rfl, rfl, rfl, rfl, hp, hsz, ?_, ?_, ?_, ?_⟩
      · show read16 (memset (write16 (write8 (write8 s.mem (dd + 7) _) (dd + 6) 1) (dd + 2) _)
          (dd + SIZEOF_CELL) 127 bytes) (dd + 2) = _
        rw [read16_memset_out _ _ _ _ _ (by simp only [SIZEOF_CELL]; omega), read16_write16_eq]
        rfl
      · show read8 (memset (write16 (write8 (write8 s.mem (dd + 7) _) (dd + 6) 1) (dd + 2) _)
          (dd + SIZEOF_CELL) 127 bytes) (dd + 6) = _
        rw [read8_memset_out _ _ _ _ _ (by simp only [SIZEOF_CELL]; omega),
          read8_write16_ne _ _ _ _ (by omega), read8_write8_eq]
      · show read8 (memset (write16 (write8 (write8 s.mem (dd + 7) _) (dd + 6) 1) (dd + 2) _)
          (dd + SIZEOF_CELL) 127 bytes) (dd + 7) = _
        rw [read8_memset_out _ _ _ _ _ (by simp only [SIZEOF_CELL]; omega),
          read8_write16_ne _ _ _ _ (by omega), read8_write8_ne _ _ _ _ (by omega),
          read8_write8_eq]
        rfl
      · intro x hx
        show read8 (memset (write16 (write8 (write8 s.mem (dd + 7) _) (dd + 6) 1) (dd + 2) _)
          (dd + SIZEOF_CELL) 127 bytes) x = _
        rw [read8_memset_out _ _ _ _ _ (by simp only [SIZEOF_CELL]; omega),
          read8_write16_ne _ _ _ _ (by omega), read8_write8_ne _ _ _ _ (by omega),
          read8_write8_ne _ _ _ _ (by omega)]
    · cases h
  · cases h

/-! ## Well-formed heaps -/

theorem wf_ne_zero (s : State) (fl ul : List Nat) (h : WF s fl ul) :
    ∀ o ∈ fl ++ ul, o ≠ 0 := by
  intro o ho
  rcases List.mem_append.1 ho with h1 | h1
  · exact isList_ne_zero s fl _ h.free o h1
  · exact isList_ne_zero s ul _ h.used o h1

theorem wf_lt (s : State) (fl ul : List Nat) (h : WF s fl ul) :
    ∀ o ∈ fl ++ ul, o < 65536 := by
  intro o ho
  have := h.bounds o ho
  simp only [CELL_COUNT, CHUNK_SIZE, ALLOC_UNIT] at this
  omega

theorem isList_head (s : State) (l : List Nat) (h : Nat) (hl : IsList s h l) :
    h = headOr0 l :=
  seg_head _ l h ((isList_iff_seg s l h).1 hl)

theorem headOr0_mem (l : List Nat) (h : headOr0 l ≠ 0) : headOr0 l ∈ l := by
  cases l with
  | nil => exact absurd rfl h
  | cons o l => exact List.mem_cons_self _ _

theorem wf_used_list_lt (s : State) (fl ul : List Nat) (h : WF s fl ul) :
    s.used_list < 65536 := by
  have h1 := isList_head s ul _ h.used
  by_cases h0 : headOr0 ul = 0
  · omega
  · have := wf_lt s fl ul h _ (List.mem_append_right _ (headOr0_mem ul h0))
    omega

theorem wf_free_list_lt (s : State) (fl ul : List Nat) (h : WF s fl ul) :
    s.free_list < 65536 := by
  have h1 := isList_head s fl _ h.free
  by_cases h0 : headOr0 fl = 0
  · omega
  · have := wf_lt s fl ul h _ (List.mem_append_left _ (headOr0_mem fl h0))
    omega

/-- Well-formedness only depends on the list heads and on the size and next
fields of the listed blocks. -/
theorem wf_congr (s s' : State) (fl ul : List Nat) (h : WF s fl ul)
    (hf : s'.free_list = s.free_list) (hu : s'.used_list = s.used_list)
    (ha : Agree s s' (fl ++ ul)) : WF s' fl ul := by
  have hsz : ∀ o ∈ fl ++ ul, bsize s' o = bsize s o := fun o ho => (ha.2 o ho).1
  refine ⟨?_, ?_, ?_, ?_, ?_, ?_⟩
  · rw [hf]
    exact isList_congr s s' fl _ ⟨ha.1, fun o ho => ha.2 o (List.mem_append_left _ ho)⟩ h.free
  · rw [hu]
    exact isList_congr s s' ul _ ⟨ha.1, fun o ho => ha.2 o (List.mem_append_right _ ho)⟩ h.used
  · intro o ho
    rw [hsz o ho]
    exact h.bounds o ho
  · refine List.Pairwise.imp_of_mem ?_ h.sorted
    intro a b hma _ hab
    rw [hsz a (List.mem_append_left _ hma)]
    exact hab
  · refine List.Pairwise.imp_of_mem ?_ h.used_disj
    intro a b hma hmb hab
    unfold Disjoint at hab ⊢
    rw [hsz a (List.mem_append_right _ hma), hsz b (List.mem_append_right _ hmb)]
    exact hab
  · intro f hf' u hu'
    have := h.cross f hf' u hu'
    unfold Disjoint at this ⊢
    rw [hsz f (List.mem_append_left _ hf'), hsz u (List.mem_append_right _ hu')]
    exact this

/-- Header fields of a block are untouched by stores that leave its first four
bytes alone. -/
theorem agree_of_frame (s s' : State) (l : List Nat) (hb : s'.chunk_base = s.chunk_base)
    (h : ∀ o ∈ l, o ≠ 0 → ∀ x, s.chunk_base + o * 16 ≤ x → x < s.chunk_base + o * 16 + 4 →
      read8 s'.mem x = read8 s.mem x)
    (h0 : ∀ o ∈ l, o ≠ 0) : Agree s s' l := by
  refine ⟨hb, ?_⟩
  intro o ho
  have hne := h0 o ho
  unfold bsize bnext
  rw [o2p_of_ne_zero s o hne, o2p_of_ne_zero s' o hne, hb]
  constructor
  · apply size_congr
    intro x hx1 hx2
    exact h o ho hne x hx1 (by omega)
  · apply next_congr
    intro x hx1 hx2
    exact h o ho hne x (by omega) hx2

theorem take_finish_wf (s : State) (fl ul : List Nat) (c units bytes : Nat) (s' : State)
    (a : Nat) (hwf : WF s fl ul) (hc0 : c ≠ 0) (hu1 : 1 ≤ units) (hcu : c + units ≤ 65536)
    (hout : ∀ o ∈ fl ++ ul, o + bsize s o ≤ c ∨ c + units ≤ o)
    (hbytes : bytes + 8 ≤ 16 * units)
    (h : take_finish s bytes units (o2p s c) = .ok (s', a)) :
    WF s' fl (c :: ul) ∧ s'.chunk_base = s.chunk_base ∧ s'.stack_top = s.stack_top ∧ a ≠ 0 := by
  rw [o2p_of_ne_zero s c hc0] at h
  obtain ⟨ha, hb, hst, hfl, hul, hsz, hnx, _, _, hframe⟩ :=
    take_finish_spec s bytes units _ c s' a rfl hc0 (by omega) h
  have hag : Agree s s' (fl ++ ul) := by
    apply agree_of_frame s s' _ hb _ (wf_ne_zero s fl ul hwf)
    intro o ho hne x hx1 hx2
    apply hframe
    have h1 := hout o ho
    have h2 := (hwf.bounds o ho).1
    omega
  have hsz' : ∀ o ∈ fl ++ ul, bsize s' o = bsize s o := fun o ho => (hag.2 o ho).1
  have hcsz : bsize s' c = units := by
    unfold bsize
    rw [o2p_of_ne_zero s' c hc0, hb]
    exact hsz
  refine ⟨⟨?_, ?_, ?_, ?_, ?_, ?_⟩, hb, hst, by omega⟩
  · rw [hfl]
    exact isList_congr s s' fl _ ⟨hb, fun o ho => hag.2 o (List.mem_append_left _ ho)⟩ hwf.free
  · rw [hul]
    refine ⟨rfl, hc0, ?_⟩
    rw [o2p_of_ne_zero s' c hc0, hb, hnx, Nat.mod_eq_of_lt (wf_used_list_lt s fl ul hwf)]
    exact isList_congr s s' ul _ ⟨hb, fun o ho => hag.2 o (List.mem_append_right _ ho)⟩ hwf.used
  · intro o ho
    rcases List.mem_append.1 ho with h1 | h1
    · rw [hsz' o (List.mem_append_left _ h1)]
      exact hwf.bounds o (List.mem_append_left _ h1)
    · rcases List.mem_cons.1 h1 with h2 | h2
      · subst h2
        rw [hcsz]
        simp only [CELL_COUNT, CHUNK_SIZE, ALLOC_UNIT]
        omega
      · rw [hsz' o (List.mem_append_right _ h2)]
        exact hwf.bounds o (List.mem_append_right _ h2)
  · refine List.Pairwise.imp_of_mem ?_ hwf.sorted
    intro x y hma _ hab
    rw [hsz' x (List.mem_append_left _ hma)]
    exact hab
  · refine List.pairwise_cons.2 ⟨?_, ?_⟩
    · intro u hu
      have := hout u (List.mem_append_right _ hu)
      unfold Disjoint
      rw [hcsz, hsz' u (List.mem_append_right _ hu)]
      omega
    · refine List.Pairwise.imp_of_mem ?_ hwf.used_disj
      intro x y hma hmb hab
      unfold Disjoint at hab ⊢
      rw [hsz' x (List.mem_append_right _ hma), hsz' y (List.mem_append_right _ hmb)]
      exact hab
  · intro f hf u hu
    unfold Disjoint
    rcases List.mem_cons.1 hu with h2 | h2
    · subst h2
      have := hout f (List.mem_append_left _ hf)
      rw [hcsz, hsz' f (List.mem_append_left _ hf)]
      omega
    · have := hwf.cross f hf u h2
      unfold Disjoint at this
      rw [hsz' f (List.mem_append_left _ hf), hsz' u (List.mem_append_right _ h2)]
      exact this

/-! ## Links of a walk -/

theorem list_nil_or_snoc (l : List Nat) : l = [] ∨ ∃ q p, l = q ++ [p] := by
  rcases List.eq_nil_or_concat l with h | ⟨q, p, h⟩
  · exact Or.inl h
  · exact Or.inr ⟨q, p, by rw [h, List.concat_eq_append]⟩

theorem linkOf_nil (s : State) (hd : Link) : linkOf s hd [] = hd := rfl

theorem linkOf_concat (s : State) (hd : Link) (q : List Nat) (p : Nat) :
    linkOf s hd (q ++ [p]) = Link.next_of (o2p s p) := by
  unfold linkOf
  rw [List.getLast?_concat]

/-- The value found through the link that follows `pre` is the end of the
segment `pre`. -/
theorem linkOf_get (s : State) (hd : Link) (pre : List Nat) (t : Nat)
    (hs : Seg (bnext s) (hd.get s) pre t) : (linkOf s hd pre).get s = t := by
  rcases list_nil_or_snoc pre with h | ⟨q, p, h⟩
  · subst h
    exact hs
  · subst h
    rw [linkOf_concat]
    obtain ⟨m, _, h2⟩ := seg_split _ q [p] _ _ hs
    exact h2.2.2

/-- Redirecting the link that follows `pre`: when the next fields of the cells
of `pre` other than the last are unchanged, `pre` is still a segment, now
ending at the new value of the link. -/
theorem seg_relink (s s' : State) (hd : Link) (pre : List Nat) (t : Nat)
    (hb : s'.chunk_base = s.chunk_base)
    (hs : Seg (bnext s) (hd.get s) pre t)
    (hq : ∀ q p, pre = q ++ [p] → hd.get s' = hd.get s ∧ ∀ o ∈ q, bnext s' o = bnext s o) :
    Seg (bnext s') (hd.get s') pre ((linkOf s hd pre).get s') := by
  rcases list_nil_or_snoc pre with h | ⟨q, p, h⟩
  · subst h
    rfl
  · subst h
    obtain ⟨hh, hq'⟩ := hq q p rfl
    rw [linkOf_concat]
    obtain ⟨m, h1, h2⟩ := seg_split _ q [p] _ _ hs
    have hm : m = p := h2.1
    subst hm
    have hp0 : m ≠ 0 := h2.2.1
    have : (Link.next_of (o2p s m)).get s' = bnext s' m := by
      show next s' (o2p s m) = next s' (o2p s' m)
      rw [o2p_of_ne_zero s m hp0, o2p_of_ne_zero s' m hp0, hb]
    rw [this, seg_snoc, hh]
    exact ⟨seg_congr _ _ q _ _ hq' h1, hp0⟩

theorem linkOf_touches (s : State) (hd : Link) (pre : List Nat) (a : Nat)
    (hhd : ∀ x, ¬ hd.touches x) (h0 : ∀ o ∈ pre, o ≠ 0)
    (h : (linkOf s hd pre).touches a) :
    ∃ q p, pre = q ++ [p] ∧ s.chunk_base + p * 16 + 2 ≤ a ∧ a < s.chunk_base + p * 16 + 4 := by
  rcases list_nil_or_snoc pre with h1 | ⟨q, p, h1⟩
  · subst h1
    exact absurd h (hhd a)
  · subst h1
    rw [linkOf_concat, o2p_of_ne_zero s p (h0 p (by simp))] at h
    exact ⟨q, p, rfl, h.1, h.2⟩

theorem linkOf_ne_used_head (s : State) (pre : List Nat) :
    linkOf s Link.free_head pre ≠ Link.used_head := by
  rcases list_nil_or_snoc pre with h1 | ⟨q, p, h1⟩
  · subst h1
    simp [linkOf_nil]
  · subst h1
    simp [linkOf_concat]

theorem linkOf_ne_free_head (s : State) (pre : List Nat) :
    linkOf s Link.used_head pre ≠ Link.free_head := by
  rcases list_nil_or_snoc pre with h1 | ⟨q, p, h1⟩
  · subst h1
    simp [linkOf_nil]
  · subst h1
    simp [linkOf_concat]

/-- What well-formedness says about a free block `c` and the blocks around it. -/
theorem wf_free_split (s : State) (pre post ul : List Nat) (c : Nat)
    (h : WF s (pre ++ c :: post) ul) :
    c ≠ 0 ∧ 1 ≤ bsize s c ∧ c + bsize s c ≤ 65536 ∧
      (∀ o ∈ pre, o + bsize s o < c) ∧ (∀ o ∈ post, c + bsize s c < o) ∧
      (∀ o ∈ ul, o + bsize s o ≤ c ∨ c + bsize s c ≤ o) ∧
      Seg (bnext s) s.free_list pre c ∧ IsList s (bnext s c) post := by
  have hc : c ∈ (pre ++ c :: post) ++ ul := by simp
  have hbc := h.bounds c hc
  simp only [CELL_COUNT, CHUNK_SIZE, ALLOC_UNIT] at hbc
  have hs := List.pairwise_append.1 h.sorted
  have hs2 := List.pairwise_cons.1 hs.2.1
  obtain ⟨m, h1, h2⟩ := seg_split _ pre (c :: post) _ _ ((isList_iff_seg s _ _).1 h.free)
  have hm : m = c := h2.1
  subst hm
  refine ⟨wf_ne_zero s _ _ h m hc, hbc.1, by omega, ?_, ?_, ?_, h1, ?_⟩
  · intro o ho
    exact hs.2.2 o ho m (List.mem_cons_self _ _)
  · intro o ho
    exact hs2.1 o ho
  · intro o ho
    have := h.cross m (by simp) o ho
    unfold Disjoint at this
    omega
  · rw [isList_iff_seg]
    exact h2.2.2

/-! ## Taking a block out of the free list -/

/-- The free block `c` is replaced in the free list by the blocks `mid`, which
lie inside the slots of `c`; stores are confined to the bytes of the block and
to the link that pointed at it.  The heap stays well formed. -/
theorem detach_wf (s s5 : State) (pre post ul mid : List Nat) (c : Nat)
    (hwf : WF s (pre ++ c :: post) ul)
    (hb : s5.chunk_base = s.chunk_base) (hul5 : s5.used_list = s.used_list)
    (hfl : ∀ q p, pre = q ++ [p] → s5.free_list = s.free_list)
    (hframe : ∀ x, (x < s.chunk_base + c * 16 ∨ s.chunk_base + c * 16 + 16 * bsize s c ≤ x) →
      ¬ (linkOf s Link.free_head pre).touches x → read8 s5.mem x = read8 s.mem x)
    (hmid : Seg (bnext s5) ((linkOf s Link.free_head pre).get s5) mid (bnext s c))
    (hmb : ∀ n ∈ mid, 1 ≤ bsize s5 n ∧ c < n ∧ n + bsize s5 n ≤ c + bsize s c)
    (hms : mid.Pairwise (fun a b => a + bsize s5 a < b)) :
    WF s5 (pre ++ mid ++ post) ul ∧ ∀ o ∈ pre ++ post ++ ul, bsize s5 o = bsize s o := by
  obtain ⟨hc0, hsz1, hcb, hpre, hpost, hul, hseg, hlpost⟩ := wf_free_split s pre post ul c hwf
  have h0 := wf_ne_zero s _ _ hwf
  have hbd := hwf.bounds
  have hpre0 : ∀ o ∈ pre, o ≠ 0 := fun o ho => h0 o (by simp [ho])
  have htouch : ∀ a, (linkOf s Link.free_head pre).touches a →
      ∃ q p, pre = q ++ [p] ∧ s.chunk_base + p * 16 + 2 ≤ a ∧ a < s.chunk_base + p * 16 + 4 :=
    fun a ha => linkOf_touches s Link.free_head pre a (fun _ hx => hx) hpre0 ha
  -- blocks other than `c` lie outside the slots of `c`
  have hout : ∀ o ∈ pre ++ post ++ ul, o + bsize s o ≤ c ∨ c + bsize s c ≤ o := by
    intro o ho
    simp only [List.mem_append] at ho
    rcases ho with (h1 | h1) | h1
    · have := hpre o h1; omega
    · have := hpost o h1; omega
    · exact hul o h1
  have hmemK : ∀ o ∈ pre ++ post ++ ul, o ∈ (pre ++ c :: post) ++ ul := by
    intro o ho
    simp only [List.mem_append, List.mem_cons] at ho ⊢
    tauto
  have hsz5 : ∀ o ∈ pre ++ post ++ ul, bsize s5 o = bsize s o := by
    intro o ho
    have hne := h0 o (hmemK o ho)
    have h1 := hout o ho
    have h2 := (hbd o (hmemK o ho)).1
    unfold bsize
    rw [o2p_of_ne_zero s o hne, o2p_of_ne_zero s5 o hne, hb]
    apply size_congr
    intro x hx1 hx2
    apply hframe x (by omega)
    intro ht
    obtain ⟨q, p, hq, hp1, hp2⟩ := htouch x ht
    omega
  have hnx5 : ∀ o ∈ pre ++ post ++ ul, (∀ q p, pre = q ++ [p] → o ≠ p) →
      bnext s5 o = bnext s o := by
    intro o ho hop
    have hne := h0 o (hmemK o ho)
    have h1 := hout o ho
    have h2 := (hbd o (hmemK o ho)).1
    unfold bnext
    rw [o2p_of_ne_zero s o hne, o2p_of_ne_zero s5 o hne, hb]
    apply next_congr
    intro x hx1 hx2
    apply hframe x (by omega)
    intro ht
    obtain ⟨q, p, hq, hp1, hp2⟩ := htouch x ht
    have := hop q p hq
    omega
  -- the last cell of `pre` differs from every other listed cell
  have hlast : ∀ q p, pre = q ++ [p] → ∀ o ∈ q ++ post ++ ul, o ≠ p := by
    intro q p hq o ho
    subst hq
    have hp : p + bsize s p < c := hpre p (by simp)
    have hp1 := (hbd p (by simp)).1
    simp only [List.mem_append] at ho
    rcases ho with (h1 | h1) | h1
    · have hs := List.pairwise_append.1 (List.pairwise_append.1 hwf.sorted).1
      have := hs.2.2 o h1 p (by simp)
      omega
    · have := hpost o h1; omega
    · have := hwf.cross p (by simp) o h1
      have := (hbd o (by simp [h1])).1
      unfold Disjoint at *
      omega
  have hagP : Agree s s5 post := by
    refine ⟨hb, fun o ho => ⟨hsz5 o (by simp [ho]), hnx5 o (by simp [ho]) ?_⟩⟩
    intro q p hq
    exact hlast q p hq o (by simp [ho])
  have hagU : Agree s s5 ul := by
    refine ⟨hb, fun o ho => ⟨hsz5 o (by simp [ho]), hnx5 o (by simp [ho]) ?_⟩⟩
    intro q p hq
    exact hlast q p hq o (by simp [ho])
  refine ⟨⟨?_, ?_, ?_, ?_, ?_, ?_⟩, hsz5⟩
  · rw [isList_iff_seg, List.append_assoc]
    have hr := seg_relink s s5 Link.free_head pre c hb hseg (by
      intro q p hq
      refine ⟨hfl q p hq, ?_⟩
      intro o ho
      apply hnx5 o (by simp [hq, ho])
      intro q' p' hq'
      have := List.append_inj' (hq.symm.trans hq') rfl
      have hp : p = p' := by simpa using this.2
      rw [← hp]
      exact hlast q p hq o (by simp [ho]))
    refine seg_append _ _ _ _ _ _ hr (seg_append _ _ _ _ _ _ hmid ?_)
    rw [← isList_iff_seg]
    exact isList_congr s s5 post _ hagP hlpost
  · rw [hul5]
    exact isList_congr s s5 ul _ hagU hwf.used
  · intro o ho
    simp only [List.mem_append] at ho
    rcases ho with ((h1 | h1) | h1) | h1
    · rw [hsz5 o (by simp [h1])]; exact hbd o (by simp [h1])
    · have := hmb o h1
      simp only [CELL_COUNT, CHUNK_SIZE, ALLOC_UNIT]
      omega
    · rw [hsz5 o (by simp [h1])]; exact hbd o (by simp [h1])
    · rw [hsz5 o (by simp [h1])]; exact hbd o (by simp [h1])
  · have hs := List.pairwise_append.1 hwf.sorted
    have hs2 := List.pairwise_cons.1 hs.2.1
    refine List.pairwise_append.2 ⟨List.pairwise_append.2 ⟨?_, hms, ?_⟩, ?_, ?_⟩
    · refine List.Pairwise.imp_of_mem ?_ hs.1
      intro x y hx _ hxy
      rw [hsz5 x (by simp [hx])]
      exact hxy
    · intro x hx y hy
      have := hpre x hx
      have := hmb y hy
      rw [hsz5 x (by simp [hx])]
      omega
    · refine List.Pairwise.imp_of_mem ?_ hs2.2
      intro x y hx _ hxy
      rw [hsz5 x (by simp [hx])]
      exact hxy
    · intro x hx y hy
      rcases List.mem_append.1 hx with h1 | h1
      · have := hpre x h1
        have := hpost y hy
        rw [hsz5 x (by simp [h1])]
        omega
      · have := hmb x h1
        have := hpost y hy
        omega
  · refine List.Pairwise.imp_of_mem ?_ hwf.used_disj
    intro x y hx hy hxy
    unfold Disjoint at hxy ⊢
    rw [hsz5 x (by simp [hx]), hsz5 y (by simp [hy])]
    exact hxy
  · intro f hf u hu
    unfold Disjoint
    rw [hsz5 u (by simp [hu])]
    simp only [List.mem_append] at hf
    rcases hf with (h1 | h1) | h1
    · have := hwf.cross f (by simp [h1]) u hu
      unfold Disjoint at this
      rw [hsz5 f (by simp [h1])]
      exact this
    · have := hmb f h1
      have := hul u hu
      omega
    · have := hwf.cross f (by simp [h1]) u hu
      unfold Disjoint at this
      rw [hsz5 f (by simp [h1])]
      exact this

/-- The relinking step of `gc_malloc1` on a well-formed heap: the block `c` is
replaced in the free list by the remainder `c + units` (split) or by nothing
(exact fit); every other block keeps its size. -/
theorem take_relink_lists (s : State) (pre post ul : List Nat) (c units : Nat) (s5 : State)
    (hwf : WF s (pre ++ c :: post) ul) (hu1 : 1 ≤ units) (hu2 : units ≤ bsize s c)
    (h : take_relink (take_shrink s units (o2p s c)) units (linkOf s Link.free_head pre)
      (o2p s c) ((size s (o2p s c) - units) % 65536) = .ok s5) :
    WF s5 (pre ++ (if units = bsize s c then [] else [c + units]) ++ post) ul ∧
      s5.chunk_base = s.chunk_base ∧ s5.stack_top = s.stack_top ∧
      bsize s5 c = units ∧
      (∀ o ∈ (pre ++ (if units = bsize s c then [] else [c + units]) ++ post) ++ ul,
        o + bsize s5 o ≤ c ∨ c + units ≤ o) ∧
      (∀ o ∈ pre ++ post ++ ul, bsize s5 o = bsize s o) ∧
      (linkOf s Link.free_head pre).get s5
        = (if units = bsize s c then bnext s c else c + units) ∧
      (units < bsize s c →
        bsize s5 (c + units) = bsize s c - units ∧ bnext s5 (c + units) = bnext s c) ∧
      conf s5 (s.chunk_base + c * 16) = (7 * units) % 65536 := by
  obtain ⟨hc0, hsz1, hcb, hpre, hpost, hul, hseg, hlpost⟩ := wf_free_split s pre post ul c hwf
  have h0 := wf_ne_zero s _ _ hwf
  have hbd := hwf.bounds
  have hpre0 : ∀ o ∈ pre, o ≠ 0 := fun o ho => h0 o (by simp [ho])
  have hcc : o2p s c = s.chunk_base + c * 16 := o2p_of_ne_zero s c hc0
  have hbs : bsize s c = size s (s.chunk_base + c * 16) := by unfold bsize; rw [hcc]
  have hszlt := bsize_lt s c
  rw [hcc] at h
  obtain ⟨hb2, hf2, hu2', hst2, hsz2, hfr2⟩ := take_shrink_spec s units (s.chunk_base + c * 16)
  have htouch : ∀ a, (linkOf s Link.free_head pre).touches a →
      ∃ q p, pre = q ++ [p] ∧ s.chunk_base + p * 16 + 2 ≤ a ∧ a < s.chunk_base + p * 16 + 4 :=
    fun a ha => linkOf_touches s Link.free_head pre a (fun _ hx => hx) hpre0 ha
  have htlt : ∀ a, (linkOf s Link.free_head pre).touches a → a + 12 < s.chunk_base + c * 16 := by
    intro a ha
    obtain ⟨q, p, hq, hp1, hp2⟩ := htouch a ha
    have := hpre p (by simp [hq])
    omega
  have hget : (linkOf s Link.free_head pre).get s = c := linkOf_get s _ pre c hseg
  have hget2 : (linkOf s Link.free_head pre).get (take_shrink s units (s.chunk_base + c * 16))
      = c := by
    refine Eq.trans ?_ hget
    refine link_get_congr _ _ _ hf2 hu2' ?_
    intro a ha
    have := htlt a ha
    exact hfr2 a (by omega) (by omega)
  have hnx2 : next (take_shrink s units (s.chunk_base + c * 16)) (s.chunk_base + c * 16)
      = bnext s c := by
    unfold bnext
    rw [hcc]
    apply next_congr
    intro x hx1 hx2
    exact hfr2 x (by omega) (by omega)
  have hfl5' : ∀ (s5 : State) (v : Nat),
      s5.free_list = ((linkOf s Link.free_head pre).set
        (take_shrink s units (s.chunk_base + c * 16)) v).free_list →
      ∀ q p, pre = q ++ [p] → s5.free_list = s.free_list := by
    intro s5 v hs5 q p hq
    rw [hs5, link_set_free_list _ _ _ (by rw [hq, linkOf_concat]; simp), hf2]
  have hul5' : ∀ (s5 : State) (v : Nat),
      s5.used_list = ((linkOf s Link.free_head pre).set
        (take_shrink s units (s.chunk_base + c * 16)) v).used_list →
      s5.used_list = s.used_list := by
    intro s5 v hs5
    rw [hs5, link_set_used_list _ _ _ (linkOf_ne_used_head s pre), hu2']
  have hcf2 : conf (take_shrink s units (s.chunk_base + c * 16)) (s.chunk_base + c * 16)
      = (7 * units) % 65536 := by
    show read16 (write16 (write16 s.mem _ units) (_ + 4) _) (_ + 4) = _
    rw [read16_write16_eq]
    have e : size (set_size s (s.chunk_base + c * 16) units) (s.chunk_base + c * 16)
        = units := by
      show read16 (write16 s.mem _ units) _ = _
      rw [read16_write16_eq]
      omega
    rw [e]
  by_cases hex : units = bsize s c
  · -- exact fit: the block is unlinked
    have hns : (size s (s.chunk_base + c * 16) - units) % 65536 = 0 := by
      rw [← hbs, hex]; simp
    rw [hns] at h
    obtain ⟨hs5, hb5, hst5, hg5, hfr5⟩ := take_relink_exact _ _ _ _ _ h
    have hframe : ∀ x, (x < s.chunk_base + c * 16 ∨
        s.chunk_base + c * 16 + 16 * bsize s c ≤ x) →
        ¬ (linkOf s Link.free_head pre).touches x → read8 s5.mem x = read8 s.mem x := by
      intro x hx ht
      rw [hfr5 x ht]
      exact hfr2 x (by omega) (by omega)
    obtain ⟨hwf5, hsz5⟩ := detach_wf s s5 pre post ul [] c hwf (hb5.trans hb2)
      (hul5' s5 _ (by rw [hs5])) (hfl5' s5 _ (by rw [hs5])) hframe
      (by show _ = _; rw [hg5, hnx2]) (by simp) (by simp)
    simp only [if_pos hex]
    have hszc : bsize s5 c = units := by
      unfold bsize
      rw [o2p_of_ne_zero s5 c hc0, hb5, hb2]
      have : size s5 (s.chunk_base + c * 16)
          = size (take_shrink s units (s.chunk_base + c * 16)) (s.chunk_base + c * 16) := by
        apply size_congr
        intro x hx1 hx2
        apply hfr5
        intro ht
        have := htlt x ht
        omega
      rw [this, hsz2]
      omega
    refine ⟨hwf5, hb5.trans hb2, hst5.trans hst2, hszc, ?_, hsz5, hg5.trans hnx2, ?_, ?_⟩
    · intro o ho
      have ho' : o ∈ pre ++ post ++ ul := by simpa using ho
      rw [hsz5 o ho']
      simp only [List.mem_append] at ho'
      rcases ho' with (h1 | h1) | h1
      · have := hpre o h1; omega
      · have := hpost o h1; omega
      · have := hul o h1; omega
    · intro hlt
      omega
    · rw [← hcf2]
      apply conf_congr
      intro x hx1 hx2
      apply hfr5
      intro ht
      have := htlt x ht
      omega
  · -- split: the remainder becomes a free cell of its own
    have hlt : units < bsize s c := by omega
    have hns : (size s (s.chunk_base + c * 16) - units) % 65536 = bsize s c - units := by
      rw [← hbs]; omega
    rw [hns] at h
    obtain ⟨hb5, hul5, hfl5, hst5, hg5, hsz5n, hnx5n, hfr5⟩ :=
      take_relink_split (take_shrink s units (s.chunk_base + c * 16)) units
        (linkOf s Link.free_head pre) (s.chunk_base + c * 16) c (bsize s c - units) s5
        (by omega) hget2 (by omega)
        (by intro a ha; have := htlt a ha; rw [hb2]; omega)
        (by rw [hb2]; omega)
        (by intro a ha; have := htlt a ha; omega) h
    rw [hb2] at hsz5n hnx5n hfr5
    have hframe : ∀ x, (x < s.chunk_base + c * 16 ∨
        s.chunk_base + c * 16 + 16 * bsize s c ≤ x) →
        ¬ (linkOf s Link.free_head pre).touches x → read8 s5.mem x = read8 s.mem x := by
      intro x hx ht
      rw [hfr5 x ht (by omega)]
      exact hfr2 x (by omega) (by omega)
    have hn0 : c + units ≠ 0 := by omega
    have hbn : bsize s5 (c + units) = bsize s c - units := by
      rw [bsize_eq s5 _ hn0, hb5, hb2, hsz5n]
      omega
    obtain ⟨hwf5, hsz5⟩ := detach_wf s s5 pre post ul [c + units] c hwf (hb5.trans hb2)
      (hul5' s5 _ hul5) (hfl5' s5 _ hfl5) hframe
      (by
        refine ⟨hg5, hn0, ?_⟩
        show bnext s5 (c + units) = _
        unfold bnext
        rw [o2p_of_ne_zero s5 _ hn0, hb5, hb2, hnx5n, hnx2]
        rfl)
      (by
        intro n hn
        rw [List.mem_singleton.1 hn, hbn]
        omega)
      (by simp)
    simp only [if_neg hex]
    have hszc : bsize s5 c = units := by
      unfold bsize
      rw [o2p_of_ne_zero s5 c hc0, hb5, hb2]
      have : size s5 (s.chunk_base + c * 16)
          = size (take_shrink s units (s.chunk_base + c * 16)) (s.chunk_base + c * 16) := by
        apply size_congr
        intro x hx1 hx2
        apply hfr5
        · intro ht
          have := htlt x ht
          omega
        · omega
      rw [this, hsz2]
      omega
    have hbnn : bnext s5 (c + units) = bnext s c := by
      unfold bnext
      rw [o2p_of_ne_zero s5 _ hn0, hb5, hb2, hnx5n, hnx2]
      rfl
    refine ⟨hwf5, hb5.trans hb2, hst5.trans hst2, hszc, ?_,
      fun o ho => hsz5 o ho, hg5, fun _ => ⟨hbn, hbnn⟩, ?_⟩
    · intro o ho
      simp only [List.mem_append, List.mem_singleton] at ho
      rcases ho with ((h1 | h1) | h1) | h1
      · rw [hsz5 o (by simp [h1])]
        have := hpre o h1; omega
      · right; omega
      · rw [hsz5 o (by simp [h1])]
        have := hpost o h1; omega
      · rw [hsz5 o (by simp [h1])]
        have := hul o h1; omega
    · rw [← hcf2]
      apply conf_congr
      intro x hx1 hx2
      apply hfr5
      · intro ht
        have := htlt x ht
        omega
      · omega

/-- Lines 288-307 of `gc_malloc1` on a well-formed heap: after the relinking the
heap is well formed again, with the taken block (now `units` slots at offset
`c`) on neither list and disjoint from every listed block. -/
theorem take_relink_wf (s : State) (pre post ul : List Nat) (c units : Nat) (s5 : State)
    (hwf : WF s (pre ++ c :: post) ul) (hu1 : 1 ≤ units) (hu2 : units ≤ bsize s c)
    (h : take_relink (take_shrink s units (o2p s c)) units (linkOf s Link.free_head pre)
      (o2p s c) ((size s (o2p s c) - units) % 65536) = .ok s5) :
    ∃ fl5, WF s5 fl5 ul ∧ s5.chunk_base = s.chunk_base ∧ s5.stack_top = s.stack_top ∧
      bsize s5 c = units ∧ (∀ o ∈ fl5 ++ ul, o + bsize s5 o ≤ c ∨ c + units ≤ o) := by
  obtain ⟨h1, h2, h3, h4, h5, _⟩ := take_relink_lists s pre post ul c units s5 hwf hu1 hu2 h
  exact ⟨_, h1, h2, h3, h4, h5⟩

/-! ## The single-shot allocator preserves well-formedness -/

theorem o2p_congr (s s' : State) (o : Nat) (hb : s'.chunk_base = s.chunk_base) :
    o2p s' o = o2p s o := by
  unfold o2p
  rw [hb]

theorem gc_malloc1_take_wf (s : State) (pre post ul : List Nat) (c units bytes : Nat)
    (s' : State) (a : Nat) (hwf : WF s (pre ++ c :: post) ul) (hu1 : 1 ≤ units)
    (hu2 : units ≤ bsize s c) (hbytes : bytes + 8 ≤ 16 * units)
    (h : gc_malloc1_take s bytes units (linkOf s Link.free_head pre) (o2p s c) = .ok (s', a)) :
    ∃ fl' ul', WF s' fl' ul' ∧ s'.chunk_base = s.chunk_base ∧ s'.stack_top = s.stack_top := by
  obtain ⟨hc0, hsz1, hcb, _, _, _, _, _⟩ := wf_free_split s pre post ul c hwf
  unfold gc_malloc1_take at h
  simp only [] at h
  split at h
  · cases h
  · rename_i s5 hl
    obtain ⟨fl5, hwf5, hb5, hst5, hsz5, hout5⟩ := take_relink_wf s pre post ul c units s5 hwf hu1 hu2 hl
    split at h
    · cases h
      exact ⟨fl5, ul, hwf5, hb5, hst5⟩
    · rw [← o2p_congr s s5 c hb5] at h
      have hout : ∀ o ∈ fl5 ++ ul, o + bsize s5 o ≤ c ∨ c + units ≤ o := hout5
      obtain ⟨hwf', hb', hst', _⟩ := take_finish_wf s5 fl5 ul c units bytes s' a hwf5 hc0 hu1
        (by omega) hout hbytes h
      exact ⟨fl5, c :: ul, hwf', hb'.trans hb5, hst'.trans hst5⟩

theorem gc_malloc1_loop_wf (fuel : Nat) : ∀ (s : State) (pre rest ul : List Nat)
    (bytes units : Nat) (s' : State) (a : Nat), WF s (pre ++ rest) ul → 1 ≤ units →
    bytes + 8 ≤ 16 * units →
    gc_malloc1_loop fuel s bytes units (linkOf s Link.free_head pre) (o2p s (headOr0 rest))
      = .ok (s', a) →
    ∃ fl' ul', WF s' fl' ul' ∧ s'.chunk_base = s.chunk_base ∧ s'.stack_top = s.stack_top := by
  induction fuel with
  | zero =>
    intro s pre rest ul bytes units s' a _ _ _ h
    simp [gc_malloc1_loop] at h
  | succ n ih =>
    intro s pre rest ul bytes units s' a hwf hu1 hbytes h
    unfold gc_malloc1_loop at h
    split at h
    · cases h
      exact ⟨pre ++ rest, ul, hwf, rfl, rfl⟩
    · rename_i hcc
      cases rest with
      | nil => exact absurd (by simp [headOr0, o2p]) hcc
      | cons c post =>
        simp only [headOr0] at h hcc
        split at h
        · rename_i hfit
          exact gc_malloc1_take_wf s pre post ul c units bytes s' a hwf hu1 hfit hbytes h
        · obtain ⟨hc0, _, _, _, _, _, _, hlpost⟩ := wf_free_split s pre post ul c hwf
          have hnext : next s (o2p s c) = headOr0 post := isList_head s post _ hlpost
          rw [hnext, ← linkOf_concat s Link.free_head pre c] at h
          have hwf2 : WF s ((pre ++ [c]) ++ post) ul := by
            rw [List.append_assoc]
            exact hwf
          exact ih s (pre ++ [c]) post ul bytes units s' a hwf2 hu1 hbytes h

theorem gc_malloc1_wf (fuel : Nat) (s : State) (fl ul : List Nat) (bytes : Nat) (s' : State)
    (a : Nat) (hwf : WF s fl ul) (hu1 : 1 ≤ units_of bytes)
    (hbytes : bytes + 8 ≤ 16 * units_of bytes)
    (h : gc_malloc1 fuel s bytes = .ok (s', a)) :
    ∃ fl' ul', WF s' fl' ul' ∧ s'.chunk_base = s.chunk_base ∧ s'.stack_top = s.stack_top := by
  unfold gc_malloc1 at h
  simp only [] at h
  have hwf1 : WF { s with
      bytes_allocated := (s.bytes_allocated + units_of bytes * ALLOC_UNIT) % 18446744073709551616,
      blocks_allocated := (s.blocks_allocated + 1) % 18446744073709551616 } ([] ++ fl) ul :=
    wf_congr s _ fl ul hwf rfl rfl ⟨rfl, fun _ _ => ⟨rfl, rfl⟩⟩
  have hh : s.free_list = headOr0 fl := isList_head s fl _ hwf.free
  have key := gc_malloc1_loop_wf fuel _ [] fl ul bytes (units_of bytes) s' a hwf1 hu1 hbytes
  rw [← hh] at key
  exact key h

/-- A request of at most 65535 slots has at least one slot, and its slots hold
the request together with the header. -/
theorem units_of_bounds (bytes : Nat) (hb : bytes + 8 ≤ 1048560) :
    1 ≤ units_of bytes ∧ bytes + 8 ≤ 16 * units_of bytes := by
  rw [units_of_small bytes hb]
  omega

/-- Whenever the single-shot allocator returns an address, the size field of the
handed-out block is the slot count `units_of bytes` of the request, that is the
count after its conversion to 16 bits. -/
theorem gc_malloc1_size_is_units (fuel : Nat) (s : State) (bytes : Nat) (s' : State) (a : Nat)
    (h : gc_malloc1 fuel s bytes = .ok (s', a)) (ha : a ≠ 0) :
    size s' (a - SIZEOF_CELL) = units_of bytes := by
  unfold gc_malloc1 at h
  simp only [] at h
  exact (gc_malloc1_loop_ok _ _ _ _ _ _ _ _ (o2p_zero_or_ge _ _) h ha).2.1
/-! ## Stores that only touch mark bytes -/

theorem markFrame_refl (s : State) (ul : List Nat) : MarkFrame s s ul :=
  ⟨rfl, rfl, rfl, rfl, fun _ _ => rfl⟩

theorem markFrame_trans (s1 s2 s3 : State) (ul : List Nat) (h12 : MarkFrame s1 s2 ul)
    (h23 : MarkFrame s2 s3 ul) : MarkFrame s1 s3 ul := by
  obtain ⟨a1, a2, a3, a4, a5⟩ := h12
  obtain ⟨b1, b2, b3, b4, b5⟩ := h23
  refine ⟨b1.trans a1, b2.trans a2, b3.trans a3, b4.trans a4, ?_⟩
  intro x hx
  rw [b5 x (by rw [a1]; exact hx), a5 x hx]

theorem markFrame_mono (s s' : State) (l ul : List Nat) (h : MarkFrame s s' l)
    (hl : ∀ u ∈ l, u ∈ ul) : MarkFrame s s' ul := by
  obtain ⟨a1, a2, a3, a4, a5⟩ := h
  exact ⟨a1, a2, a3, a4, fun x hx => a5 x (fun u hu => hx u (hl u hu))⟩

theorem markFrame_agree (s s' : State) (ul l : List Nat) (h : MarkFrame s s' ul)
    (h0 : ∀ o ∈ l, o ≠ 0) : Agree s s' l := by
  apply agree_of_frame s s' l h.1 _ h0
  intro o _ _ x hx1 hx2
  apply h.2.2.2.2
  intro u _
  omega

theorem markFrame_wf (s s' : State) (fl ul l : List Nat) (h : MarkFrame s s' l)
    (hwf : WF s fl ul) : WF s' fl ul :=
  wf_congr s s' fl ul hwf h.2.1 h.2.2.1 (markFrame_agree s s' l _ h (wf_ne_zero s fl ul hwf))

theorem markFrame_set_mark (s : State) (ul : List Nat) (u v : Nat) (hu : u ∈ ul) :
    MarkFrame s (set_mark s (s.chunk_base + u * 16) v) ul := by
  refine ⟨rfl, rfl, rfl, rfl, ?_⟩
  intro x hx
  exact read8_write8_ne _ _ _ _ (hx u hu)

theorem markFrame_bsize (s s' : State) (ul : List Nat) (h : MarkFrame s s' ul) (o : Nat) :
    bsize s' o = bsize s o := by
  by_cases ho : o = 0
  · subst ho
    show size s' 0 = size s 0
    apply size_congr
    intro x _ _
    apply h.2.2.2.2
    intro u _
    omega
  · rw [bsize_eq s' o ho, bsize_eq s o ho, h.1]
    apply size_congr
    intro x _ _
    apply h.2.2.2.2
    intro u _
    omega

theorem markFrame_bnext (s s' : State) (ul : List Nat) (h : MarkFrame s s' ul) (o : Nat)
    (ho : o ≠ 0) : bnext s' o = bnext s o := by
  rw [bnext_eq s' o ho, bnext_eq s o ho, h.1]
  apply next_congr
  intro x _ _
  apply h.2.2.2.2
  intro u _
  omega

/-! ## The walk of `init_gc_collect` -/

theorem init_gc_collect_loop_spec (fuel : Nat) : ∀ (s : State) (l : List Nat) (h : Nat)
    (s' : State), IsList s h l → init_gc_collect_loop fuel s (o2p s h) = .ok s' →
    MarkFrame s s' l ∧ ∀ u ∈ l, mark_of s' (s.chunk_base + u * 16) = 0 := by
  induction fuel with
  | zero =>
    intro s l h s' _ hr
    simp [init_gc_collect_loop] at hr
  | succ n ih =>
    intro s l h s' hl hr
    unfold init_gc_collect_loop at hr
    cases l with
    | nil =>
      simp only [IsList] at hl
      subst hl
      simp only [o2p, if_true] at hr
      cases hr
      exact ⟨markFrame_refl _ _, fun u hu => by cases hu⟩
    | cons o l =>
      obtain ⟨h1, h2, h3⟩ := hl
      subst h1
      rw [o2p_of_ne_zero s h h2, if_neg (by omega)] at hr
      simp only [] at hr
      have hf1 : MarkFrame s (set_mark s (s.chunk_base + h * 16) GC_NO_MARK) (h :: l) :=
        markFrame_set_mark s (h :: l) h GC_NO_MARK (List.mem_cons_self _ _)
      have hn : next (set_mark s (s.chunk_base + h * 16) GC_NO_MARK) (s.chunk_base + h * 16)
          = bnext s h := by
        have := markFrame_bnext _ _ _ hf1 h h2
        rw [bnext_eq _ h h2] at this
        exact this
      rw [hn] at hr
      have hl1 : IsList (set_mark s (s.chunk_base + h * 16) GC_NO_MARK) (bnext s h) l :=
        isList_congr s _ l _ (markFrame_agree _ _ _ _ hf1 (isList_ne_zero s l _ h3)) h3
      obtain ⟨hf2, hm2⟩ := ih _ l _ s' hl1 hr
      have hf2' : MarkFrame (set_mark s (s.chunk_base + h * 16) GC_NO_MARK) s' (h :: l) :=
        markFrame_mono _ _ l _ hf2 (fun u hu => List.mem_cons_of_mem _ hu)
      refine ⟨markFrame_trans _ _ _ _ hf1 hf2', ?_⟩
      intro u hu
      by_cases hul : u ∈ l
      · exact hm2 u hul
      · rcases List.mem_cons.1 hu with h4 | h4
        · subst h4
          have : mark_of s' (s.chunk_base + u * 16)
              = mark_of (set_mark s (s.chunk_base + u * 16) GC_NO_MARK) (s.chunk_base + u * 16) := by
            apply mark_congr
            apply hf2.2.2.2.2
            intro w hw
            show _ ≠ s.chunk_base + w * 16 + 7
            intro heq
            have : w = u := by omega
            exact hul (this ▸ hw)
          rw [this]
          exact read8_write8_eq _ _ _
        · exact absurd h4 hul

/-! ## The used-list point query -/

theorem pointsInto_iff (s : State) (o : Nat) (w : Int) (ho : o ≠ 0) :
    PointsInto s o w ↔
      (w ≥ ((s.chunk_base + o * 16 : Nat) : Int) + (SIZEOF_CELL : Int) ∧
        w < ((s.chunk_base + o * 16 : Nat) : Int) + (SIZEOF_CELL : Int)
          + (ALLOC_UNIT : Int) * (size s (s.chunk_base + o * 16) : Int) - (SIZEOF_CELL : Int)) := by
  unfold PointsInto
  rw [bsize_eq s o ho, o2p_of_ne_zero s o ho]
  simp only [SIZEOF_CELL, ALLOC_UNIT]
  push_cast
  constructor
  · rintro ⟨h1, h2⟩
    constructor <;> omega
  · rintro ⟨h1, h2⟩
    constructor <;> omega

theorem find_ptr_loop_spec (fuel : Nat) : ∀ (s : State) (addr : Int) (co : Nat) (l : List Nat)
    (h : Nat) (r : Nat × Nat), IsList s h l → (∀ o ∈ l, o < 65536) →
    find_ptr_loop fuel s addr co (o2p s h) = .ok r →
    (r.1 = TRUE ∧ ∃ l1 l2, l = l1 ++ r.2 :: l2 ∧ PointsInto s r.2 addr ∧
        ∀ o ∈ l1, ¬ PointsInto s o addr) ∨
      (r.1 = FALSE ∧ r.2 = co ∧ ∀ o ∈ l, ¬ PointsInto s o addr) := by
  induction fuel with
  | zero =>
    intro s addr co l h r _ _ hr
    simp [find_ptr_loop] at hr
  | succ n ih =>
    intro s addr co l h r hl hlt hr
    unfold find_ptr_loop at hr
    cases l with
    | nil =>
      simp only [IsList] at hl
      subst hl
      simp only [o2p, if_true] at hr
      cases hr
      exact Or.inr ⟨rfl, rfl, fun o ho => by cases ho⟩
    | cons o l =>
      obtain ⟨h1, h2, h3⟩ := hl
      subst h1
      rw [o2p_of_ne_zero s h h2, if_neg (by omega)] at hr
      simp only [] at hr
      have hp := pointsInto_iff s h addr h2
      split at hr
      · rename_i hc
        cases hr
        have hpo : p2o s (s.chunk_base + h * 16) = h :=
          p2o_cell s h h2 (hlt h (List.mem_cons_self _ _))
        refine Or.inl ⟨rfl, [], l, ?_, ?_, fun o ho => by cases ho⟩
        · simp only [hpo, List.nil_append]
        · simp only [hpo]
          exact hp.2 hc
      · rename_i hc
        have hnp : ¬ PointsInto s h addr := fun hx => hc (hp.1 hx)
        have hn : next s (s.chunk_base + h * 16) = bnext s h := (bnext_eq s h h2).symm
        rw [hn] at hr
        rcases ih s addr co l _ r h3 (fun o ho => hlt o (List.mem_cons_of_mem _ ho)) hr with
          ⟨hr1, l1, l2, hl12, hpt, hnot⟩ | ⟨hr1, hr2, hnot⟩
        · refine Or.inl ⟨hr1, h :: l1, l2, by rw [hl12]; rfl, hpt, ?_⟩
          intro o ho
          rcases List.mem_cons.1 ho with h4 | h4
          · rw [h4]; exact hnp
          · exact hnot o h4
        · refine Or.inr ⟨hr1, hr2, ?_⟩
          intro o ho
          rcases List.mem_cons.1 ho with h4 | h4
          · rw [h4]; exact hnp
          · exact hnot o h4

theorem find_ptr_spec (fuel : Nat) (s : State) (fl ul : List Nat) (addr : Int) (co : Nat)
    (r : Nat × Nat) (hwf : WF s fl ul) (hr : find_ptr_gc_used_list fuel s addr co = .ok r) :
    (r.1 = TRUE ∧ ∃ l1 l2, ul = l1 ++ r.2 :: l2 ∧ PointsInto s r.2 addr ∧
        ∀ o ∈ l1, ¬ PointsInto s o addr) ∨
      (r.1 = FALSE ∧ r.2 = co ∧ ∀ o ∈ ul, ¬ PointsInto s o addr) :=
  find_ptr_loop_spec fuel s addr co ul _ r hwf.used
    (fun o ho => wf_lt s fl ul hwf o (List.mem_append_right _ ho)) hr

/-! ## The mark phase only touches mark bytes -/

theorem mark_range_frame (fl ul : List Nat) (fuel : Nat) : ∀ (s : State) (i top : Nat)
    (s' : State), WF s fl ul → mark_range fuel s i top = .ok s' → MarkFrame s s' ul := by
  induction fuel with
  | zero =>
    intro s i top s' _ hr
    simp [mark_range] at hr
  | succ n ih =>
    intro s i top s' hwf hr
    unfold mark_range at hr
    split at hr
    · simp only [] at hr
      split at hr
      · cases hr
      · rename_i found cell_offset hfind
        rcases find_ptr_spec n s fl ul _ 0 _ hwf hfind with
          ⟨hr1, l1, l2, hl12, hpt, _⟩ | ⟨hr1, _, _⟩
        · have hr1 : found = TRUE := hr1
          have hl12 : ul = l1 ++ cell_offset :: l2 := hl12
          have hmem : cell_offset ∈ ul := by rw [hl12]; simp
          have hne : cell_offset ≠ 0 := wf_ne_zero s fl ul hwf _ (List.mem_append_right _ hmem)
          rw [if_pos hr1, o2p_of_ne_zero s _ hne, if_neg (by omega)] at hr
          have hf1 := markFrame_set_mark s ul cell_offset
            (mark_of s (s.chunk_base + cell_offset * 16) ||| GC_MARK) hmem
          have hwf1 := markFrame_wf _ _ fl ul ul hf1 hwf
          split at hr
          · cases hr
          · rename_i s2 hrec1
            have hf2 := ih _ _ _ _ hwf1 hrec1
            have hwf2 := markFrame_wf _ _ fl ul ul hf2 hwf1
            have hf3 := ih _ _ _ _ hwf2 hr
            exact markFrame_trans _ _ _ _ hf1 (markFrame_trans _ _ _ _ hf2 hf3)
        · have hr1' : found = FALSE := hr1
          rw [if_neg (by rw [hr1']; decide)] at hr
          exact ih _ _ _ _ hwf hr
    · cases hr
      exact markFrame_refl _ _

/-! ## The insertion table on lists of blocks -/

theorem blocks_append (s : State) (a b : List Nat) :
    blocks s (a ++ b) = blocks s a ++ blocks s b := by
  unfold blocks
  exact List.map_append _ _ _

theorem blocks_congr (s s' : State) (l : List Nat) (h : ∀ o ∈ l, bsize s' o = bsize s o) :
    blocks s' l = blocks s l := by
  unfold blocks
  apply List.map_congr_left
  intro o ho
  rw [h o ho]

theorem mem_blocks (s : State) (l : List Nat) (b : Nat × Nat) :
    b ∈ blocks s l ↔ ∃ o ∈ l, b = (o, bsize s o) := by
  unfold blocks
  simp only [List.mem_map]
  constructor
  · rintro ⟨o, ho, h⟩
    exact ⟨o, ho, h.symm⟩
  · rintro ⟨o, ho, h⟩
    exact ⟨o, ho, h.symm⟩

theorem covers_blocks (s : State) (l : List Nat) (x : Nat) :
    Covers (blocks s l) x ↔ ∃ o ∈ l, o ≤ x ∧ x < o + bsize s o := by
  unfold Covers
  constructor
  · rintro ⟨b, hb, h1, h2⟩
    obtain ⟨o, ho, he⟩ := (mem_blocks s l b).1 hb
    subst he
    exact ⟨o, ho, h1, h2⟩
  · rintro ⟨o, ho, h1, h2⟩
    exact ⟨(o, bsize s o), (mem_blocks s l _).2 ⟨o, ho, rfl⟩, h1, h2⟩

theorem covers_append (A B : List (Nat × Nat)) (x : Nat) :
    Covers (A ++ B) x ↔ Covers A x ∨ Covers B x := by
  unfold Covers
  constructor
  · rintro ⟨b, hb, h⟩
    rcases List.mem_append.1 hb with h1 | h1
    · exact Or.inl ⟨b, h1, h⟩
    · exact Or.inr ⟨b, h1, h⟩
  · rintro (⟨b, hb, h⟩ | ⟨b, hb, h⟩)
    · exact ⟨b, List.mem_append_left _ hb, h⟩
    · exact ⟨b, List.mem_append_right _ hb, h⟩

theorem covers_cons (b : Nat × Nat) (B : List (Nat × Nat)) (x : Nat) :
    Covers (b :: B) x ↔ (b.1 ≤ x ∧ x < b.1 + b.2) ∨ Covers B x := by
  unfold Covers
  simp only [List.mem_cons, exists_eq_or_imp]

theorem covers_nil (x : Nat) : ¬ Covers [] x := by
  unfold Covers
  simp

theorem covers_table_head (I C : Nat × Nat) (x : Nat) :
    Covers (table_head I C) x ↔
      (I.1 ≤ x ∧ x < I.1 + I.2) ∨ (C.1 ≤ x ∧ x < C.1 + C.2) := by
  unfold table_head
  split
  · simp only [covers_cons, covers_nil, or_false]
    omega
  · simp only [covers_cons, covers_nil, or_false]

theorem covers_table_mid (P I C : Nat × Nat) (x : Nat) :
    Covers (table_mid P I C) x ↔
      (P.1 ≤ x ∧ x < P.1 + P.2) ∨ (I.1 ≤ x ∧ x < I.1 + I.2) ∨ (C.1 ≤ x ∧ x < C.1 + C.2) := by
  unfold table_mid
  split
  · simp only [covers_cons, covers_nil, or_false]
    omega
  · split
    · simp only [covers_cons, covers_nil, or_false]
      omega
    · split
      · simp only [covers_cons, covers_nil, or_false]
        omega
      · simp only [covers_cons, covers_nil, or_false]

theorem covers_table_walk (I : Nat × Nat) (x : Nat) : ∀ (L : List (Nat × Nat)) (P : Nat × Nat),
    Covers (table_walk P I L) x ↔
      (I.1 ≤ x ∧ x < I.1 + I.2) ∨ Covers (P :: L) x := by
  intro L
  induction L with
  | nil =>
    intro P
    unfold table_walk
    split
    · simp only [covers_cons, covers_nil, or_false]
      omega
    · simp only [covers_cons, covers_nil, or_false]
      omega
  | cons C rest ih =>
    intro P
    unfold table_walk
    split
    · simp only [covers_append, covers_table_mid, covers_cons]
      tauto
    · simp only [covers_cons, ih C]
      tauto

/-- The insertion of the spec adds exactly the slots of `I` to the slots of the
free list. -/
theorem covers_spec_insert (I : Nat × Nat) (L : List (Nat × Nat)) (x : Nat) :
    Covers (spec_insert I L) x ↔ Covers L x ∨ (I.1 ≤ x ∧ x < I.1 + I.2) := by
  cases L with
  | nil =>
    simp only [spec_insert]
    simp only [covers_cons, covers_nil, or_false, false_or]
  | cons C rest =>
    simp only [spec_insert]
    split
    · simp only [covers_append, covers_table_head, covers_cons]
      tauto
    · simp only [covers_table_walk, covers_cons]
      tauto

theorem table_walk_stop (I C : Nat × Nat) (R : List (Nat × Nat)) (hC : I.1 ≤ C.1) :
    ∀ (Q : List (Nat × Nat)) (P0 P : Nat × Nat) (A : List (Nat × Nat)),
      (∀ b ∈ Q, b.1 < I.1) → P0 :: Q = A ++ [P] →
      table_walk P0 I (Q ++ C :: R) = A ++ table_mid P I C ++ R := by
  intro Q
  induction Q with
  | nil =>
    intro P0 P A _ h
    have hA : A = [] ∧ P0 = P := by
      cases A with
      | nil => simpa using h
      | cons a A' =>
        simp only [List.cons_append, List.cons.injEq] at h
        have := congrArg List.length h.2
        simp at this
    obtain ⟨h1, h2⟩ := hA
    subst h1
    subst h2
    simp only [List.nil_append]
    unfold table_walk
    rw [if_pos hC]
  | cons q Q ih =>
    intro P0 P A hQ h
    have hq := hQ q (List.mem_cons_self _ _)
    cases A with
    | nil =>
      have := congrArg List.length h
      simp at this
    | cons a A' =>
      simp only [List.cons_append, List.cons.injEq] at h
      obtain ⟨h1, h2⟩ := h
      subst h1
      show table_walk P0 I (q :: (Q ++ C :: R)) = _
      unfold table_walk
      rw [if_neg (by omega), ih q P A' (fun b hb => hQ b (List.mem_cons_of_mem _ hb)) h2]
      simp

/-- The insertion of the spec when `C` is the first block at or behind `I`: the
head row when `C` is the head, else the row chosen by the predecessor `P`. -/
theorem spec_insert_stop (I C : Nat × Nat) (R : List (Nat × Nat)) (hC : I.1 ≤ C.1) :
    spec_insert I (C :: R) = table_head I C ++ R ∧
      ∀ (Q : List (Nat × Nat)) (P : Nat × Nat), (∀ b ∈ Q ++ [P], b.1 < I.1) →
        spec_insert I (Q ++ [P] ++ C :: R) = Q ++ table_mid P I C ++ R := by
  constructor
  · simp only [spec_insert]
    rw [if_pos hC]
  · intro Q P hQ
    cases Q with
    | nil =>
      have hp := hQ P (by simp)
      show spec_insert I (P :: C :: R) = _
      simp only [spec_insert]
      rw [if_neg (by omega)]
      exact table_walk_stop I C R hC [] P P [] (by simp) rfl
    | cons q Q' =>
      have hq := hQ q (by simp)
      show spec_insert I (q :: (Q' ++ [P] ++ C :: R)) = _
      simp only [spec_insert]
      rw [if_neg (by omega)]
      have := table_walk_stop I C R hC (Q' ++ [P]) q P (q :: Q')
        (fun b hb => hQ b (by simp at hb ⊢; tauto)) (by simp)
      rw [this]

theorem table_head_length (I C : Nat × Nat) : (table_head I C).length ≤ 2 := by
  unfold table_head
  split <;> simp

theorem table_mid_length (P I C : Nat × Nat) : (table_mid P I C).length ≤ 3 := by
  unfold table_mid
  split
  · simp
  · split
    · simp
    · split <;> simp

theorem table_walk_length (I : Nat × Nat) : ∀ (L : List (Nat × Nat)) (P : Nat × Nat),
    (table_walk P I L).length ≤ L.length + 2 := by
  intro L
  induction L with
  | nil =>
    intro P
    unfold table_walk
    split <;> simp
  | cons C rest ih =>
    intro P
    unfold table_walk
    split
    · have := table_mid_length P I C
      simp only [List.length_append, List.length_cons]
      omega
    · have := ih C
      simp only [List.length_cons]
      omega

/-- The insertion of the spec lengthens the free list by one block at most. -/
theorem spec_insert_length (I : Nat × Nat) (L : List (Nat × Nat)) :
    (spec_insert I L).length ≤ L.length + 1 := by
  cases L with
  | nil => simp [spec_insert]
  | cons C rest =>
    simp only [spec_insert]
    split
    · have := table_head_length I C
      simp only [List.length_append, List.length_cons]
      omega
    · have := table_walk_length I rest C
      simp only [List.length_cons]
      omega

/-! ## Size and next fields under stores to size and next fields -/

theorem size_set_size_eq (s : State) (p v : Nat) : size (set_size s p v) p = v % 65536 :=
  read16_write16_eq _ _ _

theorem size_set_size_ne (s : State) (p v q : Nat) (h : q + 2 ≤ p ∨ p + 2 ≤ q) :
    size (set_size s p v) q = size s q :=
  read16_write16_ne _ _ _ _ h

theorem size_set_next (s : State) (p v q : Nat) (h : q ≤ p ∨ p + 4 ≤ q) :
    size (set_next s p v) q = size s q :=
  read16_write16_ne _ _ _ _ (by omega)

theorem next_set_next_eq (s : State) (p v : Nat) : next (set_next s p v) p = v % 65536 :=
  read16_write16_eq _ _ _

theorem next_set_next_ne (s : State) (p v q : Nat) (h : q + 2 ≤ p ∨ p + 2 ≤ q) :
    next (set_next s p v) q = next s q :=
  read16_write16_ne _ _ _ _ (by omega)

theorem next_set_size (s : State) (p v q : Nat) (h : q + 4 ≤ p ∨ p ≤ q) :
    next (set_size s p v) q = next s q :=
  read16_write16_ne _ _ _ _ (by omega)

/-! ## Rebuilding the free list around an insertion -/

theorem wf_freeOK (s : State) (fl ul : List Nat) (h : WF s fl ul) : FreeOK s fl := by
  refine ⟨h.free, h.sorted, ?_⟩
  intro f hf
  have := h.bounds f (List.mem_append_left _ hf)
  simp only [CELL_COUNT, CHUNK_SIZE, ALLOC_UNIT] at this
  omega

/-- The cells `X` of the free list `q ++ X ++ post` are replaced by the cells
`Y`; the cells of `q` and `post` keep their size and next fields. -/
theorem free_rebuild (s s' : State) (q X Y post K : List Nat)
    (hok : FreeOK s (q ++ X ++ post))
    (hag : Agree s s' (q ++ post)) (hagK : Agree s s' K)
    (hhead : (q = [] → s'.free_list = headOr0 (Y ++ post)) ∧
      (q ≠ [] → s'.free_list = s.free_list ∧ headOr0 (Y ++ post) = headOr0 (X ++ post)))
    (hY : Seg (bnext s') (headOr0 (Y ++ post)) Y (headOr0 post))
    (hYb : ∀ y ∈ Y, 1 ≤ bsize s' y ∧ y + bsize s' y ≤ 65536)
    (hYs : Y.Pairwise (fun a b => a + bsize s' a < b))
    (hqY : ∀ a ∈ q, ∀ y ∈ Y, a + bsize s a < y)
    (hYp : ∀ y ∈ Y, ∀ b ∈ post, y + bsize s' y < b)
    (hKold : ∀ u ∈ K, ∀ f ∈ q ++ X ++ post, Disjoint s f u)
    (hKY : ∀ u ∈ K, ∀ y ∈ Y, Disjoint s' y u) :
    FreeOK s' (q ++ Y ++ post) ∧ ∀ u ∈ K, ∀ f ∈ q ++ Y ++ post, Disjoint s' f u := by
  obtain ⟨hl, hs, hbd⟩ := hok
  have hszq : ∀ o ∈ q, bsize s' o = bsize s o := fun o ho => (hag.2 o (by simp [ho])).1
  have hszp : ∀ o ∈ post, bsize s' o = bsize s o := fun o ho => (hag.2 o (by simp [ho])).1
  have hszK : ∀ o ∈ K, bsize s' o = bsize s o := fun o ho => (hagK.2 o ho).1
  rw [isList_iff_seg, List.append_assoc] at hl
  obtain ⟨m, hq1, hq2⟩ := seg_split _ q (X ++ post) _ _ hl
  obtain ⟨m2, _, hp2⟩ := seg_split _ X post _ _ hq2
  have hm : m = headOr0 (X ++ post) := seg_head _ _ _ hq2
  have hm2 : m2 = headOr0 post := seg_head _ _ _ hp2
  have hsq : Seg (bnext s') s'.free_list q (headOr0 (Y ++ post)) := by
    by_cases hqe : q = []
    · subst hqe
      exact hhead.1 rfl
    · obtain ⟨h1, h2⟩ := hhead.2 hqe
      rw [h1, h2, ← hm]
      exact seg_congr _ _ q _ _ (fun o ho => (hag.2 o (by simp [ho])).2) hq1
  have hsp : Seg (bnext s') (headOr0 post) post 0 := by
    rw [← hm2]
    exact seg_congr _ _ post _ _ (fun o ho => (hag.2 o (by simp [ho])).2) hp2
  have hs1 := List.pairwise_append.1 hs
  have hs2 := List.pairwise_append.1 hs1.1
  refine ⟨⟨?_, ?_, ?_⟩, ?_⟩
  · rw [isList_iff_seg, List.append_assoc]
    exact seg_append _ _ _ _ _ _ hsq (seg_append _ _ _ _ _ _ hY hsp)
  · refine List.pairwise_append.2 ⟨List.pairwise_append.2 ⟨?_, hYs, ?_⟩, ?_, ?_⟩
    · refine List.Pairwise.imp_of_mem ?_ hs2.1
      intro x y hx _ hxy
      rw [hszq x hx]
      exact hxy
    · intro x hx y hy
      rw [hszq x hx]
      exact hqY x hx y hy
    · refine List.Pairwise.imp_of_mem ?_ hs1.2.1
      intro x y hx _ hxy
      rw [hszp x hx]
      exact hxy
    · intro x hx y hy
      rcases List.mem_append.1 hx with h1 | h1
      · rw [hszq x h1]
        exact hs1.2.2 x (by simp [h1]) y hy
      · exact hYp x h1 y hy
  · intro f hf
    simp only [List.mem_append] at hf
    rcases hf with (h1 | h1) | h1
    · rw [hszq f h1]; exact hbd f (by simp [h1])
    · exact hYb f h1
    · rw [hszp f h1]; exact hbd f (by simp [h1])
  · intro u hu f hf
    simp only [List.mem_append] at hf
    rcases hf with (h1 | h1) | h1
    · have := hKold u hu f (by simp [h1])
      unfold Disjoint at this ⊢
      rw [hszq f h1, hszK u hu]
      exact this
    · exact hKY u hu f h1
    · have := hKold u hu f (by simp [h1])
      unfold Disjoint at this ⊢
      rw [hszp f h1, hszK u hu]
      exact this

/-! ## The stores of `insert_free` -/

theorem insert_free_at_frame (s : State) (coff i p c : Nat) :
    (insert_free_at s coff i p c).chunk_base = s.chunk_base ∧
      (insert_free_at s coff i p c).used_list = s.used_list ∧
      (insert_free_at s coff i p c).stack_top = s.stack_top ∧
      ∀ x, ¬ (o2p s p ≤ x ∧ x < o2p s p + 4) → ¬ (o2p s i ≤ x ∧ x < o2p s i + 4) →
        read8 (insert_free_at s coff i p c).mem x = read8 s.mem x := by
  unfold insert_free_at
  simp only []
  split
  · split
    · refine ⟨rfl, rfl, rfl, ?_⟩
      intro x _ h2
      show read8 (write16 (write16 s.mem _ _) _ _) x = _
      rw [read8_write16_ne _ _ _ _ (by omega), read8_write16_ne _ _ _ _ (by omega)]
    · refine ⟨rfl, rfl, rfl, ?_⟩
      intro x _ h2
      show read8 (write16 s.mem _ _) x = _
      rw [read8_write16_ne _ _ _ _ (by omega)]
  · split
    · refine ⟨rfl, rfl, rfl, ?_⟩
      intro x h1 _
      show read8 (write16 (write16 s.mem _ _) _ _) x = _
      rw [read8_write16_ne _ _ _ _ (by omega), read8_write16_ne _ _ _ _ (by omega)]
    · split
      · refine ⟨rfl, rfl, rfl, ?_⟩
        intro x h1 _
        show read8 (write16 (write16 s.mem _ _) _ _) x = _
        rw [read8_write16_ne _ _ _ _ (by omega), read8_write16_ne _ _ _ _ (by omega)]
      · split
        · refine ⟨rfl, rfl, rfl, ?_⟩
          intro x h1 h2
          show read8 (write16 (write16 (write16 s.mem _ _) _ _) _ _) x = _
          rw [read8_write16_ne _ _ _ _ (by omega), read8_write16_ne _ _ _ _ (by omega),
            read8_write16_ne _ _ _ _ (by omega)]
        · refine ⟨rfl, rfl, rfl, ?_⟩
          intro x h1 h2
          show read8 (write16 (write16 s.mem _ _) _ _) x = _
          rw [read8_write16_ne _ _ _ _ (by omega), read8_write16_ne _ _ _ _ (by omega)]

/-- Cells other than `P` and `I` keep their fields under `insert_free`. -/
theorem insert_free_at_agree (s : State) (coff i p c : Nat) (L : List Nat)
    (hi : i ≠ 0) (hp : p ≠ 0) (hL : ∀ o ∈ L, o ≠ 0 ∧ o ≠ i ∧ o ≠ p) :
    Agree s (insert_free_at s coff i p c) L := by
  obtain ⟨hb, _, _, hfr⟩ := insert_free_at_frame s coff i p c
  apply agree_of_frame s _ L hb _ (fun o ho => (hL o ho).1)
  intro o ho _ x hx1 hx2
  obtain ⟨h0, h1, h2⟩ := hL o ho
  rw [o2p_of_ne_zero s p hp, o2p_of_ne_zero s i hi] at hfr
  apply hfr <;> omega

theorem insert_free_at_mark (s : State) (coff i p c o : Nat) (hi : i ≠ 0) (hp : p ≠ 0) :
    mark_of (insert_free_at s coff i p c) (s.chunk_base + o * 16)
      = mark_of s (s.chunk_base + o * 16) := by
  obtain ⟨_, _, _, hfr⟩ := insert_free_at_frame s coff i p c
  rw [o2p_of_ne_zero s p hp, o2p_of_ne_zero s i hi] at hfr
  apply mark_congr
  apply hfr <;> omega

theorem insert_free_at_conf (s : State) (coff i p c o : Nat) (hi : i ≠ 0) (hp : p ≠ 0) :
    conf (insert_free_at s coff i p c) (s.chunk_base + o * 16)
      = conf s (s.chunk_base + o * 16) := by
  obtain ⟨_, _, _, hfr⟩ := insert_free_at_frame s coff i p c
  rw [o2p_of_ne_zero s p hp, o2p_of_ne_zero s i hi] at hfr
  apply conf_congr
  intro x hx1 hx2
  apply hfr <;> omega

theorem insert_free_at_used (s : State) (coff i p c o : Nat) (hi : i ≠ 0) (hp : p ≠ 0) :
    used (insert_free_at s coff i p c) (s.chunk_base + o * 16)
      = used s (s.chunk_base + o * 16) := by
  obtain ⟨_, _, _, hfr⟩ := insert_free_at_frame s coff i p c
  rw [o2p_of_ne_zero s p hp, o2p_of_ne_zero s i hi] at hfr
  apply used_congr
  apply hfr <;> omega

theorem insert_free_at_counters (s : State) (coff i p c : Nat) :
    (insert_free_at s coff i p c).bytes_freed = s.bytes_freed ∧
      (insert_free_at s coff i p c).blocks_freed = s.blocks_freed := by
  unfold insert_free_at
  simp only []
  split
  · split <;> exact ⟨rfl, rfl⟩
  · split
    · exact ⟨rfl, rfl⟩
    · split
      · exact ⟨rfl, rfl⟩
      · split <;> exact ⟨rfl, rfl⟩

theorem others_ne (s : State) (fl K : List Nat) (i : Nat) (hK : Others s fl K i)
    (hi1 : 1 ≤ bsize s i) :
    ∀ u ∈ K, u ≠ 0 ∧ u ≠ i ∧ ∀ f ∈ fl, u ≠ f := by
  intro u hu
  obtain ⟨h0, h1, h2, h3⟩ := hK u hu
  refine ⟨h0, ?_, ?_⟩
  · intro he
    subst he
    unfold Disjoint at h2
    omega
  · intro f hf he
    subst he
    have := h3 u hf
    unfold Disjoint at this
    omega

/-- Insertion in front of the head `c` of the free list. -/
theorem insert_free_at_head (s : State) (c i : Nat) (post K : List Nat)
    (hok : FreeOK s (c :: post)) (hi0 : i ≠ 0) (hi1 : 1 ≤ bsize s i)
    (hic : i + bsize s i ≤ c) (hK : Others s (c :: post) K i) :
    ∃ fl', FreeOK (insert_free_at s i i c c) fl' ∧
      (∀ u ∈ K, ∀ f ∈ fl', Disjoint (insert_free_at s i i c c) f u) ∧
      Agree s (insert_free_at s i i c c) K ∧
      blocks (insert_free_at s i i c c) fl'
        = table_head (i, bsize s i) (c, bsize s c) ++ blocks s post := by
  obtain ⟨hl, hs, hbd⟩ := hok
  have hc0 : c ≠ 0 := hl.2.1
  have hcb := hbd c (List.mem_cons_self _ _)
  have hpost := (List.pairwise_cons.1 hs).1
  have hlp : bnext s c = headOr0 post := isList_head s post _ hl.2.2
  have hKne := others_ne s (c :: post) K i hK hi1
  have hagK : Agree s (insert_free_at s i i c c) K :=
    insert_free_at_agree s i i c c K hi0 hc0
      (fun u hu => ⟨(hKne u hu).1, (hKne u hu).2.1, (hKne u hu).2.2 c (List.mem_cons_self _ _)⟩)
  have hagP : Agree s (insert_free_at s i i c c) ([] ++ post) := by
    apply insert_free_at_agree s i i c c _ hi0 hc0
    intro o ho
    have h1 := hpost o ho
    have h2 := isList_ne_zero s post _ hl.2.2 o ho
    refine ⟨h2, ?_, ?_⟩ <;> omega
  have hb : (insert_free_at s i i c c).chunk_base = s.chunk_base :=
    (insert_free_at_frame s i i c c).1
  have hszK : ∀ u ∈ K, bsize (insert_free_at s i i c c) u = bsize s u :=
    fun u hu => (hagK.2 u hu).1
  have hKold : ∀ u ∈ K, ∀ f ∈ [] ++ [c] ++ post, Disjoint s f u :=
    fun u hu f hf => (hK u hu).2.2.2 f (by simpa using hf)
  have hI : o2p s i = s.chunk_base + i * 16 := o2p_of_ne_zero s i hi0
  have hC : o2p s c = s.chunk_base + c * 16 := o2p_of_ne_zero s c hc0
  have hsi := bsize_eq s i hi0
  have hsc := bsize_eq s c hc0
  have hnc := bnext_eq s c hc0
  have hclt : c < 65536 := by omega
  by_cases hadj : i + bsize s i = c
  · -- the inserted block absorbs the head
    have hst : insert_free_at s i i c c =
        { set_next (set_size s (s.chunk_base + i * 16) (bsize s i + bsize s c))
            (s.chunk_base + i * 16)
            (next (set_size s (s.chunk_base + i * 16) (bsize s i + bsize s c))
              (s.chunk_base + c * 16)) with free_list := i } := by
      unfold insert_free_at
      simp only [if_true, hI, hC, ← hsi, ← hsc]
      rw [if_pos hadj]
    have hbi : bsize (insert_free_at s i i c c) i = bsize s i + bsize s c := by
      rw [bsize_eq _ i hi0, hb, hst]
      show size (set_next (set_size s _ _) _ _) _ = _
      rw [size_set_next _ _ _ _ (by omega), size_set_size_eq]
      omega
    have hni : bnext (insert_free_at s i i c c) i = headOr0 post := by
      rw [bnext_eq _ i hi0, hb, hst]
      show next (set_next (set_size s _ _) _ _) _ = _
      rw [next_set_next_eq, next_set_size _ _ _ _ (by omega), ← hnc, hlp]
      have := bnext_lt s c
      rw [hlp] at this
      omega
    obtain ⟨h1, h2⟩ := free_rebuild s _ [] [c] [i] post K ⟨hl, hs, hbd⟩ hagP hagK
      ⟨fun _ => by rw [hst]; rfl, fun h => absurd rfl h⟩
      ⟨rfl, hi0, hni⟩
      (by intro y hy; rw [List.mem_singleton.1 hy, hbi]; omega)
      (by simp)
      (by intro a ha; cases ha)
      (by
        intro y hy b hb'
        rw [List.mem_singleton.1 hy, hbi]
        have := hpost b hb'
        omega)
      hKold
      (by
        intro u hu y hy
        rw [List.mem_singleton.1 hy]
        obtain ⟨_, hu1, hd1, hd2⟩ := hK u hu
        have hd3 := hd2 c (List.mem_cons_self _ _)
        unfold Disjoint at hd1 hd3 ⊢
        rw [hbi, hszK u hu]
        omega)
    refine ⟨[] ++ [i] ++ post, h1, h2, hagK, ?_⟩
    rw [List.nil_append, blocks_append,
      blocks_congr s _ post (fun o ho => (hagP.2 o (by simp [ho])).1)]
    simp [blocks, table_head, hbi, hadj]
  · -- the inserted block becomes the new head
    have hst : insert_free_at s i i c c =
        { set_next s (s.chunk_base + i * 16) c with free_list := i } := by
      unfold insert_free_at
      simp only [if_true, hI, ← hsi]
      rw [if_neg hadj]
    have hbi : bsize (insert_free_at s i i c c) i = bsize s i := by
      rw [bsize_eq _ i hi0, hb, hst]
      show size (set_next s _ _) _ = _
      rw [size_set_next _ _ _ _ (by omega), ← hsi]
    have hbc : bsize (insert_free_at s i i c c) c = bsize s c := by
      rw [bsize_eq _ c hc0, hb, hst]
      show size (set_next s _ _) _ = _
      rw [size_set_next _ _ _ _ (by omega), ← hsc]
    have hni : bnext (insert_free_at s i i c c) i = c := by
      rw [bnext_eq _ i hi0, hb, hst]
      show next (set_next s _ _) _ = _
      rw [next_set_next_eq]
      omega
    have hnc' : bnext (insert_free_at s i i c c) c = headOr0 post := by
      rw [bnext_eq _ c hc0, hb, hst]
      show next (set_next s _ _) _ = _
      rw [next_set_next_ne _ _ _ _ (by omega), ← hnc, hlp]
    obtain ⟨h1, h2⟩ := free_rebuild s _ [] [c] [i, c] post K ⟨hl, hs, hbd⟩ hagP hagK
      ⟨fun _ => by rw [hst]; rfl, fun h => absurd rfl h⟩
      ⟨rfl, hi0, by rw [hni]; exact ⟨rfl, hc0, hnc'⟩⟩
      (by
        intro y hy
        simp only [List.mem_cons, List.mem_singleton, List.not_mem_nil, or_false] at hy
        rcases hy with h | h
        · rw [h, hbi]; omega
        · rw [h, hbc]; omega)
      (by
        refine List.pairwise_cons.2 ⟨?_, by simp⟩
        intro y hy
        rw [List.mem_singleton.1 hy, hbi]
        omega)
      (by intro a ha; cases ha)
      (by
        intro y hy b hb'
        have := hpost b hb'
        simp only [List.mem_cons, List.mem_singleton, List.not_mem_nil, or_false] at hy
        rcases hy with h | h
        · rw [h, hbi]; omega
        · rw [h, hbc]; omega)
      hKold
      (by
        intro u hu y hy
        obtain ⟨_, hu1, hd1, hd2⟩ := hK u hu
        have hd3 := hd2 c (List.mem_cons_self _ _)
        unfold Disjoint at hd1 hd3 ⊢
        rw [hszK u hu]
        simp only [List.mem_cons, List.mem_singleton, List.not_mem_nil, or_false] at hy
        rcases hy with h | h
        · rw [h, hbi]; omega
        · rw [h, hbc]; omega)
    refine ⟨[] ++ [i, c] ++ post, h1, h2, hagK, ?_⟩
    rw [List.nil_append, blocks_append,
      blocks_congr s _ post (fun o ho => (hagP.2 o (by simp [ho])).1)]
    simp [blocks, table_head, hbi, hbc, hadj]

/-- Insertion between the free cells `p` and `c`. -/
theorem insert_free_at_mid (s : State) (q : List Nat) (p c i : Nat) (post K : List Nat)
    (hok : FreeOK s (q ++ [p, c] ++ post)) (hi0 : i ≠ 0) (hi1 : 1 ≤ bsize s i)
    (hpi : p + bsize s p ≤ i) (hic : i + bsize s i ≤ c)
    (hK : Others s (q ++ [p, c] ++ post) K i) :
    ∃ fl', FreeOK (insert_free_at s i i p c) fl' ∧
      (∀ u ∈ K, ∀ f ∈ fl', Disjoint (insert_free_at s i i p c) f u) ∧
      Agree s (insert_free_at s i i p c) K ∧
      blocks (insert_free_at s i i p c) fl'
        = blocks s q ++ table_mid (p, bsize s p) (i, bsize s i) (c, bsize s c)
          ++ blocks s post := by
  have hok' := hok
  obtain ⟨hl, hs, hbd⟩ := hok
  have h0 := isList_ne_zero s _ _ hl
  have hp0 : p ≠ 0 := h0 p (by simp)
  have hc0 : c ≠ 0 := h0 c (by simp)
  have hpb := hbd p (by simp)
  have hcb := hbd c (by simp)
  have hs1 := List.pairwise_append.1 hs
  have hs2 := List.pairwise_append.1 hs1.1
  have hqp : ∀ a ∈ q, a + bsize s a < p := fun a ha => hs2.2.2 a ha p (by simp)
  have hpost : ∀ b ∈ post, c + bsize s c < b := fun b hb => hs1.2.2 c (by simp) b hb
  have hpc : p + bsize s p < c := by
    have := List.pairwise_cons.1 hs2.2.1
    exact this.1 c (by simp)
  -- the links of `p` and `c`
  have hseg := (isList_iff_seg s _ _).1 hl
  rw [List.append_assoc] at hseg
  obtain ⟨m, hq1, hq2⟩ := seg_split _ q ([p, c] ++ post) _ _ hseg
  have hnp : bnext s p = c := hq2.2.2.1
  have hlp : bnext s c = headOr0 post := seg_head _ _ _ hq2.2.2.2.2
  have hKne := others_ne s _ K i hK hi1
  have hagK : Agree s (insert_free_at s i i p c) K :=
    insert_free_at_agree s i i p c K hi0 hp0
      (fun u hu => ⟨(hKne u hu).1, (hKne u hu).2.1, (hKne u hu).2.2 p (by simp)⟩)
  have hagP : Agree s (insert_free_at s i i p c) (q ++ post) := by
    apply insert_free_at_agree s i i p c _ hi0 hp0
    intro o ho
    have ho0 : o ≠ 0 := h0 o (by
      simp only [List.mem_append] at ho ⊢
      rcases ho with h | h
      · exact Or.inl (Or.inl h)
      · exact Or.inr h)
    rcases List.mem_append.1 ho with h | h
    · have := hqp o h
      have := (hbd o (by simp [h])).1
      refine ⟨ho0, ?_, ?_⟩ <;> omega
    · have := hpost o h
      refine ⟨ho0, ?_, ?_⟩ <;> omega
  have hb : (insert_free_at s i i p c).chunk_base = s.chunk_base :=
    (insert_free_at_frame s i i p c).1
  have hszK : ∀ u ∈ K, bsize (insert_free_at s i i p c) u = bsize s u :=
    fun u hu => (hagK.2 u hu).1
  have hKold : ∀ u ∈ K, ∀ f ∈ q ++ [p, c] ++ post, Disjoint s f u :=
    fun u hu f hf => (hK u hu).2.2.2 f hf
  have hI : o2p s i = s.chunk_base + i * 16 := o2p_of_ne_zero s i hi0
  have hC : o2p s c = s.chunk_base + c * 16 := o2p_of_ne_zero s c hc0
  have hP : o2p s p = s.chunk_base + p * 16 := o2p_of_ne_zero s p hp0
  have hsi := bsize_eq s i hi0
  have hsc := bsize_eq s c hc0
  have hsp := bsize_eq s p hp0
  have hnc := bnext_eq s c hc0
  have hne : p ≠ c := by omega
  have hhead : ∀ Y : List Nat, headOr0 (Y ++ post) = p →
      (q = [] → (insert_free_at s i i p c).free_list = headOr0 (Y ++ post)) ∧
      (q ≠ [] → (insert_free_at s i i p c).free_list = s.free_list ∧
        headOr0 (Y ++ post) = headOr0 ([p, c] ++ post)) := by
    intro Y hY
    have hfl : (insert_free_at s i i p c).free_list = s.free_list := by
      unfold insert_free_at
      simp only [if_neg hne]
      split
      · rfl
      · split
        · rfl
        · split <;> rfl
    refine ⟨?_, fun _ => ⟨hfl, by rw [hY]; rfl⟩⟩
    intro hq
    subst hq
    rw [hfl, hY]
    exact hq1.trans hq2.1
  have hKp : ∀ u ∈ K, 1 ≤ bsize s u ∧ Disjoint s i u ∧ Disjoint s p u ∧ Disjoint s c u := by
    intro u hu
    obtain ⟨_, hu1, hd1, hd2⟩ := hK u hu
    exact ⟨hu1, hd1, hd2 p (by simp), hd2 c (by simp)⟩
  have hilt : i < 65536 := by omega
  have hclt : c < 65536 := by omega
  by_cases hadjP : p + bsize s p = i
  · by_cases hadjC : i + bsize s i = c
    · -- all three blocks merge into `p`
      have hst : insert_free_at s i i p c =
          set_next (set_size s (s.chunk_base + p * 16) (bsize s p + bsize s i + bsize s c))
            (s.chunk_base + p * 16)
            (next (set_size s (s.chunk_base + p * 16) (bsize s p + bsize s i + bsize s c))
              (s.chunk_base + c * 16)) := by
        unfold insert_free_at
        simp only [if_neg hne, hI, hC, hP, ← hsi, ← hsc, ← hsp]
        rw [if_pos ⟨hadjP, hadjC⟩]
      have hbp : bsize (insert_free_at s i i p c) p = bsize s p + bsize s i + bsize s c := by
        rw [bsize_eq _ p hp0, hb, hst]
        show size (set_next (set_size s _ _) _ _) _ = _
        rw [size_set_next _ _ _ _ (by omega), size_set_size_eq]
        omega
      have hnp' : bnext (insert_free_at s i i p c) p = headOr0 post := by
        rw [bnext_eq _ p hp0, hb, hst]
        show next (set_next (set_size s _ _) _ _) _ = _
        rw [next_set_next_eq, next_set_size _ _ _ _ (by omega), ← hnc, hlp]
        have := bnext_lt s c
        rw [hlp] at this
        omega
      obtain ⟨h1, h2⟩ := free_rebuild s _ q [p, c] [p] post K hok' hagP hagK
        (hhead [p] rfl) ⟨rfl, hp0, hnp'⟩
        (by intro y hy; rw [List.mem_singleton.1 hy, hbp]; omega)
        (by simp)
        (by intro a ha y hy; rw [List.mem_singleton.1 hy]; exact hqp a ha)
        (by
          intro y hy b hb'
          rw [List.mem_singleton.1 hy, hbp]
          have := hpost b hb'
          omega)
        hKold
        (by
          intro u hu y hy
          rw [List.mem_singleton.1 hy]
          obtain ⟨hu1, hd1, hd2, hd3⟩ := hKp u hu
          unfold Disjoint at hd1 hd2 hd3 ⊢
          rw [hbp, hszK u hu]
          omega)
      refine ⟨q ++ [p] ++ post, h1, h2, hagK, ?_⟩
      rw [blocks_append, blocks_append,
        blocks_congr s _ q (fun o ho => (hagP.2 o (by simp [ho])).1),
        blocks_congr s _ post (fun o ho => (hagP.2 o (by simp [ho])).1)]
      simp [blocks, table_mid, hbp, hadjP, hadjC]
    · -- the inserted block merges into `p`
      have hst : insert_free_at s i i p c =
          set_next (set_size s (s.chunk_base + p * 16) (bsize s p + bsize s i))
            (s.chunk_base + p * 16) c := by
        unfold insert_free_at
        simp only [if_neg hne, hI, hP, ← hsi, ← hsp]
        rw [if_neg (by intro h; exact hadjC h.2), if_pos hadjP]
      have hbp : bsize (insert_free_at s i i p c) p = bsize s p + bsize s i := by
        rw [bsize_eq _ p hp0, hb, hst]
        show size (set_next (set_size s _ _) _ _) _ = _
        rw [size_set_next _ _ _ _ (by omega), size_set_size_eq]
        omega
      have hbc : bsize (insert_free_at s i i p c) c = bsize s c := by
        rw [bsize_eq _ c hc0, hb, hst]
        show size (set_next (set_size s _ _) _ _) _ = _
        rw [size_set_next _ _ _ _ (by omega), size_set_size_ne _ _ _ _ (by omega), ← hsc]
      have hnp' : bnext (insert_free_at s i i p c) p = c := by
        rw [bnext_eq _ p hp0, hb, hst]
        show next (set_next (set_size s _ _) _ _) _ = _
        rw [next_set_next_eq]
        omega
      have hnc' : bnext (insert_free_at s i i p c) c = headOr0 post := by
        rw [bnext_eq _ c hc0, hb, hst]
        show next (set_next (set_size s _ _) _ _) _ = _
        rw [next_set_next_ne _ _ _ _ (by omega), next_set_size _ _ _ _ (by omega), ← hnc, hlp]
      obtain ⟨h1, h2⟩ := free_rebuild s _ q [p, c] [p, c] post K hok' hagP hagK
        (hhead [p, c] rfl) ⟨rfl, hp0, by rw [hnp']; exact ⟨rfl, hc0, hnc'⟩⟩
        (by
          intro y hy
          simp only [List.mem_cons, List.mem_singleton, List.not_mem_nil, or_false] at hy
          rcases hy with h | h
          · rw [h, hbp]; omega
          · rw [h, hbc]; omega)
        (by
          refine List.pairwise_cons.2 ⟨?_, by simp⟩
          intro y hy
          rw [List.mem_singleton.1 hy, hbp]
          omega)
        (by
          intro a ha y hy
          have := hqp a ha
          simp only [List.mem_cons, List.mem_singleton, List.not_mem_nil, or_false] at hy
          rcases hy with h | h <;> rw [h] <;> omega)
        (by
          intro y hy b hb'
          have := hpost b hb'
          simp only [List.mem_cons, List.mem_singleton, List.not_mem_nil, or_false] at hy
          rcases hy with h | h
          · rw [h, hbp]; omega
          · rw [h, hbc]; omega)
        hKold
        (by
          intro u hu y hy
          obtain ⟨hu1, hd1, hd2, hd3⟩ := hKp u hu
          unfold Disjoint at hd1 hd2 hd3 ⊢
          rw [hszK u hu]
          simp only [List.mem_cons, List.mem_singleton, List.not_mem_nil, or_false] at hy
          rcases hy with h | h
          · rw [h, hbp]; omega
          · rw [h, hbc]; omega)
      refine ⟨q ++ [p, c] ++ post, h1, h2, hagK, ?_⟩
      rw [blocks_append, blocks_append,
        blocks_congr s _ q (fun o ho => (hagP.2 o (by simp [ho])).1),
        blocks_congr s _ post (fun o ho => (hagP.2 o (by simp [ho])).1)]
      simp [blocks, table_mid, hbp, hbc, hadjP, hadjC]
  · by_cases hadjC : i + bsize s i = c
    · -- the inserted block absorbs `c`
      have hst : insert_free_at s i i p c =
          set_next
            (set_size (set_next s (s.chunk_base + p * 16) i) (s.chunk_base + i * 16)
              (size (set_next s (s.chunk_base + p * 16) i) (s.chunk_base + i * 16)
                + size (set_next s (s.chunk_base + p * 16) i) (s.chunk_base + c * 16)))
            (s.chunk_base + i * 16)
            (next (set_size (set_next s (s.chunk_base + p * 16) i) (s.chunk_base + i * 16)
              (size (set_next s (s.chunk_base + p * 16) i) (s.chunk_base + i * 16)
                + size (set_next s (s.chunk_base + p * 16) i) (s.chunk_base + c * 16)))
              (s.chunk_base + c * 16)) := by
        unfold insert_free_at
        simp only [if_neg hne, hI, hC, hP, ← hsi, ← hsp]
        rw [if_neg (by intro h; exact hadjP h.1), if_neg hadjP, if_pos hadjC]
      have e1 : size (set_next s (s.chunk_base + p * 16) i) (s.chunk_base + i * 16)
          = bsize s i := by
        rw [size_set_next _ _ _ _ (by omega), ← hsi]
      have e2 : size (set_next s (s.chunk_base + p * 16) i) (s.chunk_base + c * 16)
          = bsize s c := by
        rw [size_set_next _ _ _ _ (by omega), ← hsc]
      rw [e1, e2] at hst
      have hbp : bsize (insert_free_at s i i p c) p = bsize s p := by
        rw [bsize_eq _ p hp0, hb, hst]
        show size (set_next (set_size (set_next s _ _) _ _) _ _) _ = _
        rw [size_set_next _ _ _ _ (by omega), size_set_size_ne _ _ _ _ (by omega),
          size_set_next _ _ _ _ (by omega), ← hsp]
      have hbi : bsize (insert_free_at s i i p c) i = bsize s i + bsize s c := by
        rw [bsize_eq _ i hi0, hb, hst]
        show size (set_next (set_size (set_next s _ _) _ _) _ _) _ = _
        rw [size_set_next _ _ _ _ (by omega), size_set_size_eq]
        omega
      have hnp' : bnext (insert_free_at s i i p c) p = i := by
        rw [bnext_eq _ p hp0, hb, hst]
        show next (set_next (set_size (set_next s _ _) _ _) _ _) _ = _
        rw [next_set_next_ne _ _ _ _ (by omega), next_set_size _ _ _ _ (by omega),
          next_set_next_eq]
        omega
      have hni' : bnext (insert_free_at s i i p c) i = headOr0 post := by
        rw [bnext_eq _ i hi0, hb, hst]
        show next (set_next (set_size (set_next s _ _) _ _) _ _) _ = _
        rw [next_set_next_eq, next_set_size _ _ _ _ (by omega),
          next_set_next_ne _ _ _ _ (by omega), ← hnc, hlp]
        have := bnext_lt s c
        rw [hlp] at this
        omega
      obtain ⟨h1, h2⟩ := free_rebuild s _ q [p, c] [p, i] post K hok' hagP hagK
        (hhead [p, i] rfl) ⟨rfl, hp0, by rw [hnp']; exact ⟨rfl, hi0, hni'⟩⟩
        (by
          intro y hy
          simp only [List.mem_cons, List.mem_singleton, List.not_mem_nil, or_false] at hy
          rcases hy with h | h
          · rw [h, hbp]; omega
          · rw [h, hbi]; omega)
        (by
          refine List.pairwise_cons.2 ⟨?_, by simp⟩
          intro y hy
          rw [List.mem_singleton.1 hy, hbp]
          omega)
        (by
          intro a ha y hy
          have := hqp a ha
          simp only [List.mem_cons, List.mem_singleton, List.not_mem_nil, or_false] at hy
          rcases hy with h | h <;> rw [h] <;> omega)
        (by
          intro y hy b hb'
          have := hpost b hb'
          simp only [List.mem_cons, List.mem_singleton, List.not_mem_nil, or_false] at hy
          rcases hy with h | h
          · rw [h, hbp]; omega
          · rw [h, hbi]; omega)
        hKold
        (by
          intro u hu y hy
          obtain ⟨hu1, hd1, hd2, hd3⟩ := hKp u hu
          unfold Disjoint at hd1 hd2 hd3 ⊢
          rw [hszK u hu]
          simp only [List.mem_cons, List.mem_singleton, List.not_mem_nil, or_false] at hy
          rcases hy with h | h
          · rw [h, hbp]; omega
          · rw [h, hbi]; omega)
      refine ⟨q ++ [p, i] ++ post, h1, h2, hagK, ?_⟩
      rw [blocks_append, blocks_append,
        blocks_congr s _ q (fun o ho => (hagP.2 o (by simp [ho])).1),
        blocks_congr s _ post (fun o ho => (hagP.2 o (by simp [ho])).1)]
      simp [blocks, table_mid, hbp, hbi, hadjP, hadjC]
    · -- the inserted block is spliced in between
      have hst : insert_free_at s i i p c =
          set_next (set_next s (s.chunk_base + p * 16) i) (s.chunk_base + i * 16) c := by
        unfold insert_free_at
        simp only [if_neg hne, hI, hP, ← hsi, ← hsp]
        rw [if_neg (by intro h; exact hadjP h.1), if_neg hadjP, if_neg hadjC]
      have hbp : bsize (insert_free_at s i i p c) p = bsize s p := by
        rw [bsize_eq _ p hp0, hb, hst]
        show size (set_next (set_next s _ _) _ _) _ = _
        rw [size_set_next _ _ _ _ (by omega), size_set_next _ _ _ _ (by omega), ← hsp]
      have hbi : bsize (insert_free_at s i i p c) i = bsize s i := by
        rw [bsize_eq _ i hi0, hb, hst]
        show size (set_next (set_next s _ _) _ _) _ = _
        rw [size_set_next _ _ _ _ (by omega), size_set_next _ _ _ _ (by omega), ← hsi]
      have hbc : bsize (insert_free_at s i i p c) c = bsize s c := by
        rw [bsize_eq _ c hc0, hb, hst]
        show size (set_next (set_next s _ _) _ _) _ = _
        rw [size_set_next _ _ _ _ (by omega), size_set_next _ _ _ _ (by omega), ← hsc]
      have hnp' : bnext (insert_free_at s i i p c) p = i := by
        rw [bnext_eq _ p hp0, hb, hst]
        show next (set_next (set_next s _ _) _ _) _ = _
        rw [next_set_next_ne _ _ _ _ (by omega), next_set_next_eq]
        omega
      have hni' : bnext (insert_free_at s i i p c) i = c := by
        rw [bnext_eq _ i hi0, hb, hst]
        show next (set_next (set_next s _ _) _ _) _ = _
        rw [next_set_next_eq]
        omega
      have hnc' : bnext (insert_free_at s i i p c) c = headOr0 post := by
        rw [bnext_eq _ c hc0, hb, hst]
        show next (set_next (set_next s _ _) _ _) _ = _
        rw [next_set_next_ne _ _ _ _ (by omega), next_set_next_ne _ _ _ _ (by omega),
          ← hnc, hlp]
      obtain ⟨h1, h2⟩ := free_rebuild s _ q [p, c] [p, i, c] post K hok' hagP hagK
        (hhead [p, i, c] rfl)
        ⟨rfl, hp0, by rw [hnp']; exact ⟨rfl, hi0, by rw [hni']; exact ⟨rfl, hc0, hnc'⟩⟩⟩
        (by
          intro y hy
          simp only [List.mem_cons, List.mem_singleton, List.not_mem_nil, or_false] at hy
          rcases hy with h | h | h
          · rw [h, hbp]; omega
          · rw [h, hbi]; omega
          · rw [h, hbc]; omega)
        (by
          refine List.pairwise_cons.2 ⟨?_, List.pairwise_cons.2 ⟨?_, by simp⟩⟩
          · intro y hy
            simp only [List.mem_cons, List.mem_singleton, List.not_mem_nil, or_false] at hy
            rw [hbp]
            rcases hy with h | h <;> rw [h] <;> omega
          · intro y hy
            rw [List.mem_singleton.1 hy, hbi]
            omega)
        (by
          intro a ha y hy
          have := hqp a ha
          simp only [List.mem_cons, List.mem_singleton, List.not_mem_nil, or_false] at hy
          rcases hy with h | h | h <;> rw [h] <;> omega)
        (by
          intro y hy b hb'
          have := hpost b hb'
          simp only [List.mem_cons, List.mem_singleton, List.not_mem_nil, or_false] at hy
          rcases hy with h | h | h
          · rw [h, hbp]; omega
          · rw [h, hbi]; omega
          · rw [h, hbc]; omega)
        hKold
        (by
          intro u hu y hy
          obtain ⟨hu1, hd1, hd2, hd3⟩ := hKp u hu
          unfold Disjoint at hd1 hd2 hd3 ⊢
          rw [hszK u hu]
          simp only [List.mem_cons, List.mem_singleton, List.not_mem_nil, or_false] at hy
          rcases hy with h | h | h
          · rw [h, hbp]; omega
          · rw [h, hbi]; omega
          · rw [h, hbc]; omega)
      refine ⟨q ++ [p, i, c] ++ post, h1, h2, hagK, ?_⟩
      rw [blocks_append, blocks_append,
        blocks_congr s _ q (fun o ho => (hagP.2 o (by simp [ho])).1),
        blocks_congr s _ post (fun o ho => (hagP.2 o (by simp [ho])).1)]
      simp [blocks, table_mid, hbp, hbi, hbc, hadjP, hadjC]

/-! ## The walk of `insert_free` -/

theorem lastOr_nil (d : Nat) : lastOr [] d = d := rfl

theorem lastOr_concat (q : List Nat) (p d : Nat) : lastOr (q ++ [p]) d = p := by
  unfold lastOr
  rw [List.getLast?_concat]

theorem insert_free_loop_spec (fuel : Nat) : ∀ (s : State) (coff i : Nat) (pre rest : List Nat)
    (s' : State) (ret : Nat), IsList s (headOr0 rest) rest → (∀ x ∈ pre, x ≠ 0 ∧ x < i) →
    insert_free_loop fuel s coff i (lastOr pre (headOr0 rest)) (headOr0 rest) = .ok (s', ret) →
    ret = 0 →
    ∃ pre' c post, pre ++ rest = pre' ++ c :: post ∧ (∀ x ∈ pre', x < i) ∧ i ≤ c ∧ i ≠ 0 ∧
      s' = insert_free_at s coff i (lastOr pre' c) c := by
  induction fuel with
  | zero =>
    intro s coff i pre rest s' ret _ _ h _
    simp [insert_free_loop] at h
  | succ n ih =>
    intro s coff i pre rest s' ret hl hpre h hret
    unfold insert_free_loop at h
    split at h
    · cases h
      exact absurd hret (by decide)
    · split at h
      · rename_i hic
        split at h
        · cases h
        · rename_i hi0
          cases h
          cases rest with
          | nil =>
            simp only [headOr0] at hic
            omega
          | cons c post =>
            exact ⟨pre, c, post, rfl, fun x hx => (hpre x hx).2, hic, hi0, rfl⟩
      · rename_i hic
        split at h
        · cases h
        · rename_i hc
          cases rest with
          | nil => exact absurd (by simp [headOr0, o2p]) hc
          | cons c post =>
            simp only [headOr0] at h hic hc
            have hc0 : c ≠ 0 := hl.2.1
            have hn : next s (o2p s c) = headOr0 post := isList_head s post _ hl.2.2
            rw [hn, ← lastOr_concat pre c (headOr0 post)] at h
            have hl' : IsList s (headOr0 post) post := by
              rw [← hn]; exact hl.2.2
            obtain ⟨pre', c', post', h1, h2, h3, h4, h5⟩ := ih s coff i (pre ++ [c]) post s' ret
              hl' (by
                intro x hx
                rcases List.mem_append.1 hx with h | h
                · exact hpre x h
                · rw [List.mem_singleton.1 h]
                  exact ⟨hc0, by omega⟩) h hret
            refine ⟨pre', c', post', ?_, h2, h3, h4, h5⟩
            rw [← h1, List.append_assoc]
            rfl

theorem freeOK_congr (s s' : State) (fl : List Nat) (hf : s'.free_list = s.free_list)
    (ha : Agree s s' fl) (hok : FreeOK s fl) : FreeOK s' fl := by
  obtain ⟨h1, h2, h3⟩ := hok
  refine ⟨?_, ?_, ?_⟩
  · rw [hf]
    exact isList_congr s s' fl _ ha h1
  · refine List.Pairwise.imp_of_mem ?_ h2
    intro a b hma _ hab
    rw [(ha.2 a hma).1]
    exact hab
  · intro f hf'
    rw [(ha.2 f hf').1]
    exact h3 f hf'

theorem others_congr (s s' : State) (fl K : List Nat) (i : Nat)
    (hsz : ∀ o, bsize s' o = bsize s o) (h : Others s fl K i) : Others s' fl K i := by
  intro u hu
  obtain ⟨h1, h2, h3, h4⟩ := h u hu
  unfold Disjoint at *
  simp only [hsz]
  exact ⟨h1, h2, h3, h4⟩

/-- Function `insert_free` on a well-formed free list, for a block `i` that
overlaps no free block: when it returns `0` the free list is well formed again,
the other blocks `K` keep their fields and stay disjoint from the free blocks,
and no mark byte changes. -/
theorem insert_free_spec (fuel : Nat) (s : State) (fl K : List Nat) (i : Nat) (s' : State)
    (ret : Nat) (hok : FreeOK s fl) (hi0 : i ≠ 0) (hi1 : 1 ≤ bsize s i)
    (hilt : i + bsize s i ≤ 65536) (hdisj : ∀ f ∈ fl, Disjoint s f i)
    (hK : Others s fl K i)
    (h : insert_free fuel s i (o2p s i) = .ok (s', ret)) (hret : ret = 0) :
    ∃ fl', FreeOK s' fl' ∧ (∀ u ∈ K, ∀ f ∈ fl', Disjoint s' f u) ∧ Agree s s' K ∧
      s'.chunk_base = s.chunk_base ∧ s'.used_list = s.used_list ∧
      s'.stack_top = s.stack_top ∧
      (∀ o, mark_of s' (s.chunk_base + o * 16) = mark_of s (s.chunk_base + o * 16)) ∧
      blocks s' fl' = spec_insert (i, bsize s i) (blocks s fl) ∧
      (∀ o, conf s' (s.chunk_base + o * 16) = conf s (s.chunk_base + o * 16)) ∧
      (∀ o, used s' (s.chunk_base + o * 16) = used s (s.chunk_base + o * 16)) ∧
      s'.bytes_freed = (s.bytes_freed + ALLOC_UNIT * bsize s i) % 18446744073709551616 ∧
      s'.blocks_freed = (s.blocks_freed + 1) % 18446744073709551616 := by
  unfold insert_free at h
  rw [o2p_of_ne_zero s i hi0, if_neg (by omega)] at h
  simp only [] at h
  have hhd : s.free_list = headOr0 fl := isList_head s fl _ hok.1
  have hp2o : ∀ s1 : State, s1.chunk_base = s.chunk_base →
      p2o s1 (s.chunk_base + i * 16) = i := by
    intro s1 h1
    rw [← h1]
    exact p2o_cell s1 i hi0 (by omega)
  rw [hp2o { s with
      bytes_freed := (s.bytes_freed + ALLOC_UNIT * size s (s.chunk_base + i * 16))
        % 18446744073709551616,
      blocks_freed := (s.blocks_freed + 1) % 18446744073709551616 } rfl] at h
  have key := insert_free_loop_spec fuel
    { s with
      bytes_freed := (s.bytes_freed + ALLOC_UNIT * size s (s.chunk_base + i * 16))
        % 18446744073709551616,
      blocks_freed := (s.blocks_freed + 1) % 18446744073709551616 }
    i i [] fl s' ret (by
      rw [← hhd]
      exact isList_congr s _ fl _ ⟨rfl, fun _ _ => ⟨rfl, rfl⟩⟩ hok.1) (by intro x hx; cases hx)
  rw [lastOr_nil, ← hhd] at key
  obtain ⟨pre', c, post, h1, h2, h3, _, h5⟩ := key h hret
  simp only [List.nil_append] at h1
  subst h1
  have hok1 : FreeOK { s with
      bytes_freed := (s.bytes_freed + ALLOC_UNIT * size s (s.chunk_base + i * 16))
        % 18446744073709551616,
      blocks_freed := (s.blocks_freed + 1) % 18446744073709551616 } (pre' ++ c :: post) :=
    freeOK_congr s _ _ rfl ⟨rfl, fun _ _ => ⟨rfl, rfl⟩⟩ hok
  have hK1 : Others { s with
      bytes_freed := (s.bytes_freed + ALLOC_UNIT * size s (s.chunk_base + i * 16))
        % 18446744073709551616,
      blocks_freed := (s.blocks_freed + 1) % 18446744073709551616 } (pre' ++ c :: post) K i :=
    others_congr s _ _ K i (fun _ => rfl) hK
  have hcb := hok.2.2 c (by simp)
  have hdc := hdisj c (by simp)
  have hic : i + bsize s i ≤ c := by
    unfold Disjoint at hdc
    omega
  rcases list_nil_or_snoc pre' with hp | ⟨q, p, hp⟩
  · subst hp
    rw [lastOr_nil] at h5
    obtain ⟨fl', a1, a2, a3, a4⟩ := insert_free_at_head _ c i post K hok1 hi0 hi1 hic hK1
    rw [← h5] at a1 a2 a3 a4
    have hfr := insert_free_at_frame { s with
      bytes_freed := (s.bytes_freed + ALLOC_UNIT * size s (s.chunk_base + i * 16))
        % 18446744073709551616,
      blocks_freed := (s.blocks_freed + 1) % 18446744073709551616 } i i c c
    rw [← h5] at hfr
    have hc0 : c ≠ 0 := hok.1.2.1
    have hcnt := insert_free_at_counters { s with
      bytes_freed := (s.bytes_freed + ALLOC_UNIT * size s (s.chunk_base + i * 16))
        % 18446744073709551616,
      blocks_freed := (s.blocks_freed + 1) % 18446744073709551616 } i i c c
    rw [← h5] at hcnt
    refine ⟨fl', a1, a2, a3, hfr.1, hfr.2.1, hfr.2.2.1, ?_, ?_, ?_, ?_, ?_, hcnt.2⟩
    · intro o
      rw [h5]
      exact insert_free_at_mark _ i i c c o hi0 hc0
    · rw [a4]
      exact ((spec_insert_stop (i, bsize s i) (c, bsize s c) (blocks s post) h3).1).symm
    · intro o
      rw [h5]
      exact insert_free_at_conf _ i i c c o hi0 hc0
    · intro o
      rw [h5]
      exact insert_free_at_used _ i i c c o hi0 hc0
    · rw [hcnt.1, bsize_eq s i hi0]
  · subst hp
    rw [lastOr_concat] at h5
    have hpm : p ∈ (q ++ [p]) ++ c :: post := by simp
    have hpb := hok.2.2 p hpm
    have hdp := hdisj p hpm
    have hpi : p + bsize s p ≤ i := by
      have := h2 p (by simp)
      unfold Disjoint at hdp
      omega
    have hlist : (q ++ [p]) ++ c :: post = q ++ [p, c] ++ post := by simp
    rw [hlist] at hok1 hK1
    obtain ⟨fl', a1, a2, a3, a4⟩ := insert_free_at_mid _ q p c i post K hok1 hi0 hi1 hpi hic hK1
    rw [← h5] at a1 a2 a3 a4
    have hfr := insert_free_at_frame { s with
      bytes_freed := (s.bytes_freed + ALLOC_UNIT * size s (s.chunk_base + i * 16))
        % 18446744073709551616,
      blocks_freed := (s.blocks_freed + 1) % 18446744073709551616 } i i p c
    rw [← h5] at hfr
    have hp0 : p ≠ 0 := isList_ne_zero s _ _ hok.1 p hpm
    have hcnt := insert_free_at_counters { s with
      bytes_freed := (s.bytes_freed + ALLOC_UNIT * size s (s.chunk_base + i * 16))
        % 18446744073709551616,
      blocks_freed := (s.blocks_freed + 1) % 18446744073709551616 } i i p c
    rw [← h5] at hcnt
    refine ⟨fl', a1, a2, a3, hfr.1, hfr.2.1, hfr.2.2.1, ?_, ?_, ?_, ?_, ?_, hcnt.2⟩
    · intro o
      rw [h5]
      exact insert_free_at_mark _ i i p c o hi0 hp0
    · rw [a4]
      have hq : ∀ b ∈ blocks s q ++ [(p, bsize s p)], b.1 < (i, bsize s i).1 := by
        intro b hb
        rcases List.mem_append.1 hb with h | h
        · obtain ⟨o, ho, he⟩ := (mem_blocks s q b).1 h
          rw [he]
          exact h2 o (by simp [ho])
        · rw [List.mem_singleton.1 h]
          exact h2 p (by simp)
      have := (spec_insert_stop (i, bsize s i) (c, bsize s c) (blocks s post) h3).2
        (blocks s q) (p, bsize s p) hq
      have e : blocks s (q ++ [p] ++ c :: post)
          = blocks s q ++ [(p, bsize s p)] ++ (c, bsize s c) :: blocks s post := by
        rw [blocks_append, blocks_append]
        rfl
      rw [e]
      exact this.symm
    · intro o
      rw [h5]
      exact insert_free_at_conf _ i i p c o hi0 hp0
    · intro o
      rw [h5]
      exact insert_free_at_used _ i i p c o hi0 hp0
    · rw [hcnt.1, bsize_eq s i hi0]


/-! ## The walk of `insert_free` returns -/

theorem lastOr_ne_zero (pre : List Nat) (d : Nat) (hpre : ∀ x ∈ pre, x ≠ 0) (hd : d ≠ 0) :
    lastOr pre d ≠ 0 := by
  rcases list_nil_or_snoc pre with h | ⟨q, p, h⟩
  · subst h
    rw [lastOr_nil]
    exact hd
  · subst h
    rw [lastOr_concat]
    exact hpre p (by simp)

theorem insert_free_loop_total (s : State) (coff i : Nat) (hi0 : i ≠ 0) :
    ∀ (rest1 : List Nat) (fuel : Nat) (pre : List Nat) (c : Nat) (post : List Nat),
      IsList s (headOr0 (rest1 ++ c :: post)) (rest1 ++ c :: post) → (∀ x ∈ pre, x ≠ 0) →
      (∀ x ∈ rest1, x < i) → i ≤ c → rest1.length < fuel →
      insert_free_loop fuel s coff i (lastOr pre (headOr0 (rest1 ++ c :: post)))
          (headOr0 (rest1 ++ c :: post))
        = .ok (insert_free_at s coff i (lastOr (pre ++ rest1) c) c, 0) := by
  intro rest1
  induction rest1 with
  | nil =>
    intro fuel pre c post hl hpre _ hic hf
    cases fuel with
    | zero => simp at hf
    | succ n =>
      have hc0 : c ≠ 0 := hl.2.1
      simp only [List.nil_append, headOr0, List.append_nil]
      unfold insert_free_loop
      rw [if_neg (lastOr_ne_zero pre c hpre hc0), if_pos hic, if_neg hi0]
  | cons a rest1 ih =>
    intro fuel pre c post hl hpre hlt hic hf
    cases fuel with
    | zero => simp at hf
    | succ n =>
      have ha0 : a ≠ 0 := hl.2.1
      have ha := hlt a (List.mem_cons_self _ _)
      have hn : next s (o2p s a) = headOr0 (rest1 ++ c :: post) := isList_head s _ _ hl.2.2
      have hl' : IsList s (headOr0 (rest1 ++ c :: post)) (rest1 ++ c :: post) := by
        rw [← hn]
        exact hl.2.2
      show insert_free_loop (n + 1) s coff i (lastOr pre a) a = _
      unfold insert_free_loop
      rw [if_neg (lastOr_ne_zero pre a hpre ha0), if_neg (by omega),
        if_neg (by rw [o2p_of_ne_zero s a ha0]; omega), hn]
      have := ih n (pre ++ [a]) c post hl'
        (by
          intro x hx
          rcases List.mem_append.1 hx with h | h
          · exact hpre x h
          · rw [List.mem_singleton.1 h]; exact ha0)
        (fun x hx => hlt x (List.mem_cons_of_mem _ hx)) hic (by simpa using hf)
      rw [lastOr_concat] at this
      rw [this]
      simp

theorem list_split_first (i : Nat) : ∀ (l : List Nat), (∃ f ∈ l, i ≤ f) →
    ∃ pre c post, l = pre ++ c :: post ∧ (∀ x ∈ pre, x < i) ∧ i ≤ c := by
  intro l
  induction l with
  | nil =>
    rintro ⟨f, hf, _⟩
    cases hf
  | cons a l ih =>
    rintro ⟨f, hf, hif⟩
    by_cases ha : i ≤ a
    · exact ⟨[], a, l, rfl, by simp, ha⟩
    · have hfl : f ∈ l := by
        rcases List.mem_cons.1 hf with h | h
        · subst h
          exact absurd hif ha
        · exact h
      obtain ⟨pre, c, post, h1, h2, h3⟩ := ih ⟨f, hfl, hif⟩
      refine ⟨a :: pre, c, post, by rw [h1]; rfl, ?_, h3⟩
      intro x hx
      rcases List.mem_cons.1 hx with h | h
      · rw [h]; omega
      · exact h2 x h

/-- Function `insert_free` returns `0` when some free block lies at or behind the
block to insert. -/
theorem insert_free_total (fuel : Nat) (s : State) (pre post : List Nat) (c i : Nat)
    (hl : IsList s s.free_list (pre ++ c :: post)) (hi0 : i ≠ 0) (hilt : i < 65536)
    (hpre : ∀ x ∈ pre, x < i) (hic : i ≤ c) (hfuel : pre.length < fuel) :
    ∃ s', insert_free fuel s i (o2p s i) = .ok (s', 0) := by
  unfold insert_free
  rw [o2p_of_ne_zero s i hi0, if_neg (by omega)]
  simp only []
  have hhd : s.free_list = headOr0 (pre ++ c :: post) := isList_head s _ _ hl
  have hp2o : p2o { s with
      bytes_freed := (s.bytes_freed + ALLOC_UNIT * size s (s.chunk_base + i * 16))
        % 18446744073709551616,
      blocks_freed := (s.blocks_freed + 1) % 18446744073709551616 } (s.chunk_base + i * 16) = i :=
    p2o_cell _ i hi0 hilt
  rw [hp2o]
  have key := insert_free_loop_total { s with
      bytes_freed := (s.bytes_freed + ALLOC_UNIT * size s (s.chunk_base + i * 16))
        % 18446744073709551616,
      blocks_freed := (s.blocks_freed + 1) % 18446744073709551616 } i i hi0 pre fuel [] c post
    (by
      rw [← hhd]
      exact isList_congr s _ _ _ ⟨rfl, fun _ _ => ⟨rfl, rfl⟩⟩ hl)
    (by intro x hx; cases hx) hpre hic hfuel
  rw [lastOr_nil, ← hhd] at key
  exact ⟨_, key⟩
/-! ## The sweep phase -/

theorem disjoint_symm (s : State) (a b : Nat) (h : Disjoint s a b) : Disjoint s b a := by
  unfold Disjoint at *
  omega

theorem marked_congr (s s' : State) (o : Nat) (ho : o ≠ 0) (hb : s'.chunk_base = s.chunk_base)
    (hm : mark_of s' (s.chunk_base + o * 16) = mark_of s (s.chunk_base + o * 16)) :
    Marked s' o ↔ Marked s o := by
  unfold Marked
  rw [o2p_of_ne_zero s' o ho, o2p_of_ne_zero s o ho, hb, hm]

/-- A store to byte 6 of a cell header (the `used` field) changes no size,
next or mark field. -/
theorem set_used_agree (s : State) (r v : Nat) (L : List Nat) (h0 : ∀ o ∈ L, o ≠ 0) :
    Agree s (set_used s (s.chunk_base + r * 16) v) L := by
  refine agree_of_frame s (set_used s (s.chunk_base + r * 16) v) L rfl ?_ h0
  intro o _ _ x hx1 hx2
  exact read8_write8_ne _ _ _ _ (by omega)

theorem set_used_bsize (s : State) (r v o : Nat) (ho : o ≠ 0) :
    bsize (set_used s (s.chunk_base + r * 16) v) o = bsize s o :=
  ((set_used_agree s r v [o] (by simp [ho])).2 o (by simp)).1

theorem set_used_mark (s : State) (r v o : Nat) :
    mark_of (set_used s (s.chunk_base + r * 16) v) (s.chunk_base + o * 16)
      = mark_of s (s.chunk_base + o * 16) :=
  read8_write8_ne _ _ _ _ (by omega)

/-- A store through a link of the used list changes next fields only. -/
theorem link_set_agree (s : State) (hd : Link) (kept : List Nat) (v : Nat) (L : List Nat)
    (hhd : ∀ x, ¬ hd.touches x) (hk0 : ∀ o ∈ kept, o ≠ 0) (h0 : ∀ o ∈ L, o ≠ 0)
    (hL : ∀ q p, kept = q ++ [p] → ∀ o ∈ L, o ≠ p) :
    Agree s ((linkOf s hd kept).set s v) L := by
  apply agree_of_frame s _ L (link_set_chunk_base _ _ _) _ h0
  intro o ho hne x hx1 hx2
  apply link_set_mem
  intro ht
  obtain ⟨q, p, hq, hp1, hp2⟩ := linkOf_touches s hd kept x hhd hk0 ht
  have := hL q p hq o ho
  omega

theorem link_set_bsize (s : State) (hd : Link) (kept : List Nat) (v o : Nat)
    (hhd : ∀ x, ¬ hd.touches x) (hk0 : ∀ o ∈ kept, o ≠ 0) (ho : o ≠ 0) :
    bsize ((linkOf s hd kept).set s v) o = bsize s o := by
  rw [bsize_eq _ o ho, bsize_eq s o ho, link_set_chunk_base]
  apply size_congr
  intro x hx1 hx2
  apply link_set_mem
  intro ht
  obtain ⟨q, p, hq, hp1, hp2⟩ := linkOf_touches s hd kept x hhd hk0 ht
  omega

theorem link_set_mark (s : State) (hd : Link) (kept : List Nat) (v o : Nat)
    (hhd : ∀ x, ¬ hd.touches x) (hk0 : ∀ o ∈ kept, o ≠ 0) :
    mark_of ((linkOf s hd kept).set s v) (s.chunk_base + o * 16)
      = mark_of s (s.chunk_base + o * 16) := by
  apply mark_congr
  apply link_set_mem
  intro ht
  obtain ⟨q, p, hq, hp1, hp2⟩ := linkOf_touches s hd kept _ hhd hk0 ht
  omega

theorem set_used_conf (s : State) (r v o : Nat) :
    conf (set_used s (s.chunk_base + r * 16) v) (s.chunk_base + o * 16)
      = conf s (s.chunk_base + o * 16) := by
  apply conf_congr
  intro x hx1 hx2
  exact read8_write8_ne _ _ _ _ (by omega)

theorem set_used_used_ne (s : State) (r v o : Nat) (h : o ≠ r) :
    used (set_used s (s.chunk_base + r * 16) v) (s.chunk_base + o * 16)
      = used s (s.chunk_base + o * 16) :=
  read8_write8_ne _ _ _ _ (by omega)

theorem set_used_used_eq (s : State) (cc : Nat) : used (set_used s cc 0) cc = 0 := by
  show read8 (write8 s.mem (cc + 6) 0) (cc + 6) = 0
  rw [read8_write8_eq]

theorem link_set_conf (s : State) (hd : Link) (kept : List Nat) (v o : Nat)
    (hhd : ∀ x, ¬ hd.touches x) (hk0 : ∀ o ∈ kept, o ≠ 0) :
    conf ((linkOf s hd kept).set s v) (s.chunk_base + o * 16)
      = conf s (s.chunk_base + o * 16) := by
  apply conf_congr
  intro x hx1 hx2
  apply link_set_mem
  intro ht
  obtain ⟨q, p, hq, hp1, hp2⟩ := linkOf_touches s hd kept _ hhd hk0 ht
  omega

theorem link_set_used (s : State) (hd : Link) (kept : List Nat) (v o : Nat)
    (hhd : ∀ x, ¬ hd.touches x) (hk0 : ∀ o ∈ kept, o ≠ 0) :
    used ((linkOf s hd kept).set s v) (s.chunk_base + o * 16)
      = used s (s.chunk_base + o * 16) := by
  apply used_congr
  apply link_set_mem
  intro ht
  obtain ⟨q, p, hq, hp1, hp2⟩ := linkOf_touches s hd kept _ hhd hk0 ht
  omega

theorem linkOf_congr (s s' : State) (hd : Link) (pre : List Nat)
    (hb : s'.chunk_base = s.chunk_base) : linkOf s' hd pre = linkOf s hd pre := by
  unfold linkOf
  split
  · rfl
  · rw [o2p_congr s s' _ hb]

theorem used_head_touches (x : Nat) : ¬ Link.used_head.touches x := fun h => h

theorem wf_used_split (s : State) (fl kept rest : List Nat) (r : Nat)
    (h : WF s fl (kept ++ r :: rest)) :
    r ≠ 0 ∧ 1 ≤ bsize s r ∧ r + bsize s r ≤ 65536 ∧
      (∀ u ∈ kept ++ rest, u ≠ 0 ∧ 1 ≤ bsize s u ∧ Disjoint s r u) ∧
      (∀ f ∈ fl, Disjoint s f r) ∧
      Seg (bnext s) s.used_list kept r ∧ IsList s (bnext s r) rest := by
  have hr : r ∈ fl ++ (kept ++ r :: rest) := by simp
  have hbr := h.bounds r hr
  simp only [CELL_COUNT, CHUNK_SIZE, ALLOC_UNIT] at hbr
  have hs := List.pairwise_append.1 h.used_disj
  have hs2 := List.pairwise_cons.1 hs.2.1
  obtain ⟨m, h1, h2⟩ := seg_split _ kept (r :: rest) _ _ ((isList_iff_seg s _ _).1 h.used)
  have hm : m = r := h2.1
  subst hm
  refine ⟨wf_ne_zero s _ _ h m hr, hbr.1, by omega, ?_, ?_, h1, ?_⟩
  · intro u hu
    have hu' : u ∈ fl ++ (kept ++ m :: rest) := by
      simp only [List.mem_append, List.mem_cons] at hu ⊢
      tauto
    refine ⟨wf_ne_zero s _ _ h u hu', (h.bounds u hu').1, ?_⟩
    rcases List.mem_append.1 hu with h3 | h3
    · exact disjoint_symm s _ _ (hs.2.2 u h3 m (List.mem_cons_self _ _))
    · exact hs2.1 u h3
  · intro f hf
    exact h.cross f hf m (by simp)
  · rw [isList_iff_seg]
    exact h2.2.2

/-- One step of `sweep` on a marked block `r`: the store `*pptr = next_cell`
through the next field of `r` writes back the value the field holds. -/
theorem sweep_keep_step (s : State) (fl kept rest' : List Nat) (r : Nat)
    (hwf : WF s fl (kept ++ r :: rest')) :
    (∀ x, read8 (set_next s (s.chunk_base + r * 16) (headOr0 rest')).mem x = read8 s.mem x) ∧
      WF (set_next s (s.chunk_base + r * 16) (headOr0 rest')) fl ((kept ++ [r]) ++ rest') := by
  obtain ⟨hr0, _, _, _, _, _, hlrest⟩ := wf_used_split s fl kept rest' r hwf
  have hnext : next s (s.chunk_base + r * 16) = headOr0 rest' := by
    rw [← bnext_eq s r hr0]
    exact isList_head s rest' _ hlrest
  have h0 := wf_ne_zero s _ _ hwf
  have hfrm : ∀ x, read8 (set_next s (s.chunk_base + r * 16) (headOr0 rest')).mem x
      = read8 s.mem x := by
    intro x
    show read8 (write8 (write8 s.mem _ _) _ _) x = _
    have e := hnext
    unfold next read16 at e
    have l1 := read8_lt s.mem (s.chunk_base + r * 16 + 2)
    have l2 := read8_lt s.mem (s.chunk_base + r * 16 + 2 + 1)
    by_cases hx1 : x = s.chunk_base + r * 16 + 2 + 1
    · subst hx1
      rw [read8_write8_eq]
      omega
    · rw [read8_write8_ne _ _ _ _ hx1]
      by_cases hx2 : x = s.chunk_base + r * 16 + 2
      · subst hx2
        rw [read8_write8_eq]
        omega
      · rw [read8_write8_ne _ _ _ _ hx2]
  have hag3 : Agree s (set_next s (s.chunk_base + r * 16) (headOr0 rest'))
      (fl ++ ((kept ++ [r]) ++ rest')) := by
    refine agree_of_frame s (set_next s (s.chunk_base + r * 16) (headOr0 rest')) _ rfl ?_ ?_
    · intro o _ _ x _ _
      exact hfrm x
    · intro o ho
      exact h0 o (by simpa using ho)
  have hwf3 : WF (set_next s (s.chunk_base + r * 16) (headOr0 rest')) fl
      ((kept ++ [r]) ++ rest') := by
    have : WF s fl ((kept ++ [r]) ++ rest') := by
      rw [List.append_assoc]; exact hwf
    exact wf_congr s _ fl _ this rfl rfl hag3
  exact ⟨hfrm, hwf3⟩

/-- One step of `sweep` on an unmarked block `r`: after `insert_free` has returned
`0` and the block has been unlinked, the heap is well formed with `r` gone from
the used list; the other used blocks keep their fields and the free list has
gained exactly the slots of `r`. -/
theorem sweep_free_step (n : Nat) (s : State) (fl kept rest' : List Nat) (r : Nat) (s2 : State)
    (hwf : WF s fl (kept ++ r :: rest'))
    (hins : insert_free n (set_used s (s.chunk_base + r * 16) 0) r (s.chunk_base + r * 16)
      = .ok (s2, 0)) :
    ∃ fl', WF ((linkOf s2 Link.used_head kept).set s2 (headOr0 rest')) fl' (kept ++ rest') ∧
      s2.chunk_base = s.chunk_base ∧
      ((linkOf s2 Link.used_head kept).set s2 (headOr0 rest')).stack_top = s.stack_top ∧
      (∀ o, mark_of ((linkOf s2 Link.used_head kept).set s2 (headOr0 rest'))
        (s.chunk_base + o * 16) = mark_of s (s.chunk_base + o * 16)) ∧
      (∀ u ∈ kept ++ rest',
        bsize ((linkOf s2 Link.used_head kept).set s2 (headOr0 rest')) u = bsize s u) ∧
      (∀ o, conf ((linkOf s2 Link.used_head kept).set s2 (headOr0 rest'))
        (s.chunk_base + o * 16) = conf s (s.chunk_base + o * 16)) ∧
      (∀ o, used ((linkOf s2 Link.used_head kept).set s2 (headOr0 rest'))
        (s.chunk_base + o * 16)
        = used (set_used s (s.chunk_base + r * 16) 0) (s.chunk_base + o * 16)) ∧
      (∀ x, Covers (blocks ((linkOf s2 Link.used_head kept).set s2 (headOr0 rest')) fl') x ↔
        Covers (blocks s fl) x ∨ (r ≤ x ∧ x < r + bsize s r)) ∧
      fl'.length ≤ fl.length + 1 := by
  obtain ⟨hr0, hr1, hrb, hK, hfr, hseg, hlrest⟩ := wf_used_split s fl kept rest' r hwf
  have hnext : next s (s.chunk_base + r * 16) = headOr0 rest' := by
    rw [← bnext_eq s r hr0]
    exact isList_head s rest' _ hlrest
  have hnlt : headOr0 rest' < 65536 := by
    rw [← hnext]; exact next_lt _ _
  have h0 := wf_ne_zero s _ _ hwf
  have hk0 : ∀ o ∈ kept, o ≠ 0 := fun o ho => h0 o (by simp [ho])
  have ho2p : s.chunk_base + r * 16 = o2p (set_used s (s.chunk_base + r * 16) 0) r :=
    (o2p_of_ne_zero _ r hr0).symm
  have hret0 : (0 : Nat) = 0 := rfl
  -- the state after clearing the used byte
  have hag1 : Agree s (set_used s (s.chunk_base + r * 16) 0) (fl ++ (kept ++ r :: rest')) :=
    set_used_agree s r 0 _ h0
  have hwf1 : WF (set_used s (s.chunk_base + r * 16) 0) fl (kept ++ r :: rest') :=
    wf_congr s _ fl _ hwf rfl rfl hag1
  have hsz1 : ∀ o, o ≠ 0 → bsize (set_used s (s.chunk_base + r * 16) 0) o = bsize s o :=
    fun o ho => set_used_bsize s r 0 o ho
  have hKO : Others (set_used s (s.chunk_base + r * 16) 0) fl (kept ++ rest') r := by
    intro u hu
    obtain ⟨hu0, hu1, hud⟩ := hK u hu
    refine ⟨hu0, by rw [hsz1 u hu0]; exact hu1, ?_, ?_⟩
    · unfold Disjoint at hud ⊢
      rw [hsz1 u hu0, hsz1 r hr0]
      exact hud
    · intro f hf
      have hfu := hwf.cross f hf u (by
        simp only [List.mem_append, List.mem_cons] at hu ⊢
        tauto)
      have hf0 := h0 f (by simp [hf])
      unfold Disjoint at hfu ⊢
      rw [hsz1 u hu0, hsz1 f hf0]
      exact hfu
  have hins' : insert_free n (set_used s (s.chunk_base + r * 16) 0) r
      (o2p (set_used s (s.chunk_base + r * 16) 0) r) = .ok (s2, 0) := by
    rw [← ho2p]; exact hins
  obtain ⟨fl', hok2, hcross2, hag2, hb2, hul2, hst2, hmk2, hblk2, hcf2, hus2, _⟩ :=
    insert_free_spec n _ fl (kept ++ rest') r s2 0 (wf_freeOK _ _ _ hwf1) hr0
      (by rw [hsz1 r hr0]; exact hr1) (by rw [hsz1 r hr0]; exact hrb)
      (by
        intro f hf
        have := hfr f hf
        have hf0 := h0 f (by simp [hf])
        unfold Disjoint at this ⊢
        rw [hsz1 r hr0, hsz1 f hf0]
        exact this)
      hKO hins' hret0
  have hb2' : s2.chunk_base = s.chunk_base := hb2
  have hlk : linkOf s Link.used_head kept = linkOf s2 Link.used_head kept :=
    (linkOf_congr s s2 _ _ hb2').symm
  -- the state after unlinking
  have hg3 : (linkOf s2 Link.used_head kept).get
      ((linkOf s2 Link.used_head kept).set s2 (headOr0 rest')) = headOr0 rest' := by
    rw [link_get_set]; omega
  have hb3 : ((linkOf s2 Link.used_head kept).set s2 (headOr0 rest')).chunk_base
      = s.chunk_base := by
    rw [link_set_chunk_base]; exact hb2'
  have hKne : ∀ u ∈ kept ++ rest', ∀ f ∈ fl', u ≠ f := by
    intro u hu f hf he
    have := hcross2 u hu f hf
    have h1 := (hok2.2.2 f hf).1
    subst he
    unfold Disjoint at this
    omega
  have hkd : ∀ q p, kept = q ++ [p] → ∀ o ∈ q ++ rest', o ≠ p := by
    intro q p hq o ho he
    subst hq
    subst he
    have hd := List.pairwise_append.1 hwf.used_disj
    have h1 := (hwf.bounds o (by simp)).1
    rcases List.mem_append.1 ho with h2 | h2
    · have := (List.pairwise_append.1 hd.1).2.2 o h2 o (by simp)
      unfold Disjoint at this
      omega
    · have := hd.2.2 o (by simp) o (List.mem_cons_of_mem _ h2)
      unfold Disjoint at this
      omega
  have hag3f : Agree s2 ((linkOf s2 Link.used_head kept).set s2 (headOr0 rest')) fl' := by
    apply link_set_agree s2 Link.used_head kept _ fl' used_head_touches hk0
      (isList_ne_zero s2 fl' _ hok2.1)
    intro q p hq o ho he
    exact hKne p (by simp [hq]) o ho he.symm
  have hsz3 : ∀ o, o ≠ 0 →
      bsize ((linkOf s2 Link.used_head kept).set s2 (headOr0 rest')) o = bsize s2 o :=
    fun o ho => link_set_bsize s2 Link.used_head kept _ o used_head_touches hk0 ho
  have hszK : ∀ u ∈ kept ++ rest',
      bsize ((linkOf s2 Link.used_head kept).set s2 (headOr0 rest')) u = bsize s u := by
    intro u hu
    have hu0 := (hK u hu).1
    rw [hsz3 u hu0, (hag2.2 u hu).1, hsz1 u hu0]
  have hnxK : ∀ u ∈ kept ++ rest', (∀ q p, kept = q ++ [p] → u ≠ p) →
      bnext ((linkOf s2 Link.used_head kept).set s2 (headOr0 rest')) u = bnext s u := by
    intro u hu hup
    have hu0 := (hK u hu).1
    have a3 := link_set_agree s2 Link.used_head kept (headOr0 rest') [u]
      used_head_touches hk0 (by simp [hu0]) (by
        intro q p hq o ho
        rw [List.mem_singleton.1 ho]
        exact hup q p hq)
    rw [(a3.2 u (by simp)).2, (hag2.2 u hu).2]
    exact ((set_used_agree s r 0 [u] (by simp [hu0])).2 u (by simp)).2
  have hwf3 : WF ((linkOf s2 Link.used_head kept).set s2 (headOr0 rest')) fl'
      (kept ++ rest') := by
    have hok3 := freeOK_congr s2 _ fl'
      (link_set_free_list _ _ _ (linkOf_ne_free_head s2 kept)) hag3f hok2
    refine ⟨hok3.1, ?_, ?_, hok3.2.1, ?_, ?_⟩
    · rw [isList_iff_seg]
      have hr := seg_relink s ((linkOf s2 Link.used_head kept).set s2 (headOr0 rest'))
        Link.used_head kept r hb3 hseg (by
          intro q p hq
          refine ⟨?_, ?_⟩
          · show ((linkOf s2 Link.used_head kept).set s2 (headOr0 rest')).used_list
              = s.used_list
            rw [hq, linkOf_concat]
            exact hul2
          · intro o ho
            apply hnxK o (by simp [hq, ho])
            intro q' p' hq'
            have := List.append_inj' (hq.symm.trans hq') rfl
            have hp : p = p' := by simpa using this.2
            rw [← hp]
            exact hkd q p hq o (by simp [ho]))
      rw [← hlk, hlk, hg3] at hr
      refine seg_append _ _ _ _ _ _ hr ?_
      refine seg_congr (bnext s) _ rest' _ _ ?_ ((isList_iff_seg s _ _).1
        (by rw [← bnext_eq s r hr0, ] at hnext; rw [← hnext]; exact hlrest))
      intro o ho
      apply hnxK o (by simp [ho])
      intro q p hq
      exact hkd q p hq o (by simp [ho])
    · intro o ho
      rcases List.mem_append.1 ho with h1 | h1
      · have := hok3.2.2 o h1
        simp only [CELL_COUNT, CHUNK_SIZE, ALLOC_UNIT]
        omega
      · rw [hszK o h1]
        exact hwf.bounds o (by
          simp only [List.mem_append, List.mem_cons] at h1 ⊢
          tauto)
    · have hd := List.pairwise_append.1 hwf.used_disj
      have hd2 := List.pairwise_cons.1 hd.2.1
      have hsub : (kept ++ rest').Pairwise (Disjoint s) :=
        List.pairwise_append.2 ⟨hd.1, hd2.2,
          fun a ha b hb => hd.2.2 a ha b (List.mem_cons_of_mem _ hb)⟩
      refine List.Pairwise.imp_of_mem ?_ hsub
      intro a b ha hb hab
      unfold Disjoint at hab ⊢
      rw [hszK a ha, hszK b hb]
      exact hab
    · intro f hf u hu
      have := hcross2 u hu f hf
      have hf0 := isList_ne_zero s2 fl' _ hok2.1 f hf
      have hu0 := (hK u hu).1
      unfold Disjoint at this ⊢
      rw [hsz3 f hf0, hsz3 u hu0]
      exact this
  have hmk3 : ∀ o, mark_of ((linkOf s2 Link.used_head kept).set s2 (headOr0 rest'))
      (s.chunk_base + o * 16) = mark_of s (s.chunk_base + o * 16) := by
    intro o
    have e1 := link_set_mark s2 Link.used_head kept (headOr0 rest') o
      used_head_touches hk0
    rw [hb2'] at e1
    rw [e1]
    have e2 : mark_of s2 (s.chunk_base + o * 16)
        = mark_of (set_used s (s.chunk_base + r * 16) 0) (s.chunk_base + o * 16) :=
      hmk2 o
    rw [e2]
    exact set_used_mark s r 0 o
  have hcf3 : ∀ o, conf ((linkOf s2 Link.used_head kept).set s2 (headOr0 rest'))
      (s.chunk_base + o * 16) = conf s (s.chunk_base + o * 16) := by
    intro o
    have e1 := link_set_conf s2 Link.used_head kept (headOr0 rest') o
      used_head_touches hk0
    rw [hb2'] at e1
    rw [e1]
    have e2 : conf s2 (s.chunk_base + o * 16)
        = conf (set_used s (s.chunk_base + r * 16) 0) (s.chunk_base + o * 16) :=
      hcf2 o
    rw [e2]
    exact set_used_conf s r 0 o
  have hus3 : ∀ o, used ((linkOf s2 Link.used_head kept).set s2 (headOr0 rest'))
      (s.chunk_base + o * 16)
      = used (set_used s (s.chunk_base + r * 16) 0) (s.chunk_base + o * 16) := by
    intro o
    have e1 := link_set_used s2 Link.used_head kept (headOr0 rest') o
      used_head_touches hk0
    rw [hb2'] at e1
    rw [e1]
    exact hus2 o
  have hblk3 : ∀ x, Covers (blocks
      ((linkOf s2 Link.used_head kept).set s2 (headOr0 rest')) fl') x ↔
      Covers (blocks s fl) x ∨ (r ≤ x ∧ x < r + bsize s r) := by
    intro x
    rw [blocks_congr s2 _ fl' (fun o ho => (hag3f.2 o ho).1), hblk2,
      covers_spec_insert,
      blocks_congr s _ fl (fun o ho => hsz1 o (h0 o (by simp [ho]))), hsz1 r hr0]
  have hlen : fl'.length ≤ fl.length + 1 := by
    have e1 := congrArg List.length hblk2
    have e2 := spec_insert_length (r, bsize (set_used s (s.chunk_base + r * 16) 0) r)
      (blocks (set_used s (s.chunk_base + r * 16) 0) fl)
    unfold blocks at e1 e2
    simp only [List.length_map] at e1 e2
    omega
  refine ⟨fl', hwf3, hb2', ?_, hmk3, hszK, hcf3, hus3, hblk3, hlen⟩
  rw [link_set_stack_top]
  exact hst2

theorem sweep_loop_spec (fuel : Nat) : ∀ (s : State) (fl kept rest : List Nat) (s' : State),
    WF s fl (kept ++ rest) →
    sweep_loop fuel s (linkOf s Link.used_head kept) (o2p s (headOr0 rest)) = .ok s' →
    ∃ fl', WF s' fl' (kept ++ rest.filter (fun u => decide (Marked s u))) ∧
      s'.chunk_base = s.chunk_base ∧ s'.stack_top = s.stack_top ∧
      (∀ o, mark_of s' (s.chunk_base + o * 16) = mark_of s (s.chunk_base + o * 16)) ∧
      (∀ u ∈ kept ++ rest.filter (fun u => decide (Marked s u)), bsize s' u = bsize s u) ∧
      (∀ o, conf s' (s.chunk_base + o * 16) = conf s (s.chunk_base + o * 16)) ∧
      (∀ u ∈ rest, ¬ Marked s u → used s' (s.chunk_base + u * 16) = 0) ∧
      (∀ o, ¬ (o ∈ rest ∧ ¬ Marked s o) →
        used s' (s.chunk_base + o * 16) = used s (s.chunk_base + o * 16)) ∧
      (∀ x, Covers (blocks s' fl') x ↔
        Covers (blocks s fl) x ∨ ∃ u ∈ rest, ¬ Marked s u ∧ u ≤ x ∧ x < u + bsize s u) := by
  induction fuel with
  | zero =>
    intro s fl kept rest s' _ h
    simp [sweep_loop] at h
  | succ n ih =>
    intro s fl kept rest s' hwf h
    unfold sweep_loop at h
    cases rest with
    | nil =>
      simp only [headOr0, o2p, if_true] at h
      cases h
      refine ⟨fl, by simpa using hwf, rfl, rfl, fun _ => rfl, fun _ _ => rfl, fun _ => rfl,
        ?_, fun _ _ => rfl, ?_⟩
      · intro u hu
        cases hu
      · intro x
        simp
    | cons r rest' =>
      obtain ⟨hr0, hr1, hrb, hK, hfr, hseg, hlrest⟩ := wf_used_split s fl kept rest' r hwf
      have hnext : next s (s.chunk_base + r * 16) = headOr0 rest' := by
        rw [← bnext_eq s r hr0]
        exact isList_head s rest' _ hlrest
      have hnlt : headOr0 rest' < 65536 := by
        rw [← hnext]; exact next_lt _ _
      have h0 := wf_ne_zero s _ _ hwf
      have hk0 : ∀ o ∈ kept, o ≠ 0 := fun o ho => h0 o (by simp [ho])
      simp only [headOr0] at h
      rw [o2p_of_ne_zero s r hr0, if_neg (by omega)] at h
      rw [hnext] at h
      split at h
      · -- the block is unmarked: it goes to the free list
        rename_i hm
        have hnm : ¬ Marked s r := by
          unfold Marked
          rw [o2p_of_ne_zero s r hr0]
          exact fun hx => hx hm
        have hfilter : (r :: rest').filter (fun u => decide (Marked s u))
            = rest'.filter (fun u => decide (Marked s u)) := by
          rw [List.filter_cons_of_neg]
          simpa using hnm
        rw [hfilter]
        have hp2o : p2o (set_used s (s.chunk_base + r * 16) 0) (s.chunk_base + r * 16) = r :=
          p2o_cell (set_used s (s.chunk_base + r * 16) 0) r hr0 (by omega)
        have ho2p : s.chunk_base + r * 16 = o2p (set_used s (s.chunk_base + r * 16) 0) r :=
          (o2p_of_ne_zero _ r hr0).symm
        rw [hp2o] at h
        split at h
        · cases h
        · rename_i s2 ret hins
          split at h
          · cases h
          · rename_i hret
            have hret0 : ret = 0 := by
              by_contra hc
              exact hret hc
            subst hret0
            obtain ⟨fl', hwf3, hb2', hst3, hmk3, hszK, hcf3, hus3, hblk3, _⟩ :=
              sweep_free_step n s fl kept rest' r s2 hwf hins
            have hlk : linkOf s Link.used_head kept = linkOf s2 Link.used_head kept :=
              (linkOf_congr s s2 _ _ hb2').symm
            rw [hlk] at h
            have hg3 : (linkOf s2 Link.used_head kept).get
                ((linkOf s2 Link.used_head kept).set s2 (headOr0 rest')) = headOr0 rest' := by
              rw [link_get_set]; omega
            rw [hg3] at h
            have hb3 : ((linkOf s2 Link.used_head kept).set s2 (headOr0 rest')).chunk_base
                = s.chunk_base := by
              rw [link_set_chunk_base]; exact hb2'
            have h' : sweep_loop n ((linkOf s2 Link.used_head kept).set s2 (headOr0 rest'))
                (linkOf ((linkOf s2 Link.used_head kept).set s2 (headOr0 rest'))
                  Link.used_head kept)
                (o2p ((linkOf s2 Link.used_head kept).set s2 (headOr0 rest')) (headOr0 rest'))
                = .ok s' := by
              rw [linkOf_congr s2 _ Link.used_head kept (link_set_chunk_base _ _ _)]
              exact h
            obtain ⟨fl'', hwf', hb', hst', hmk', hsz', hcf', hu0', hus', hcov'⟩ :=
              ih _ fl' kept rest' s' hwf3 h'
            have hmkd : ∀ u ∈ rest', (Marked
                ((linkOf s2 Link.used_head kept).set s2 (headOr0 rest')) u ↔ Marked s u) :=
              fun u hu => marked_congr s _ u (hK u (by simp [hu])).1 hb3 (hmk3 u)
            have hfc : rest'.filter (fun u => decide (Marked
                ((linkOf s2 Link.used_head kept).set s2 (headOr0 rest')) u))
                = rest'.filter (fun u => decide (Marked s u)) := by
              apply List.filter_congr
              intro u hu
              have := hmkd u hu
              simp only [this]
            rw [hfc] at hwf' hsz'
            have hrn : r ∉ rest' := by
              intro hr
              have := (hK r (by simp [hr])).2.2
              unfold Disjoint at this
              omega
            refine ⟨fl'', hwf', hb'.trans hb3, ?_, ?_, ?_, ?_, ?_, ?_, ?_⟩
            · rw [hst']
              exact hst3
            · intro o
              rw [← hmk3 o, ← hb3]
              exact hmk' o
            · intro u hu
              rw [hsz' u hu]
              apply hszK
              rcases List.mem_append.1 hu with h1 | h1
              · exact List.mem_append_left _ h1
              · exact List.mem_append_right _ (List.mem_filter.1 h1).1
            · intro o
              rw [← hcf3 o, ← hb3]
              exact hcf' o
            · intro u hu hum
              rcases List.mem_cons.1 hu with h1 | h1
              · subst h1
                have e1 := hus' u (fun hx => hrn hx.1)
                rw [hb3] at e1
                rw [e1, hus3 u]
                exact set_used_used_eq s _
              · have e1 := hu0' u h1 (fun hx => hum ((hmkd u h1).1 hx))
                rw [hb3] at e1
                exact e1
            · intro o ho
              have hor : o ≠ r := by
                intro e
                subst e
                exact ho ⟨List.mem_cons_self _ _, hnm⟩
              have e1 := hus' o (fun hx => ho ⟨List.mem_cons_of_mem _ hx.1,
                fun hm => hx.2 ((hmkd o hx.1).2 hm)⟩)
              rw [hb3] at e1
              rw [e1, hus3 o]
              exact set_used_used_ne s r 0 o hor
            · intro x
              rw [hcov' x, hblk3 x]
              constructor
              · rintro ((h1 | h1) | ⟨u, hu, hum, hux⟩)
                · exact Or.inl h1
                · exact Or.inr ⟨r, List.mem_cons_self _ _, hnm, h1⟩
                · refine Or.inr ⟨u, List.mem_cons_of_mem _ hu,
                    fun hm => hum ((hmkd u hu).2 hm), ?_⟩
                  rw [hszK u (by simp [hu])] at hux
                  exact hux
              · rintro (h1 | ⟨u, hu, hum, hux⟩)
                · exact Or.inl (Or.inl h1)
                · rcases List.mem_cons.1 hu with h2 | h2
                  · subst h2
                    exact Or.inl (Or.inr hux)
                  · refine Or.inr ⟨u, h2, fun hm => hum ((hmkd u h2).1 hm), ?_⟩
                    rw [hszK u (by simp [h2])]
                    exact hux
      · -- the block is marked: it stays
        rename_i hm
        have hmk : Marked s r := by
          unfold Marked
          rw [o2p_of_ne_zero s r hr0]
          exact hm
        have hfilter : (r :: rest').filter (fun u => decide (Marked s u))
            = r :: rest'.filter (fun u => decide (Marked s u)) := by
          rw [List.filter_cons_of_pos]
          simpa using hmk
        rw [hfilter]
        change sweep_loop n (set_next s (s.chunk_base + r * 16) (headOr0 rest'))
          (Link.next_of (s.chunk_base + r * 16))
          (o2p (set_next s (s.chunk_base + r * 16) (headOr0 rest'))
            (next (set_next s (s.chunk_base + r * 16) (headOr0 rest')) (s.chunk_base + r * 16)))
          = .ok s' at h
        rw [next_set_next_eq, Nat.mod_eq_of_lt hnlt] at h
        obtain ⟨hfrm, hwf3⟩ := sweep_keep_step s fl kept rest' r hwf
        have hlk : Link.next_of (s.chunk_base + r * 16)
            = linkOf (set_next s (s.chunk_base + r * 16) (headOr0 rest')) Link.used_head
              (kept ++ [r]) := by
          rw [linkOf_concat, o2p_of_ne_zero _ r hr0]
          rfl
        rw [hlk] at h
        obtain ⟨fl'', hwf', hb', hst', hmk', hsz', hcf', hu0', hus', hcov'⟩ :=
          ih _ fl (kept ++ [r]) rest' s' hwf3 h
        have hmkd : ∀ u ∈ rest', (Marked
            (set_next s (s.chunk_base + r * 16) (headOr0 rest')) u ↔ Marked s u) :=
          fun u hu => marked_congr s (set_next s (s.chunk_base + r * 16) (headOr0 rest')) u
            (hK u (by simp [hu])).1 rfl (mark_congr _ _ _ (hfrm _))
        have hfc : rest'.filter (fun u => decide (Marked
            (set_next s (s.chunk_base + r * 16) (headOr0 rest')) u))
            = rest'.filter (fun u => decide (Marked s u)) := by
          apply List.filter_congr
          intro u hu
          have := hmkd u hu
          simp only [this]
        rw [hfc, List.append_assoc] at hwf'
        rw [hfc, List.append_assoc] at hsz'
        have hsz3 : ∀ o, o ≠ 0 →
            bsize (set_next s (s.chunk_base + r * 16) (headOr0 rest')) o = bsize s o := by
          intro o ho
          rw [bsize_eq _ o ho, bsize_eq s o ho]
          exact size_congr _ _ _ (fun x _ _ => hfrm x)
        have h0' : ∀ u ∈ kept ++ r :: rest'.filter (fun u => decide (Marked s u)), u ≠ 0 := by
          intro u hu
          apply h0 u
          simp only [List.mem_append, List.mem_cons] at hu ⊢
          rcases hu with h1 | h1 | h1
          · exact Or.inr (Or.inl h1)
          · exact Or.inr (Or.inr (Or.inl h1))
          · exact Or.inr (Or.inr (Or.inr (List.mem_filter.1 h1).1))
        refine ⟨fl'', hwf', hb', hst', ?_, ?_, ?_, ?_, ?_, ?_⟩
        · intro o
          rw [← mark_congr s (set_next s (s.chunk_base + r * 16) (headOr0 rest')) _ (hfrm _)]
          exact hmk' o
        · intro u hu
          rw [hsz' u hu]
          exact hsz3 u (h0' u hu)
        · intro o
          rw [← conf_congr s (set_next s (s.chunk_base + r * 16) (headOr0 rest')) _
            (fun x _ _ => hfrm x)]
          exact hcf' o
        · intro u hu hum
          rcases List.mem_cons.1 hu with h1 | h1
          · subst h1
            exact absurd hmk hum
          · exact hu0' u h1 (fun hx => hum ((hmkd u h1).1 hx))
        · intro o ho
          rw [← used_congr s (set_next s (s.chunk_base + r * 16) (headOr0 rest')) _ (hfrm _)]
          exact hus' o (fun hx => ho ⟨List.mem_cons_of_mem _ hx.1,
            fun hm => hx.2 ((hmkd o hx.1).2 hm)⟩)
        · intro x
          rw [hcov' x, blocks_congr s _ fl (fun o ho => hsz3 o (h0 o (by simp [ho])))]
          constructor
          · rintro (h1 | ⟨u, hu, hum, hux⟩)
            · exact Or.inl h1
            · refine Or.inr ⟨u, List.mem_cons_of_mem _ hu,
                fun hm => hum ((hmkd u hu).2 hm), ?_⟩
              rw [hsz3 u (hK u (by simp [hu])).1] at hux
              exact hux
          · rintro (h1 | ⟨u, hu, hum, hux⟩)
            · exact Or.inl h1
            · rcases List.mem_cons.1 hu with h2 | h2
              · subst h2
                exact absurd hmk hum
              · refine Or.inr ⟨u, h2, fun hm => hum ((hmkd u h2).1 hm), ?_⟩
                rw [hsz3 u (hK u (by simp [h2])).1]
                exact hux

/-! ## The sweep walk has fuel enough -/

theorem insert_free_loop_fuel (s : State) (coff i : Nat) : ∀ (rest : List Nat) (fuel p c : Nat),
    IsList s c rest → rest.length < fuel →
    insert_free_loop fuel s coff i p c ≠ .error Fault.outOfFuel := by
  intro rest
  induction rest with
  | nil =>
    intro fuel p c hl hf
    cases fuel with
    | zero => simp at hf
    | succ n =>
      simp only [IsList] at hl
      subst hl
      unfold insert_free_loop
      split
      · simp
      · split
        · split <;> simp
        · simp [o2p]
  | cons a rest ih =>
    intro fuel p c hl hf
    cases fuel with
    | zero => simp at hf
    | succ n =>
      obtain ⟨h1, h2, h3⟩ := hl
      subst h1
      unfold insert_free_loop
      split
      · simp
      · split
        · split <;> simp
        · split
          · simp
          · exact ih n c _ h3 (by simpa using hf)

theorem insert_free_fuel (fuel : Nat) (s : State) (fl : List Nat) (coff item : Nat)
    (hl : IsList s s.free_list fl) (hf : fl.length < fuel) :
    insert_free fuel s coff item ≠ .error Fault.outOfFuel := by
  unfold insert_free
  split
  · simp
  · exact insert_free_loop_fuel _ coff _ fl fuel _ _
      (isList_congr s _ _ _ ⟨rfl, fun _ _ => ⟨rfl, rfl⟩⟩ hl) hf

/-- With fuel beyond the two list lengths the walk of `sweep` does not run out
of fuel: it returns, or it stops in an insertion that failed. -/
theorem sweep_loop_fuel (fuel : Nat) : ∀ (s : State) (fl kept rest : List Nat),
    WF s fl (kept ++ rest) → fl.length + 2 * rest.length + 2 ≤ fuel →
    sweep_loop fuel s (linkOf s Link.used_head kept) (o2p s (headOr0 rest))
      ≠ .error Fault.outOfFuel := by
  induction fuel with
  | zero =>
    intro s fl kept rest _ hf
    omega
  | succ n ih =>
    intro s fl kept rest hwf hf
    unfold sweep_loop
    cases rest with
    | nil =>
      simp [headOr0, o2p]
    | cons r rest' =>
      obtain ⟨hr0, _, _, _, _, _, hlrest⟩ := wf_used_split s fl kept rest' r hwf
      have hnext : next s (s.chunk_base + r * 16) = headOr0 rest' := by
        rw [← bnext_eq s r hr0]
        exact isList_head s rest' _ hlrest
      have hnlt : headOr0 rest' < 65536 := by
        rw [← hnext]; exact next_lt _ _
      have h0 := wf_ne_zero s _ _ hwf
      have hrlt := wf_lt s _ _ hwf r (by simp)
      simp only [headOr0, List.length_cons] at hf ⊢
      rw [o2p_of_ne_zero s r hr0, if_neg (by omega), hnext]
      split
      · -- unmarked
        have hp2o : p2o (set_used s (s.chunk_base + r * 16) 0) (s.chunk_base + r * 16) = r :=
          p2o_cell (set_used s (s.chunk_base + r * 16) 0) r hr0 hrlt
        rw [hp2o]
        have hwf1 : WF (set_used s (s.chunk_base + r * 16) 0) fl (kept ++ r :: rest') :=
          wf_congr s _ fl _ hwf rfl rfl (set_used_agree s r 0 _ h0)
        have hnf := insert_free_fuel n (set_used s (s.chunk_base + r * 16) 0) fl r
          (s.chunk_base + r * 16) hwf1.free (by omega)
        split
        · rename_i e hins
          intro hc
          cases hc
          exact hnf hins
        · rename_i s2 ret hins
          split
          · simp
          · rename_i hret
            have hret0 : ret = 0 := by
              by_contra hc
              exact hret hc
            subst hret0
            obtain ⟨fl', hwf3, hb2', _, _, _, _, _, _, hlen⟩ :=
              sweep_free_step n s fl kept rest' r s2 hwf hins
            rw [link_get_set, Nat.mod_eq_of_lt hnlt]
            have hlk : linkOf s Link.used_head kept = linkOf s2 Link.used_head kept :=
              (linkOf_congr s s2 _ _ hb2').symm
            rw [hlk]
            have key := ih _ fl' kept rest' hwf3 (by omega)
            rw [linkOf_congr s2 _ Link.used_head kept (link_set_chunk_base _ _ _)] at key
            exact key
      · -- marked
        obtain ⟨hfrm, hwf3⟩ := sweep_keep_step s fl kept rest' r hwf
        show sweep_loop n (set_next s (s.chunk_base + r * 16) (headOr0 rest'))
          (Link.next_of (s.chunk_base + r * 16))
          (o2p (set_next s (s.chunk_base + r * 16) (headOr0 rest'))
            (next (set_next s (s.chunk_base + r * 16) (headOr0 rest')) (s.chunk_base + r * 16)))
          ≠ _
        rw [next_set_next_eq, Nat.mod_eq_of_lt hnlt]
        have hlk : Link.next_of (s.chunk_base + r * 16)
            = linkOf (set_next s (s.chunk_base + r * 16) (headOr0 rest')) Link.used_head
              (kept ++ [r]) := by
          rw [linkOf_concat, o2p_of_ne_zero _ r hr0]
          rfl
        rw [hlk]
        exact ih _ fl (kept ++ [r]) rest' hwf3 (by omega)
/-! ## Collection and allocation preserve well-formedness -/

theorem sweep_spec (fuel : Nat) (s : State) (fl ul : List Nat) (s' : State)
    (hwf : WF s fl ul) (h : sweep fuel s = .ok s') :
    ∃ fl', WF s' fl' (ul.filter (fun u => decide (Marked s u))) ∧
      s'.chunk_base = s.chunk_base ∧ s'.stack_top = s.stack_top ∧
      (∀ o, mark_of s' (s.chunk_base + o * 16) = mark_of s (s.chunk_base + o * 16)) ∧
      (∀ u ∈ ul.filter (fun u => decide (Marked s u)), bsize s' u = bsize s u) ∧
      (∀ o, conf s' (s.chunk_base + o * 16) = conf s (s.chunk_base + o * 16)) ∧
      (∀ u ∈ ul, ¬ Marked s u → used s' (s.chunk_base + u * 16) = 0) ∧
      (∀ o, ¬ (o ∈ ul ∧ ¬ Marked s o) →
        used s' (s.chunk_base + o * 16) = used s (s.chunk_base + o * 16)) ∧
      (∀ x, Covers (blocks s' fl') x ↔
        Covers (blocks s fl) x ∨ ∃ u ∈ ul, ¬ Marked s u ∧ u ≤ x ∧ x < u + bsize s u) := by
  unfold sweep at h
  have hh : s.used_list = headOr0 ul := isList_head s ul _ hwf.used
  rw [hh, ← linkOf_nil s Link.used_head] at h
  obtain ⟨fl', h1, h2, h3, h4, h5, h6, h7, h8, h9⟩ :=
    sweep_loop_spec fuel s fl [] ul s' (by simpa using hwf) h
  exact ⟨fl', by simpa using h1, h2, h3, h4, by simpa using h5, h6, h7, h8, h9⟩

/-- With fuel beyond the two list lengths `sweep` returns, or it stops in an
insertion that failed; it does not run out of fuel. -/
theorem sweep_fuel (fuel : Nat) (s : State) (fl ul : List Nat) (hwf : WF s fl ul)
    (hf : fl.length + 2 * ul.length + 2 ≤ fuel) : sweep fuel s ≠ .error Fault.outOfFuel := by
  unfold sweep
  have hh : s.used_list = headOr0 ul := isList_head s ul _ hwf.used
  rw [hh, ← linkOf_nil s Link.used_head]
  exact sweep_loop_fuel fuel s fl [] ul (by simpa using hwf) hf

theorem read8_write64_ne (m : Mem) (a v x : Nat) (h : x < a ∨ a + 8 ≤ x) :
    read8 (write64 m a v) x = read8 m x := by
  unfold write64
  rw [read8_write16_ne _ _ _ _ (by omega), read8_write16_ne _ _ _ _ (by omega),
    read8_write16_ne _ _ _ _ (by omega), read8_write16_ne _ _ _ _ (by omega)]

/-- A store outside the heap region leaves every listed header alone. -/
theorem agree_of_outside (s s' : State) (fl ul : List Nat) (hwf : WF s fl ul)
    (hb : s'.chunk_base = s.chunk_base)
    (h : ∀ x, s.chunk_base ≤ x → x < s.chunk_base + 1048576 → read8 s'.mem x = read8 s.mem x) :
    Agree s s' (fl ++ ul) := by
  apply agree_of_frame s s' _ hb _ (wf_ne_zero s fl ul hwf)
  intro o ho _ x hx1 hx2
  have := wf_lt s fl ul hwf o ho
  apply h <;> omega

theorem mark_wf (fuel : Nat) (s : State) (fl ul : List Nat) (bot : Nat) (s' : State)
    (hwf : WF s fl ul) (hst : StackOutsideHeap s bot) (h : mark fuel s bot = .ok s') :
    WF { s with mem := write64 s.mem bot 0 } fl ul ∧
      MarkFrame { s with mem := write64 s.mem bot 0 } s' ul := by
  unfold mark at h
  have hwf0 : WF { s with mem := write64 s.mem bot 0 } fl ul := by
    refine wf_congr s { s with mem := write64 s.mem bot 0 } fl ul hwf rfl rfl ?_
    refine agree_of_outside s { s with mem := write64 s.mem bot 0 } fl ul hwf rfl ?_
    intro x hx1 hx2
    apply read8_write64_ne
    unfold StackOutsideHeap at hst
    simp only [SIZEOF_INTPTR, CHUNK_SIZE] at hst
    omega
  exact ⟨hwf0, mark_range_frame fl ul fuel _ _ _ _ hwf0 h⟩

theorem init_gc_collect_wf (fuel : Nat) (s : State) (fl ul : List Nat) (s' : State)
    (hwf : WF s fl ul) (h : init_gc_collect fuel s = .ok s') :
    MarkFrame s s' ul ∧ ∀ u ∈ ul, mark_of s' (s.chunk_base + u * 16) = 0 :=
  init_gc_collect_loop_spec fuel s ul _ s' hwf.used h

theorem gc_collect_wf (fuel : Nat) (s : State) (fl ul : List Nat) (bot : Nat) (s' : State)
    (hwf : WF s fl ul) (hst : StackOutsideHeap s bot) (h : gc_collect fuel s bot = .ok s') :
    ∃ fl' ul', WF s' fl' ul' ∧ s'.chunk_base = s.chunk_base ∧ s'.stack_top = s.stack_top := by
  unfold gc_collect at h
  split at h
  · cases h
  · rename_i s1 h1
    split at h
    · cases h
    · rename_i s2 h2
      obtain ⟨hf1, _⟩ := init_gc_collect_wf fuel s fl ul s1 hwf h1
      have hwf1 := markFrame_wf s s1 fl ul ul hf1 hwf
      have hst1 : StackOutsideHeap s1 bot := by
        unfold StackOutsideHeap at hst ⊢
        rw [hf1.1]
        exact hst
      obtain ⟨hwf1', hf2⟩ := mark_wf fuel s1 fl ul bot s2 hwf1 hst1 h2
      have hwf2 := markFrame_wf _ s2 fl ul ul hf2 hwf1'
      obtain ⟨fl', hwf3, hb3, hst3, _⟩ := sweep_spec fuel s2 fl ul s' hwf2 h
      refine ⟨fl', _, hwf3, ?_, ?_⟩
      · rw [hb3, hf2.1]
        exact hf1.1
      · rw [hst3, hf2.2.2.2.1]
        exact hf1.2.2.2.1

/-- A request of at most 65535 slots keeps the heap well formed. -/
theorem gc_malloc_wf (fuel : Nat) (s : State) (fl ul : List Nat) (bytes bot : Nat)
    (s' : State) (a : Nat) (hwf : WF s fl ul) (hst : StackOutsideHeap s bot)
    (hreq : bytes + 8 ≤ 1048560)
    (h : gc_malloc fuel s bytes bot = .ok (s', a)) :
    ∃ fl' ul', WF s' fl' ul' ∧ s'.chunk_base = s.chunk_base ∧ s'.stack_top = s.stack_top := by
  unfold gc_malloc at h
  split at h
  · cases h
  · rename_i s1 a1 h1
    split at h
    · rename_i ha1
      cases h
      obtain ⟨hu1, hu2⟩ := units_of_bounds bytes hreq
      exact gc_malloc1_wf fuel s fl ul bytes s' a hwf hu1 hu2 h1
    · split at h
      · cases h
      · rename_i s2 h2
        split at h
        · cases h
        · rename_i s3 a3 h3
          split at h
          · rename_i ha3
            cases h
            obtain ⟨hu1, hu2⟩ := units_of_bounds bytes hreq
            obtain ⟨fl1, ul1, hwf1, hb1, hst1⟩ := gc_malloc1_wf fuel s fl ul bytes s1 a1 hwf hu1 hu2 h1
            have hso1 : StackOutsideHeap s1 bot := by
              unfold StackOutsideHeap at hst ⊢
              rw [hb1]
              exact hst
            obtain ⟨fl2, ul2, hwf2, hb2, hst2⟩ := gc_collect_wf fuel s1 fl1 ul1 bot s2 hwf1 hso1 h2
            obtain ⟨fl3, ul3, hwf3, hb3, hst3⟩ := gc_malloc1_wf fuel s2 fl2 ul2 bytes s' a hwf2 hu1 hu2 h3
            exact ⟨fl3, ul3, hwf3, hb3.trans (hb2.trans hb1), hst3.trans (hst2.trans hst1)⟩
          · cases h

/-- For a pointer below the last page of the non-negative `intptr_t` range the
page arithmetic of `gc_init` is exact. -/
theorem stack_top_exact (a : Nat) (ha : a + 4096 < 9223372036854775808) :
    toIntptr ((Int.tdiv (toIntptr a) 4096 + 1) * 4096 % 18446744073709551616).toNat =
      (((a / 4096 + 1) * 4096 : Nat) : Int) := by
  rw [toIntptr_small a (by omega)]
  have h1 : Int.tdiv (a : Int) 4096 = ((a / 4096 : Nat) : Int) := (Int.ofNat_tdiv a 4096).symm
  rw [h1]
  have h2 : ((((a / 4096 : Nat) : Int) + 1) * 4096 % 18446744073709551616).toNat =
      (a / 4096 + 1) * 4096 := by
    omega
  rw [h2]
  exact toIntptr_small _ (by omega)

theorem gc_init_fields (m : Mem) (main_frame base : Nat) (s : State)
    (h : gc_init (boot m) main_frame base = .ok s) :
    s.free_list = 1 ∧ s.used_list = 0 ∧ s.chunk_base = base ∧
      s.stack_top = toIntptr
        ((Int.tdiv (toIntptr main_frame) 4096 + 1) * 4096 % 18446744073709551616).toNat ∧
      size s (base + 1 * 16) = 65535 ∧ next s (base + 1 * 16) = 0 := by
  unfold gc_init at h
  simp only [] at h
  split at h
  · cases h
  · cases h
    refine ⟨rfl, rfl, rfl, rfl, ?_, ?_⟩
    · show read16 (write16 (write16 _ (base + 1 * 16) (CELL_COUNT - 1)) (base + 1 * 16 + 2) 0)
        (base + 1 * 16) = 65535
      rw [read16_write16_ne _ _ _ _ (by omega), read16_write16_eq]
      rfl
    · show read16 (write16 (write16 _ (base + 1 * 16) (CELL_COUNT - 1)) (base + 1 * 16 + 2) 0)
        (base + 1 * 16 + 2) = 0
      rw [read16_write16_eq]

theorem gc_init_wf (m : Mem) (main_frame base : Nat) (s : State)
    (h : gc_init (boot m) main_frame base = .ok s) : WF s [1] [] := by
  obtain ⟨hf, hu, hb, _, hsz, hnx⟩ := gc_init_fields m main_frame base s h
  have hbs : bsize s 1 = 65535 := by
    rw [bsize_eq s 1 (by decide), hb]; exact hsz
  refine ⟨?_, ?_, ?_, ?_, ?_, ?_⟩
  · rw [hf]
    refine ⟨rfl, by decide, ?_⟩
    show next s (o2p s 1) = 0
    rw [o2p_of_ne_zero s 1 (by decide), hb]
    exact hnx
  · rw [hu]
    rfl
  · intro o ho
    simp only [List.append_nil, List.mem_singleton] at ho
    subst ho
    rw [hbs]
    exact ⟨by omega, by simp only [CELL_COUNT, CHUNK_SIZE, ALLOC_UNIT]; omega⟩
  · simp
  · simp
  · intro f _ u hu
    cases hu

theorem store_wf (s : State) (fl ul : List Nat) (a v : Nat) (hwf : WF s fl ul)
    (ho : ClientOwned s a) : WF { s with mem := write8 s.mem a v } fl ul := by
  refine wf_congr s { s with mem := write8 s.mem a v } fl ul hwf rfl rfl ?_
  refine agree_of_frame s { s with mem := write8 s.mem a v } _ rfl ?_ (wf_ne_zero s fl ul hwf)
  intro o hom ho0 x hx1 hx2
  apply read8_write8_ne
  have holt := wf_lt s fl ul hwf o hom
  have hob := (hwf.bounds o hom).1
  rcases ho with h | h | ⟨ul', u, hl, hu, h1, h2⟩
  · omega
  · simp only [CHUNK_SIZE] at h
    omega
  · have hul : ul' = ul := isList_unique s ul' ul _ hl hwf.used
    subst hul
    have hu0 := wf_ne_zero s fl ul' hwf u (List.mem_append_right _ hu)
    rw [o2p_of_ne_zero s u hu0] at h1 h2
    simp only [SIZEOF_CELL, ALLOC_UNIT] at h1 h2
    by_cases hou : o = u
    · subst hou
      omega
    · have hd : Disjoint s o u := by
        rcases List.mem_append.1 hom with h3 | h3
        · exact hwf.cross o h3 u hu
        · exact List.Pairwise.forall (fun x y hxy => disjoint_symm s x y hxy) hwf.used_disj
            h3 hu hou
      unfold Disjoint at hd
      omega

/-- In a well-formed heap the successor of a free block starts more than one
block length after it. -/
theorem wf_next_gap (s : State) (fl ul : List Nat) (hwf : WF s fl ul) :
    ∀ a ∈ fl, bnext s a = 0 ∨ (bnext s a ∈ fl ∧ a + bsize s a < bnext s a) := by
  intro a ha
  obtain ⟨pre, post, hfl⟩ := List.append_of_mem ha
  subst hfl
  obtain ⟨_, _, _, _, hpost, _, _, hl⟩ := wf_free_split s pre post ul a hwf
  have hh := isList_head s post _ hl
  by_cases h0 : headOr0 post = 0
  · left; omega
  · right
    have hm := headOr0_mem post h0
    rw [hh]
    exact ⟨by simp [hm], hpost _ hm⟩

theorem wf_all_disjoint (s : State) (fl ul : List Nat) (hwf : WF s fl ul) :
    (fl ++ ul).Pairwise (Disjoint s) := by
  refine List.pairwise_append.2 ⟨?_, hwf.used_disj, hwf.cross⟩
  refine List.Pairwise.imp ?_ hwf.sorted
  intro a b hab
  unfold Disjoint
  omega

/-! ## What the mark phase marks -/

theorem or_mark_ne_zero (x : Nat) (hx : x < 256) : (x ||| GC_MARK) % 256 ≠ 0 := by
  have h1 : x ||| 2 < 2 ^ 8 := Nat.or_lt_two_pow (by omega) (by omega)
  have h2 : (x ||| 2).testBit 1 = true := by
    rw [Nat.testBit_or]
    have : Nat.testBit 2 1 = true := by decide
    rw [this]
    simp
  intro h0
  change (x ||| 2) % 256 = 0 at h0
  rw [Nat.mod_eq_of_lt (by omega)] at h0
  rw [h0] at h2
  simp at h2

theorem pointsInto_congr (s s' : State) (u : Nat) (w : Int)
    (hb : s'.chunk_base = s.chunk_base) (hsz : bsize s' u = bsize s u) :
    PointsInto s' u w ↔ PointsInto s u w := by
  unfold PointsInto
  rw [o2p_congr s s' u hb, hsz]

theorem pointsInto_unique (s : State) (fl ul : List Nat) (u u' : Nat) (w : Int)
    (hwf : WF s fl ul) (hu : u ∈ ul) (hu' : u' ∈ ul) (h1 : PointsInto s u w)
    (h2 : PointsInto s u' w) : u = u' := by
  by_contra hne
  have hd : Disjoint s u u' :=
    List.Pairwise.forall (fun x y hxy => disjoint_symm s x y hxy) hwf.used_disj hu hu' hne
  have h0 := wf_ne_zero s fl ul hwf u (List.mem_append_right _ hu)
  have h0' := wf_ne_zero s fl ul hwf u' (List.mem_append_right _ hu')
  unfold PointsInto at h1 h2
  rw [o2p_of_ne_zero s u h0] at h1
  rw [o2p_of_ne_zero s u' h0'] at h2
  unfold Disjoint at hd
  simp only [SIZEOF_CELL, ALLOC_UNIT] at h1 h2
  omega

theorem read64_stable (s s' : State) (ul : List Nat) (j : Nat) (hf : MarkFrame s s' ul)
    (hst : ∀ u ∈ ul, s.chunk_base + u * 16 + 7 < j ∨ j + 8 ≤ s.chunk_base + u * 16 + 7) :
    read64 s'.mem j = read64 s.mem j := by
  apply read64_congr
  intro k hk
  apply hf.2.2.2.2
  intro u hu
  have := hst u hu
  omega

/-- No mark byte of a used block lies among the payload words of a used block. -/
theorem payload_word_clear (s : State) (fl ul : List Nat) (v k : Nat) (hwf : WF s fl ul)
    (hv : v ∈ ul) (hk : k < 2 * bsize s v - 1) :
    ∀ u ∈ ul, s.chunk_base + u * 16 + 7 < s.chunk_base + v * 16 + 8 + 8 * k ∨
      s.chunk_base + v * 16 + 8 + 8 * k + 8 ≤ s.chunk_base + u * 16 + 7 := by
  intro u hu
  by_cases hne : u = v
  · subst hne
    omega
  · have hd : Disjoint s u v :=
      List.Pairwise.forall (fun x y hxy => disjoint_symm s x y hxy) hwf.used_disj hu hv hne
    have := (hwf.bounds u (List.mem_append_right _ hu)).1
    unfold Disjoint at hd
    omega

theorem marked_iff (s : State) (o : Nat) (ho : o ≠ 0) :
    Marked s o ↔ mark_of s (s.chunk_base + o * 16) ≠ 0 := by
  unfold Marked
  rw [o2p_of_ne_zero s o ho]

theorem marked_set_mark (s : State) (off u : Nat) (hoff : off ≠ 0) (hu : u ≠ 0)
    (h : u = off ∨ Marked s u) :
    Marked (set_mark s (s.chunk_base + off * 16)
      (mark_of s (s.chunk_base + off * 16) ||| GC_MARK)) u := by
  rw [marked_iff _ u hu]
  show read8 (write8 s.mem _ _) (s.chunk_base + u * 16 + 7) ≠ 0
  by_cases hne : u = off
  · subst hne
    rw [read8_write8_eq]
    exact or_mark_ne_zero _ (read8_lt _ _)
  · rw [read8_write8_ne _ _ _ _ (by omega)]
    rcases h with h | h
    · exact absurd h hne
    · exact (marked_iff s u hu).1 h

theorem markFrame_pointsInto (s s' : State) (ul : List Nat) (hf : MarkFrame s s' ul) (u : Nat)
    (w : Int) : PointsInto s' u w ↔ PointsInto s u w :=
  pointsInto_congr s s' u w hf.1 (markFrame_bsize s s' ul hf u)

theorem marked_of_frame (s s' : State) (u : Nat) (hb : s'.chunk_base = s.chunk_base)
    (hm : mark_of s' (s.chunk_base + u * 16) = mark_of s (s.chunk_base + u * 16))
    (hu : u ≠ 0) : Marked s' u ↔ Marked s u := by
  rw [marked_iff s' u hu, marked_iff s u hu, hb, hm]

/-- The mark phase keeps every mark, marks every block of the used list that a word
of the scanned range points into, and every block it newly marks has all the blocks
marked that the words of its payload point into. -/
theorem mark_range_closure (fl ul : List Nat) (fuel : Nat) : ∀ (s : State) (i top : Nat)
    (s' : State), WF s fl ul →
    (∀ k, i + 8 * k < top → ∀ u ∈ ul, s.chunk_base + u * 16 + 7 < i + 8 * k ∨
      i + 8 * k + 8 ≤ s.chunk_base + u * 16 + 7) →
    mark_range fuel s i top = .ok s' →
    (∀ u ∈ ul, Marked s u → Marked s' u) ∧
    (∀ k, i + 8 * k < top → ∀ u ∈ ul,
      PointsInto s u (toIntptr (read64 s.mem (i + 8 * k))) → Marked s' u) ∧
    (∀ v ∈ ul, Marked s' v → Marked s v ∨ ∀ k, k < 2 * bsize s v - 1 → ∀ u ∈ ul,
      PointsInto s u (toIntptr (read64 s.mem (s.chunk_base + v * 16 + 8 + 8 * k))) →
        Marked s' u) := by
  induction fuel with
  | zero =>
    intro s i top s' _ _ hr
    simp [mark_range] at hr
  | succ n ih =>
    intro s i top s' hwf hclear hr
    unfold mark_range at hr
    split at hr
    · rename_i hlt
      simp only [] at hr
      split at hr
      · cases hr
      · rename_i found cell_offset hfind
        rcases find_ptr_spec n s fl ul _ 0 _ hwf hfind with
          ⟨hr1, l1, l2, hl12, hpt, _⟩ | ⟨hr1, _, hnone⟩
        · have hr1 : found = TRUE := hr1
          have hl12 : ul = l1 ++ cell_offset :: l2 := hl12
          have hpt : PointsInto s cell_offset (toIntptr (read64 s.mem i)) := hpt
          have hmem : cell_offset ∈ ul := by rw [hl12]; simp
          have hne : cell_offset ≠ 0 := wf_ne_zero s fl ul hwf _ (List.mem_append_right _ hmem)
          rw [if_pos hr1, o2p_of_ne_zero s _ hne, if_neg (by omega)] at hr
          have hf1 := markFrame_set_mark s ul cell_offset
            (mark_of s (s.chunk_base + cell_offset * 16) ||| GC_MARK) hmem
          have hwf1 := markFrame_wf _ _ fl ul ul hf1 hwf
          have hm1 : ∀ u ∈ ul, u = cell_offset ∨ Marked s u →
              Marked (set_mark s (s.chunk_base + cell_offset * 16)
                (mark_of s (s.chunk_base + cell_offset * 16) ||| GC_MARK)) u := fun u hu h =>
            marked_set_mark s cell_offset u hne
              (wf_ne_zero s fl ul hwf _ (List.mem_append_right _ hu)) h
          split at hr
          · cases hr
          · rename_i s2 hrec1
            have hf2 := mark_range_frame fl ul n _ _ _ _ hwf1 hrec1
            have hf12 := markFrame_trans _ _ _ _ hf1 hf2
            have hwf2 := markFrame_wf _ _ fl ul ul hf2 hwf1
            have hsz1 : size (set_mark s (s.chunk_base + cell_offset * 16)
                (mark_of s (s.chunk_base + cell_offset * 16) ||| GC_MARK))
                (s.chunk_base + cell_offset * 16) = bsize s cell_offset := by
              rw [← markFrame_bsize _ _ ul hf1 cell_offset, bsize_eq _ _ hne]
              rfl
            rw [hsz1] at hrec1
            have hcl1 : ∀ k, s.chunk_base + cell_offset * 16 + SIZEOF_CELL + 8 * k <
                s.chunk_base + cell_offset * 16 + SIZEOF_CELL + ALLOC_UNIT * bsize s cell_offset
                  - SIZEOF_CELL → k < 2 * bsize s cell_offset - 1 := by
              intro k hk
              simp only [SIZEOF_CELL, ALLOC_UNIT] at hk
              omega
            obtain ⟨hA1, hB1, hC1⟩ := ih _ _ _ s2 hwf1 (by
              intro k hk u hu
              have := payload_word_clear s fl ul cell_offset k hwf hmem (hcl1 k hk) u hu
              simp only [SIZEOF_CELL, set_mark_chunk_base]
              exact this) hrec1
            obtain ⟨hA2, hB2, hC2⟩ := ih _ _ _ s' hwf2 (by
              intro k hk u hu
              have := hclear (k + 1) (by simp only [SIZEOF_INTPTR] at hk; omega) u hu
              rw [hf12.1]
              simp only [SIZEOF_INTPTR]
              omega) hr
            -- payload words of the marked cell point to marked blocks
            have hcell : ∀ k, k < 2 * bsize s cell_offset - 1 → ∀ u ∈ ul,
                PointsInto s u (toIntptr (read64 s.mem
                  (s.chunk_base + cell_offset * 16 + 8 + 8 * k))) → Marked s' u := by
              intro k hk u hu hp
              apply hA2 u hu
              apply hB1 k (by simp only [SIZEOF_CELL, ALLOC_UNIT]; omega) u hu
              rw [markFrame_pointsInto _ _ ul hf1]
              have hw := read64_stable _ _ ul (s.chunk_base + cell_offset * 16 + 8 + 8 * k) hf1
                (payload_word_clear s fl ul cell_offset k hwf hmem hk)
              simp only [SIZEOF_CELL]
              rw [hw]
              exact hp
            refine ⟨?_, ?_, ?_⟩
            · intro u hu hm
              exact hA2 u hu (hA1 u hu (hm1 u hu (Or.inr hm)))
            · intro k hk u hu hp
              cases k with
              | zero =>
                have : u = cell_offset :=
                  pointsInto_unique s fl ul u cell_offset _ hwf hu hmem hp hpt
                subst this
                exact hA2 u hu (hA1 u hu (hm1 u hu (Or.inl rfl)))
              | succ k =>
                apply hB2 k (by simp only [SIZEOF_INTPTR]; omega) u hu
                rw [markFrame_pointsInto _ _ ul hf12]
                have hw := read64_stable _ _ ul (i + 8 * (k + 1)) hf12 (hclear (k + 1) hk)
                have he : i + SIZEOF_INTPTR + 8 * k = i + 8 * (k + 1) := by
                  simp only [SIZEOF_INTPTR]
                  omega
                rw [he, hw]
                exact hp
            · intro v hv hm
              have hclose : ∀ (t t2 : State), MarkFrame s t ul →
                  (∀ u ∈ ul, Marked t2 u → Marked s' u) →
                  (∀ k, k < 2 * bsize t v - 1 → ∀ u ∈ ul,
                    PointsInto t u (toIntptr (read64 t.mem
                      (t.chunk_base + v * 16 + 8 + 8 * k))) → Marked t2 u) →
                  ∀ k, k < 2 * bsize s v - 1 → ∀ u ∈ ul,
                    PointsInto s u (toIntptr (read64 s.mem
                      (s.chunk_base + v * 16 + 8 + 8 * k))) → Marked s' u := by
                intro t t2 hft hup hcl k hk u hu hp
                apply hup u hu
                apply hcl k (by rw [markFrame_bsize _ _ ul hft]; exact hk) u hu
                rw [markFrame_pointsInto _ _ ul hft, hft.1]
                rw [read64_stable _ _ ul (s.chunk_base + v * 16 + 8 + 8 * k) hft
                  (payload_word_clear s fl ul v k hwf hv hk)]
                exact hp
              rcases hC2 v hv hm with h2 | h2
              · rcases hC1 v hv h2 with h1 | h1
                · by_cases hvc : v = cell_offset
                  · subst hvc
                    exact Or.inr hcell
                  · left
                    have hv0 := wf_ne_zero s fl ul hwf _ (List.mem_append_right _ hv)
                    rw [marked_iff _ v hv0] at h1
                    rw [marked_iff _ v hv0]
                    change read8 (write8 s.mem _ _) (s.chunk_base + v * 16 + 7) ≠ 0 at h1
                    rw [read8_write8_ne _ _ _ _ (by omega)] at h1
                    exact h1
                · right
                  exact hclose _ s2 hf1 hA2 h1
              · right
                exact hclose s2 s' hf12 (fun _ _ h => h) h2
        · have hr1' : found = FALSE := hr1
          rw [if_neg (by rw [hr1']; decide)] at hr
          obtain ⟨hA2, hB2, hC2⟩ := ih _ _ _ s' hwf (by
            intro k hk u hu
            have := hclear (k + 1) (by simp only [SIZEOF_INTPTR] at hk; omega) u hu
            simp only [SIZEOF_INTPTR]
            omega) hr
          refine ⟨hA2, ?_, hC2⟩
          intro k hk u hu hp
          cases k with
          | zero => exact absurd hp (hnone u hu)
          | succ k =>
            apply hB2 k (by simp only [SIZEOF_INTPTR]; omega) u hu
            have he : i + SIZEOF_INTPTR + 8 * k = i + 8 * (k + 1) := by
              simp only [SIZEOF_INTPTR]
              omega
            rw [he]
            exact hp
    · cases hr
      rename_i hge
      refine ⟨fun _ _ h => h, ?_, fun _ _ h => Or.inl h⟩
      intro k hk
      omega

theorem read8_write8_congr (m m' : Mem) (a v x : Nat) (h : read8 m' x = read8 m x) :
    read8 (write8 m' a v) x = read8 (write8 m a v) x := by
  by_cases hx : x = a
  · subst hx
    rw [read8_write8_eq, read8_write8_eq]
  · rw [read8_write8_ne _ _ _ _ hx, read8_write8_ne _ _ _ _ hx]
    exact h

theorem read8_write64_congr (m m' : Mem) (a v x : Nat) (h : read8 m' x = read8 m x) :
    read8 (write64 m' a v) x = read8 (write64 m a v) x := by
  unfold write64 write16
  repeat apply read8_write8_congr
  exact h

/-- What a collection keeps: the result is well formed, its used list is drawn from
the old one, every block a scanned stack word points into is kept, and so is every
block that a payload word of a kept block points into. -/
theorem gc_collect_closure (fuel : Nat) (s : State) (fl ul : List Nat) (bot : Nat)
    (s' : State) (hwf : WF s fl ul) (hst : StackOutsideHeap s bot)
    (hrange : s.stack_top ≤ s.chunk_base ∨ s.chunk_base + CHUNK_SIZE ≤ bot)
    (h : gc_collect fuel s bot = .ok s') :
    ∃ fl' ul', WF s' fl' ul' ∧ (∀ v ∈ ul', v ∈ ul) ∧
      (∀ u ∈ ul, ∀ k : Nat, bot + 8 * k < s.stack_top →
        PointsInto s u (toIntptr (read64 (write64 s.mem bot 0) (bot + 8 * k))) → u ∈ ul') ∧
      (∀ v ∈ ul', ∀ u ∈ ul, ∀ k, k < 2 * bsize s v - 1 →
        PointsInto s u (toIntptr (read64 s.mem (s.chunk_base + v * 16 + 8 + 8 * k))) →
          u ∈ ul') := by
  unfold gc_collect at h
  split at h
  · cases h
  · rename_i s1 h1
    split at h
    · cases h
    · rename_i s2 h2
      obtain ⟨hf1, hz⟩ := init_gc_collect_wf fuel s fl ul s1 hwf h1
      have hwf1 := markFrame_wf s s1 fl ul ul hf1 hwf
      have hst1 : StackOutsideHeap s1 bot := by
        unfold StackOutsideHeap at hst ⊢
        rw [hf1.1]
        exact hst
      obtain ⟨hwf1', hf2⟩ := mark_wf fuel s1 fl ul bot s2 hwf1 hst1 h2
      have hwf2 := markFrame_wf _ s2 fl ul ul hf2 hwf1'
      obtain ⟨fl', hwf3, hb3, hst3, _⟩ := sweep_spec fuel s2 fl ul s' hwf2 h
      unfold mark at h2
      unfold StackOutsideHeap at hst
      simp only [SIZEOF_INTPTR, CHUNK_SIZE] at hst hrange
      have hlt : ∀ u ∈ ul, 1 ≤ u ∧ 1 ≤ bsize s u ∧ u + bsize s u ≤ 65536 := by
        intro u hu
        have h0 := wf_ne_zero s fl ul hwf u (List.mem_append_right _ hu)
        have hb := hwf.bounds u (List.mem_append_right _ hu)
        simp only [CHUNK_SIZE, ALLOC_UNIT, SIZEOF_CELL, CELL_COUNT] at hb
        omega
      -- the store of the zero word keeps every byte of the heap region
      have hmem0 : ∀ x, s.chunk_base ≤ x → x < s.chunk_base + 1048576 →
          read8 (write64 s1.mem bot 0) x = read8 s1.mem x := by
        intro x hx1 hx2
        apply read8_write64_ne
        omega
      have hag := agree_of_outside s1 { s1 with mem := write64 s1.mem bot 0 } fl ul hwf1 rfl
        (by rw [hf1.1]; exact hmem0)
      have hbs : ∀ u ∈ ul, bsize { s1 with mem := write64 s1.mem bot 0 } u = bsize s u := by
        intro u hu
        rw [(hag.2 u (List.mem_append_right _ hu)).1]
        exact markFrame_bsize s s1 ul hf1 u
      have hpi : ∀ u ∈ ul, ∀ w, PointsInto s u w →
          PointsInto { s1 with mem := write64 s1.mem bot 0 } u w := by
        intro u hu w hp
        rw [pointsInto_congr s { s1 with mem := write64 s1.mem bot 0 } u w hf1.1 (hbs u hu)]
        exact hp
      have hclear : ∀ k : Nat, bot + 8 * k < s.stack_top → ∀ u ∈ ul,
          s.chunk_base + u * 16 + 7 < bot + 8 * k ∨
            bot + 8 * k + 8 ≤ s.chunk_base + u * 16 + 7 := by
        intro k hk u hu
        have := hlt u hu
        omega
      obtain ⟨_, hB, hC⟩ := mark_range_closure fl ul fuel _ _ _ s2 hwf1' (by
        intro k hk u hu
        have hk' : ((bot + 8 * k : Nat) : Int) < s.stack_top := by
          have hk2 : bot + 8 * k < s1.stack_top.toNat := hk
          have e := hf1.2.2.2.1
          omega
        have := hclear k (by omega) u hu
        show s1.chunk_base + u * 16 + 7 < bot + 8 * k ∨ _ ≤ s1.chunk_base + u * 16 + 7
        rw [hf1.1]
        exact this) h2
      have hun : ∀ v ∈ ul, ¬ Marked { s1 with mem := write64 s1.mem bot 0 } v := by
        intro v hv hm
        have hv0 := (hlt v hv).1
        rw [marked_iff _ v (by omega)] at hm
        apply hm
        show read8 (write64 s1.mem bot 0) (s1.chunk_base + v * 16 + 7) = 0
        rw [hf1.1, hmem0 _ (by omega) (by have := hlt v hv; omega)]
        exact hz v hv
      refine ⟨fl', _, hwf3, ?_, ?_, ?_⟩
      · intro v hv
        exact (List.mem_filter.1 hv).1
      · intro u hu k hk hp
        refine List.mem_filter.2 ⟨hu, decide_eq_true ?_⟩
        apply hB k (by
          show bot + 8 * k < s1.stack_top.toNat
          have e := hf1.2.2.2.1
          omega) u hu
        apply hpi u hu
        have hw : read64 (write64 s1.mem bot 0) (bot + 8 * k) =
            read64 (write64 s.mem bot 0) (bot + 8 * k) := by
          apply read64_congr
          intro j hj
          apply read8_write64_congr
          apply hf1.2.2.2.2
          intro u hu
          have := hclear k hk u hu
          omega
        show PointsInto s u (toIntptr (read64 (write64 s1.mem bot 0) (bot + 8 * k)))
        rw [hw]
        exact hp
      · intro v hv u hu k hk hp
        obtain ⟨hv1, hv2⟩ := List.mem_filter.1 hv
        have hv2 : Marked s2 v := of_decide_eq_true hv2
        refine List.mem_filter.2 ⟨hu, decide_eq_true ?_⟩
        rcases hC v hv1 hv2 with hm | hcl
        · exact absurd hm (hun v hv1)
        · apply hcl k (by rw [hbs v hv1]; exact hk) u hu
          apply hpi u hu
          have hw : read64 (write64 s1.mem bot 0) (s1.chunk_base + v * 16 + 8 + 8 * k) =
              read64 s.mem (s.chunk_base + v * 16 + 8 + 8 * k) := by
            rw [hf1.1]
            apply read64_congr
            intro j hj
            have := hlt v hv1
            rw [hmem0 _ (by omega) (by omega)]
            apply hf1.2.2.2.2
            intro u hu
            have := payload_word_clear s fl ul v k hwf hv1 hk u hu
            omega
          show PointsInto s u (toIntptr (read64 (write64 s1.mem bot 0)
            (s1.chunk_base + v * 16 + 8 + 8 * k)))
          rw [hw]
          exact hp

/-! ## The used-list point query returns -/

theorem isList_lt (s : State) : ∀ (l : List Nat) (h : Nat), IsList s h l → h < 65536 →
    ∀ o ∈ l, o < 65536 := by
  intro l
  induction l with
  | nil => intro h _ _ o ho; cases ho
  | cons a l ih =>
    intro h hl hlt o ho
    obtain ⟨h1, _, h3⟩ := hl
    rcases List.mem_cons.1 ho with h4 | h4
    · omega
    · exact ih _ h3 (next_lt _ _) o h4

theorem find_ptr_loop_total (s : State) (addr : Int) (co : Nat) : ∀ (l : List Nat)
    (fuel h : Nat), IsList s h l → l.length < fuel →
    ∃ r, find_ptr_loop fuel s addr co (o2p s h) = .ok r := by
  intro l
  induction l with
  | nil =>
    intro fuel h hl hf
    cases fuel with
    | zero => simp at hf
    | succ n =>
      simp only [IsList] at hl
      subst hl
      exact ⟨(FALSE, co), by unfold find_ptr_loop; simp [o2p]⟩
  | cons a l ih =>
    intro fuel h hl hf
    cases fuel with
    | zero => simp at hf
    | succ n =>
      obtain ⟨h1, h2, h3⟩ := hl
      subst h1
      unfold find_ptr_loop
      rw [o2p_of_ne_zero s h h2, if_neg (by omega)]
      simp only []
      split
      · exact ⟨_, rfl⟩
      · have hn : next s (s.chunk_base + h * 16) = bnext s h := (bnext_eq s h h2).symm
        rw [hn]
        exact ih n _ h3 (by simpa using hf)

/-! ## Stores of the client outside the heap region -/

theorem reachable_store16 (s : State) (a v : Nat) (h : Reachable s)
    (ha : a + 2 ≤ s.chunk_base ∨ s.chunk_base + CHUNK_SIZE ≤ a) :
    Reachable { s with mem := write16 s.mem a v } := by
  have h1 := Reachable.store s a v h (by unfold ClientOwned; omega)
  exact Reachable.store _ (a + 1) (v / 256) h1 (by
    unfold ClientOwned
    show a + 1 < s.chunk_base ∨ s.chunk_base + CHUNK_SIZE ≤ a + 1 ∨ _
    omega)

theorem reachable_store64 (s : State) (a v : Nat) (h : Reachable s)
    (ha : a + 8 ≤ s.chunk_base ∨ s.chunk_base + CHUNK_SIZE ≤ a) :
    Reachable { s with mem := write64 s.mem a v } := by
  have h1 := reachable_store16 s a v h (by omega)
  have h2 := reachable_store16 _ (a + 2) (v / 65536) h1 (by
    show a + 2 + 2 ≤ s.chunk_base ∨ s.chunk_base + CHUNK_SIZE ≤ a + 2
    omega)
  have h3 := reachable_store16 _ (a + 4) (v / 4294967296) h2 (by
    show a + 4 + 2 ≤ s.chunk_base ∨ s.chunk_base + CHUNK_SIZE ≤ a + 4
    omega)
  exact reachable_store16 _ (a + 6) (v / 281474976710656) h3 (by
    show a + 6 + 2 ≤ s.chunk_base ∨ s.chunk_base + CHUNK_SIZE ≤ a + 6
    omega)

/-! ## Insertion past the tail of the free list -/

/-- Insertion past the tail: when every cell of the remaining walk lies below the
block to insert, the walk of `insert_free` runs off the end of the list and
dereferences the null cell. -/
theorem insert_free_loop_past_tail (s : State) (coff i : Nat) (hi0 : i ≠ 0) :
    ∀ (rest : List Nat) (fuel p c : Nat), IsList s c rest → (∀ x ∈ rest, x < i) → p ≠ 0 →
      rest.length < fuel →
      insert_free_loop fuel s coff i p c = .error Fault.nullDeref := by
  intro rest
  induction rest with
  | nil =>
    intro fuel p c hl _ hp hf
    cases fuel with
    | zero => simp at hf
    | succ n =>
      simp only [IsList] at hl
      subst hl
      unfold insert_free_loop
      rw [if_neg hp, if_neg (by omega)]
      simp [o2p]
  | cons a rest ih =>
    intro fuel p c hl hlt hp hf
    cases fuel with
    | zero => simp at hf
    | succ n =>
      obtain ⟨h1, h2, h3⟩ := hl
      subst h1
      have := hlt c (List.mem_cons_self _ _)
      unfold insert_free_loop
      rw [if_neg hp, if_neg (by omega), o2p_of_ne_zero s c h2, if_neg (by omega)]
      rw [← o2p_of_ne_zero s c h2]
      exact ih n c _ h3 (fun x hx => hlt x (List.mem_cons_of_mem _ hx)) h2 (by simpa using hf)

theorem insert_free_past_tail (fuel : Nat) (s : State) (fl : List Nat) (coff i : Nat)
    (hl : IsList s s.free_list fl) (hne : fl ≠ []) (hlt : ∀ f ∈ fl, f < i) (hi : i < 65536)
    (hfuel : fl.length < fuel) :
    insert_free fuel s coff (o2p s i) = .error Fault.nullDeref := by
  have hi0 : i ≠ 0 := by
    cases fl with
    | nil => exact absurd rfl hne
    | cons a l => have := hlt a (List.mem_cons_self _ _); omega
  have hp : s.free_list ≠ 0 := by
    cases fl with
    | nil => exact absurd rfl hne
    | cons a l => rw [hl.1]; exact hl.2.1
  unfold insert_free
  rw [o2p_of_ne_zero s i hi0, if_neg (by omega)]
  simp only []
  have hpo : p2o { s with
      bytes_freed := (s.bytes_freed + ALLOC_UNIT * size s (s.chunk_base + i * 16))
        % 18446744073709551616,
      blocks_freed := (s.blocks_freed + 1) % 18446744073709551616 } (s.chunk_base + i * 16) = i :=
    p2o_cell _ i hi0 hi
  rw [hpo]
  exact insert_free_loop_past_tail _ coff i hi0 fl fuel _ _
    (isList_congr s _ _ _ ⟨rfl, fun _ _ => ⟨rfl, rfl⟩⟩ hl) hlt hp hfuel

/-! ## The single-shot allocator returns -/

theorem take_shrink_link_get (s : State) (pre post ul : List Nat) (c units : Nat)
    (hwf : WF s (pre ++ c :: post) ul) :
    (linkOf s Link.free_head pre).get (take_shrink s units (s.chunk_base + c * 16)) = c := by
  obtain ⟨hc0, hsz1, hcb, hpre, hpost, hul, hseg, hlpost⟩ := wf_free_split s pre post ul c hwf
  have h0 := wf_ne_zero s _ _ hwf
  have hpre0 : ∀ o ∈ pre, o ≠ 0 := fun o ho => h0 o (by simp [ho])
  obtain ⟨hb2, hf2, hu2', hst2, hsz2, hfr2⟩ := take_shrink_spec s units (s.chunk_base + c * 16)
  have hget : (linkOf s Link.free_head pre).get s = c := linkOf_get s _ pre c hseg
  refine Eq.trans ?_ hget
  refine link_get_congr _ _ _ hf2 hu2' ?_
  intro a ha
  obtain ⟨q, p, hq, hp1, hp2⟩ :=
    linkOf_touches s Link.free_head pre a (fun _ hx => hx) hpre0 ha
  have := hpre p (by simp [hq])
  exact hfr2 a (by omega) (by omega)

theorem take_relink_returns (s : State) (pre post ul : List Nat) (c units : Nat)
    (hwf : WF s (pre ++ c :: post) ul) (hu2 : units ≤ bsize s c) :
    ∃ s5, take_relink (take_shrink s units (o2p s c)) units (linkOf s Link.free_head pre)
      (o2p s c) ((size s (o2p s c) - units) % 65536) = .ok s5 := by
  obtain ⟨hc0, hsz1, hcb, _, _, _, _, _⟩ := wf_free_split s pre post ul c hwf
  have hcc : o2p s c = s.chunk_base + c * 16 := o2p_of_ne_zero s c hc0
  have hbs : bsize s c = size s (s.chunk_base + c * 16) := bsize_eq s c hc0
  rw [hcc]
  unfold take_relink
  by_cases hn : (size s (s.chunk_base + c * 16) - units) % 65536 = 0
  · rw [if_neg (by simpa using hn)]
    exact ⟨_, rfl⟩
  · rw [if_pos hn]
    simp only []
    have hget := take_shrink_link_get s pre post ul c units hwf
    rw [link_get_set, hget]
    have hlt : units < bsize s c := by
      rw [hbs]
      by_contra hc
      apply hn
      have : size s (s.chunk_base + c * 16) - units = 0 := by omega
      rw [this]
    have hm : (c + units) % 65536 = c + units := Nat.mod_eq_of_lt (by omega)
    rw [hm, o2p_of_ne_zero _ (c + units) (by omega), if_neg (by omega)]
    exact ⟨_, rfl⟩

theorem take_finish_returns (s : State) (bytes units dd : Nat) (hdd : dd ≠ 0)
    (hsz : size s dd = units) (hcf : conf s dd = 7 * units) :
    ∃ s', take_finish s bytes units dd = .ok (s', dd + SIZEOF_CELL) := by
  unfold take_finish
  simp only []
  unfold insert_used
  rw [if_neg hdd]
  simp only []
  split
  · rename_i h1
    split
    · exact ⟨_, rfl⟩
    · rename_i h2
      exfalso
      apply h2
      rw [h1, ← hcf]
      show read16 (memset (write16 (write8 (write8 s.mem (dd + 7) _) (dd + 6) 1) (dd + 2) _)
        (dd + SIZEOF_CELL) 127 bytes) (dd + 4) = read16 s.mem (dd + 4)
      rw [read16_memset_out _ _ _ _ _ (by simp only [SIZEOF_CELL]; omega),
        read16_write16_ne _ _ _ _ (by omega), read16_write8_ne _ _ _ _ (by omega),
        read16_write8_ne _ _ _ _ (by omega)]
  · rename_i h1
    exfalso
    apply h1
    rw [← hsz]
    show read16 (memset (write16 (write8 (write8 s.mem (dd + 7) _) (dd + 6) 1) (dd + 2) _)
      (dd + SIZEOF_CELL) 127 bytes) dd = read16 s.mem dd
    rw [read16_memset_out _ _ _ _ _ (by simp only [SIZEOF_CELL]; omega),
      read16_write16_ne _ _ _ _ (by omega), read16_write8_ne _ _ _ _ (by omega),
      read16_write8_ne _ _ _ _ (by omega)]

/-- A fitting free block `c` that passes the `MAX_INDEX` guard is taken: the
allocator returns the address of its payload, the block heads the used list,
and the remainder of a split stands in its place in the free list. -/
theorem gc_malloc1_take_spec (s : State) (pre post ul : List Nat) (c units bytes : Nat)
    (hwf : WF s (pre ++ c :: post) ul) (hbytes : bytes + 8 ≤ 16 * units)
    (hfit : units ≤ bsize s c) (hconf : 7 * units < 65536)
    (hguard : (if units = bsize s c then bnext s c else c + units) < MAX_INDEX) :
    ∃ s', gc_malloc1_take s bytes units (linkOf s Link.free_head pre) (o2p s c)
        = .ok (s', o2p s c + SIZEOF_CELL) ∧
      WF s' (pre ++ (if units = bsize s c then [] else [c + units]) ++ post) (c :: ul) ∧
      s'.chunk_base = s.chunk_base ∧
      bsize s' c = units ∧ used s' (o2p s c) = 1 ∧ mark_of s' (o2p s c) = GC_NO_MARK ∧
      conf s' (o2p s c) = 7 * units ∧
      (units < bsize s c →
        bsize s' (c + units) = bsize s c - units ∧ bnext s' (c + units) = bnext s c) ∧
      (∀ o ∈ pre ++ post ++ ul, bsize s' o = bsize s o) := by
  have hu1 : 1 ≤ units := by omega
  obtain ⟨hc0, hsz1, hcb, _, _, _, _, _⟩ := wf_free_split s pre post ul c hwf
  obtain ⟨s5, h5⟩ := take_relink_returns s pre post ul c units hwf hfit
  obtain ⟨hwf5, hb5, hst5, hsz5, hout5, hoth5, hget5, hrem5, hcf5⟩ :=
    take_relink_lists s pre post ul c units s5 hwf hu1 hfit h5
  have hcc : o2p s c = s.chunk_base + c * 16 := o2p_of_ne_zero s c hc0
  have hsz5' : size s5 (s.chunk_base + c * 16) = units := by
    rw [← hb5, ← bsize_eq s5 c hc0]
    exact hsz5
  have hcf5' : conf s5 (s.chunk_base + c * 16) = 7 * units := by
    rw [hcf5]
    exact Nat.mod_eq_of_lt hconf
  obtain ⟨s', h'⟩ := take_finish_returns s5 bytes units (s.chunk_base + c * 16) (by omega)
    hsz5' hcf5'
  have hfin : take_finish s5 bytes units (o2p s5 c) = .ok (s', s.chunk_base + c * 16 + SIZEOF_CELL) := by
    rw [o2p_of_ne_zero s5 c hc0, hb5]
    exact h'
  obtain ⟨hwf', hb', hst', _⟩ := take_finish_wf s5 _ ul c units bytes s' _ hwf5 hc0 hu1
    (by omega) hout5 hbytes hfin
  obtain ⟨_, _, _, _, _, hsz', _, hus', hmk', hfr'⟩ :=
    take_finish_spec s5 bytes units (s.chunk_base + c * 16) c s' _ (by rw [hb5]) hc0 (by omega) h'
  have hbs' : ∀ o, o ≠ 0 → (o + bsize s5 o ≤ c ∨ c + units ≤ o) → bsize s' o = bsize s5 o := by
    intro o ho0 ho
    rw [bsize_eq s' o ho0, bsize_eq s5 o ho0, hb', hb5]
    apply size_congr
    intro x hx1 hx2
    apply hfr'
    rcases ho with h | h
    · left; omega
    · right; left; omega
  have hne5 := wf_ne_zero s5 _ _ hwf5
  refine ⟨s', ?_, hwf', hb'.trans hb5, ?_, ?_, ?_, ?_, ?_, ?_⟩
  · unfold gc_malloc1_take
    simp only []
    rw [h5]
    simp only []
    rw [hget5, if_neg (by omega), hcc]
    exact h'
  · rw [bsize_eq s' c hc0, hb', hb5]
    exact hsz'
  · rw [hcc]; exact hus'
  · rw [hcc]; exact hmk'
  · rw [hcc, ← hcf5']
    apply conf_congr
    intro x hx1 hx2
    apply hfr'
    right; right
    omega
  · intro hlt
    obtain ⟨e1, e2⟩ := hrem5 hlt
    have hmem : c + units ∈ (pre ++ (if units = bsize s c then [] else [c + units]) ++ post) ++ ul := by
      rw [if_neg (by omega)]
      simp
    constructor
    · rw [hbs' (c + units) (by omega) (Or.inr (by omega)), e1]
    · rw [← e2, bnext_eq s' _ (by omega), bnext_eq s5 _ (by omega), hb', hb5]
      apply next_congr
      intro x hx1 hx2
      apply hfr'
      right; left
      omega
  · intro o ho
    rw [← hoth5 o ho]
    have hmem : o ∈ (pre ++ (if units = bsize s c then [] else [c + units]) ++ post) ++ ul := by
      simp only [List.mem_append] at ho ⊢
      rcases ho with (h | h) | h
      · exact Or.inl (Or.inl (Or.inl h))
      · exact Or.inl (Or.inr h)
      · exact Or.inr h
    exact hbs' o (hne5 o hmem) (hout5 o hmem)

/-- A fitting free block whose replacement link reaches `MAX_INDEX` is rejected:
the allocator returns null. -/
theorem gc_malloc1_take_rejected (s : State) (pre post ul : List Nat) (c units bytes : Nat)
    (hwf : WF s (pre ++ c :: post) ul) (hu1 : 1 ≤ units) (hfit : units ≤ bsize s c)
    (hguard : MAX_INDEX ≤ (if units = bsize s c then bnext s c else c + units)) :
    ∃ s', gc_malloc1_take s bytes units (linkOf s Link.free_head pre) (o2p s c) = .ok (s', 0) := by
  obtain ⟨s5, h5⟩ := take_relink_returns s pre post ul c units hwf hfit
  obtain ⟨_, _, _, _, _, _, hget5, _⟩ :=
    take_relink_lists s pre post ul c units s5 hwf hu1 hfit h5
  refine ⟨s5, ?_⟩
  unfold gc_malloc1_take
  simp only []
  rw [h5]
  simp only []
  rw [hget5, if_pos hguard]

/-- The first-fit walk passes the free blocks that are too small. -/
theorem gc_malloc1_loop_skip (s : State) (bytes units : Nat) (ul : List Nat) :
    ∀ (pre1 : List Nat) (fuel : Nat) (pre rest : List Nat), WF s (pre ++ (pre1 ++ rest)) ul →
      (∀ f ∈ pre1, bsize s f < units) →
      gc_malloc1_loop (fuel + pre1.length) s bytes units (linkOf s Link.free_head pre)
          (o2p s (headOr0 (pre1 ++ rest)))
        = gc_malloc1_loop fuel s bytes units (linkOf s Link.free_head (pre ++ pre1))
          (o2p s (headOr0 rest)) := by
  intro pre1
  induction pre1 with
  | nil =>
    intro fuel pre rest _ _
    simp
  | cons a pre1 ih =>
    intro fuel pre rest hwf hsk
    have hwf' : WF s (pre ++ a :: (pre1 ++ rest)) ul := by simpa using hwf
    obtain ⟨ha0, _, _, _, _, _, _, hlpost⟩ := wf_free_split s pre (pre1 ++ rest) ul a hwf'
    have hnext : next s (o2p s a) = headOr0 (pre1 ++ rest) := isList_head s _ _ hlpost
    have hsa := hsk a (List.mem_cons_self _ _)
    have e : fuel + (a :: pre1).length = (fuel + pre1.length) + 1 := by simp; omega
    rw [e]
    show gc_malloc1_loop (fuel + pre1.length + 1) s bytes units (linkOf s Link.free_head pre)
      (o2p s a) = _
    have hoa : o2p s a ≠ 0 := by rw [o2p_of_ne_zero s a ha0]; omega
    have step : gc_malloc1_loop (fuel + pre1.length + 1) s bytes units
        (linkOf s Link.free_head pre) (o2p s a)
        = gc_malloc1_loop (fuel + pre1.length) s bytes units
          (linkOf s Link.free_head (pre ++ [a])) (o2p s (headOr0 (pre1 ++ rest))) := by
      conv_lhs => unfold gc_malloc1_loop
      rw [if_neg hoa, if_neg (by unfold bsize at hsa; omega), hnext,
        ← linkOf_concat s Link.free_head pre a]
    rw [step, ih fuel (pre ++ [a]) rest (by simpa using hwf)
      (fun f hf => hsk f (List.mem_cons_of_mem _ hf))]
    simp

theorem gc_malloc1_loop_no_fit (s : State) (bytes units : Nat) (fl ul : List Nat) (fuel : Nat)
    (hwf : WF s fl ul) (hsk : ∀ f ∈ fl, bsize s f < units) (hfuel : fl.length < fuel) :
    gc_malloc1_loop fuel s bytes units Link.free_head (o2p s s.free_list) = .ok (s, 0) := by
  have hh : s.free_list = headOr0 fl := isList_head s fl _ hwf.free
  have e : fuel = (fuel - fl.length) + fl.length := by omega
  have h1 := gc_malloc1_loop_skip s bytes units ul fl (fuel - fl.length) [] []
    (by simpa using hwf) hsk
  rw [linkOf_nil, List.append_nil, ← hh, ← e] at h1
  rw [h1]
  have e2 : fuel - fl.length = (fuel - fl.length - 1) + 1 := by omega
  rw [e2]
  unfold gc_malloc1_loop
  simp [headOr0, o2p]

theorem gc_malloc1_loop_first_fit (s : State) (bytes units : Nat) (pre post ul : List Nat)
    (c fuel : Nat) (hwf : WF s (pre ++ c :: post) ul) (hsk : ∀ f ∈ pre, bsize s f < units)
    (hfit : units ≤ bsize s c) (hfuel : pre.length < fuel) :
    gc_malloc1_loop fuel s bytes units Link.free_head (o2p s s.free_list)
      = gc_malloc1_take s bytes units (linkOf s Link.free_head pre) (o2p s c) := by
  have hh : s.free_list = headOr0 (pre ++ c :: post) := isList_head s _ _ hwf.free
  have e : fuel = (fuel - pre.length) + pre.length := by omega
  have h1 := gc_malloc1_loop_skip s bytes units ul pre (fuel - pre.length) [] (c :: post)
    (by simpa using hwf) hsk
  rw [linkOf_nil, ← hh, ← e] at h1
  rw [h1]
  have e2 : fuel - pre.length = (fuel - pre.length - 1) + 1 := by omega
  rw [e2]
  obtain ⟨hc0, _, _, _, _, _, _, _⟩ := wf_free_split s pre post ul c hwf
  conv_lhs => unfold gc_malloc1_loop
  simp only [List.nil_append, headOr0]
  rw [if_neg (by rw [o2p_of_ne_zero s c hc0]; omega), if_pos (by unfold bsize at hfit; exact hfit)]


theorem eq_ok_of_isOk {α : Type} (r : Run α) (d : α) (h : isOk r = true) :
    r = .ok (okOr r d) := by
  cases r with
  | ok a => rfl
  | error e => simp [isOk] at h

theorem eq_error_of_faultOf {α : Type} (r : Run α) (e : Fault) (h : faultOf r = some e) :
    r = .error e := by
  cases r with
  | ok a => simp [faultOf] at h
  | error e' =>
    simp only [faultOf, Option.some.injEq] at h
    rw [h]

theorem okAnd_elim {α : Type} (r : Run α) (p : α → Bool) (h : okAnd r p = true) :
    ∃ a, r = .ok a ∧ p a = true := by
  cases r with
  | ok a => exact ⟨a, rfl, h⟩
  | error e => simp [okAnd] at h

/-! ## Concrete runs -/

set_option maxRecDepth 4096

theorem gc_malloc_of_first_attempt (fuel : Nat) (s : State) (bytes bot : Nat) (s1 : State)
    (a : Nat) (h : gc_malloc1 fuel s bytes = .ok (s1, a)) (ha : a ≠ 0) :
    gc_malloc fuel s bytes bot = .ok (s1, a) := by
  simp [gc_malloc, h, ha]

theorem run_calls_reachable (fuel bot : Nat) : ∀ (cs : List Call) (s s' : State),
    Reachable s → run_calls fuel bot cs s = .ok s' → Reachable s' := by
  intro cs
  induction cs with
  | nil =>
    intro s s' hr h
    simp only [run_calls] at h
    cases h
    exact hr
  | cons c cs ih =>
    intro s s' hr h
    unfold run_calls at h
    split at h
    · rename_i hst
      cases c with
      | malloc bytes =>
        simp only [] at h
        split at h
        · rename_i s1 a hm
          exact ih _ _ (Reachable.malloc s fuel bytes bot s1 a hr hst hm) h
        · cases h
      | collect =>
        simp only [] at h
        split at h
        · rename_i s1 hm
          exact ih _ _ (Reachable.collect s fuel bot s1 hr hst hm) h
        · cases h
    · cases h

theorem run_first_attempts_reachable (fuel bot : Nat) : ∀ (bs : List Nat) (s s' : State),
    Reachable s → run_first_attempts fuel bot bs s = .ok s' → Reachable s' := by
  intro bs
  induction bs with
  | nil =>
    intro s s' hr h
    simp only [run_first_attempts] at h
    cases h
    exact hr
  | cons b bs ih =>
    intro s s' hr h
    unfold run_first_attempts at h
    split at h
    · rename_i hst
      split at h
      · rename_i s1 a hm
        split at h
        · rename_i ha
          exact ih _ _ (Reachable.malloc s fuel b bot s1 a hr hst
            (gc_malloc_of_first_attempt _ _ _ _ _ _ hm ha)) h
        · cases h
      · cases h
    · cases h

theorem ex_init_reachable : Reachable ex_init :=
  Reachable.init ex_mem ex_frame ex_base ex_init (eq_ok_of_isOk _ _ (by decide))

theorem ex_six_reachable : Reachable ex_six :=
  run_calls_reachable 100 ex_bot _ ex_init ex_six ex_init_reachable
    (eq_ok_of_isOk _ _ (by decide))

theorem ex_linked_wf : WF ex_linked [3] [2, 1] :=
  ⟨by decide, by decide, by decide, by decide, by decide, by decide⟩

/-- In `ex_linked` the stack word above the frame of `mark` points into block 1,
the payload word of block 1 points into block 2, and a collection keeps both. -/
theorem ex_linked_collect :
    PointsInto ex_linked 1 (toIntptr (read64 (write64 ex_linked.mem ex_bot 0) (ex_bot + 8))) ∧
      PointsInto ex_linked 2 (toIntptr (read64 ex_linked.mem (o2p ex_linked 1 + SIZEOF_CELL))) ∧
      okAnd (gc_collect 100 ex_linked ex_bot)
        (fun t => decide (IsList t t.used_list [2, 1] ∧ IsList t t.free_list [3])) = true := by
  decide

theorem ex_two_reachable : Reachable ex_two :=
  reachable_store64 ex_two_blocks (ex_bot + 8) (o2p ex_two_blocks 2 + SIZEOF_CELL)
    (run_calls_reachable 100 ex_bot _ ex_init ex_two_blocks ex_init_reachable
      (eq_ok_of_isOk _ _ (by decide)))
    (Or.inr (by decide))

theorem ex_gap_reachable : Reachable ex_gap :=
  run_calls_reachable 100 ex_bot _ ex_two ex_gap ex_two_reachable
    (eq_ok_of_isOk _ _ (by decide))

theorem ex_full_reachable : Reachable ex_full :=
  run_first_attempts_reachable 100 ex_bot _ ex_init ex_full ex_init_reachable
    (eq_ok_of_isOk _ _ (by decide))

/-- The equation `conf = (7 * size) mod 2^16` is not an invariant of the reachable
states: it fails in the state right after `gc_init`. -/
theorem conf_equation_not_invariant :
    ¬ (∀ s, Reachable s → ∀ fl ul, IsList s s.free_list fl → IsList s s.used_list ul →
        ∀ o ∈ fl ++ ul, conf s (o2p s o) = (7 * bsize s o) % 65536) := by
  intro h
  have h1 := h ex_init ex_init_reachable [1] [] (by decide) (by decide) 1 (by simp)
  revert h1
  decide

theorem ex_two_marked_wf : WF ex_two_marked [3] [2, 1] :=
  ⟨by decide, by decide, by decide, by decide, by decide, by decide⟩

/-- In `ex_hole` the block at offset 2 lies between the free blocks at 1 and 3 and
touches both: the table merges all three into the block at offset 1. -/
theorem ex_hole_merge_both :
    blocks ex_hole [1, 3] = [(1, 1), (3, 65533)] ∧ bsize ex_hole 2 = 1 ∧
      spec_insert (2, 1) [(1, 1), (3, 65533)] = [(1, 65535)] ∧
      okAnd (insert_free 10 ex_hole 2 (o2p ex_hole 2))
        (fun r => decide (r.2 = 0 ∧ IsList r.1 r.1.free_list [1] ∧ bsize r.1 1 = 65535)) = true := by
  decide

/-- In `ex_two_marked` block 2 is marked and block 1 is not; `sweep` keeps block 2
and returns block 1 to the free list. -/
theorem ex_two_marked_sweep :
    Marked ex_two_marked 2 ∧ ¬ Marked ex_two_marked 1 ∧
      okAnd (sweep 100 ex_two_marked)
        (fun t => decide (IsList t t.used_list [2] ∧ IsList t t.free_list [1, 3] ∧
          used t (o2p t 1) = 0 ∧ used t (o2p t 2) = 1 ∧ mark_of t (o2p t 2) = GC_MARK)) = true := by
  decide

theorem ex_over_reachable : Reachable ex_over :=
  run_calls_reachable 100 ex_bot _ ex_init ex_over ex_init_reachable
    (eq_ok_of_isOk _ _ (by decide))

/-- C7 (the code departs from the claim): right after `gc_init` the single-shot
allocator returns an address, that of the payload of the block at offset 1, for
a request of 1048569 bytes.  The block it hands out has the size field 1, not
`ceil((1048569 + 8) / 16) = 65537`: the slot count is cut to 16 bits.  Its
payload capacity `1 * 16 - 8` is 8 bytes, far less than the request. -/
theorem oversize_request_gets_one_slot :
    Reachable ex_init ∧ gc_malloc1 10 ex_init 1048569 = .ok ex_oversize ∧
      ex_oversize.2 = o2p ex_init 1 + SIZEOF_CELL ∧
      size ex_oversize.1 (ex_oversize.2 - SIZEOF_CELL) = 1 ∧
      (1048569 + SIZEOF_CELL + (ALLOC_UNIT - 1)) / ALLOC_UNIT = 65537 ∧
      size ex_oversize.1 (ex_oversize.2 - SIZEOF_CELL) * ALLOC_UNIT - SIZEOF_CELL = 8 :=
  ⟨ex_init_reachable, eq_ok_of_isOk _ _ (by decide), by decide, by decide, by decide, by decide⟩

/-- C6: `gc_malloc` never returns null.  It returns the result of the first
single-shot attempt when that attempt yields an address (the state is the one
left by that attempt: no collection ran); otherwise it runs one collection
cycle and one more single-shot attempt, whose address it returns if there is
one, and it aborts when the second attempt yields null. -/
theorem gc_malloc_retries_once (fuel : Nat) (s : State) (bytes bot : Nat) :
    ((∃ s1 a, a ≠ 0 ∧ gc_malloc1 fuel s bytes = .ok (s1, a) ∧
        gc_malloc fuel s bytes bot = .ok (s1, a)) ∨
      (∃ s1 s2 s3 a, a ≠ 0 ∧ gc_malloc1 fuel s bytes = .ok (s1, 0) ∧
        gc_collect fuel s1 bot = .ok s2 ∧ gc_malloc1 fuel s2 bytes = .ok (s3, a) ∧
        gc_malloc fuel s bytes bot = .ok (s3, a)) ∨
      (∃ s1 s2 s3, gc_malloc1 fuel s bytes = .ok (s1, 0) ∧
        gc_collect fuel s1 bot = .ok s2 ∧ gc_malloc1 fuel s2 bytes = .ok (s3, 0) ∧
        gc_malloc fuel s bytes bot = .error Fault.aborted) ∨
      (∃ e, gc_malloc fuel s bytes bot = .error e ∧
        (gc_malloc1 fuel s bytes = .error e ∨
          (∃ s1, gc_malloc1 fuel s bytes = .ok (s1, 0) ∧ gc_collect fuel s1 bot = .error e) ∨
          (∃ s1 s2, gc_malloc1 fuel s bytes = .ok (s1, 0) ∧ gc_collect fuel s1 bot = .ok s2 ∧
            gc_malloc1 fuel s2 bytes = .error e)))) ∧
    (∀ s' a, gc_malloc fuel s bytes bot = .ok (s', a) → a ≠ 0) := by
  cases h1 : gc_malloc1 fuel s bytes with
  | error e =>
    have hm : gc_malloc fuel s bytes bot = .error e := by simp [gc_malloc, h1]
    refine ⟨Or.inr (Or.inr (Or.inr ⟨e, hm, Or.inl rfl⟩)), ?_⟩
    intro s' a h
    rw [hm] at h
    cases h
  | ok r1 =>
    obtain ⟨s1, a1⟩ := r1
    by_cases ha1 : a1 = 0
    · subst ha1
      cases h2 : gc_collect fuel s1 bot with
      | error e =>
        have hm : gc_malloc fuel s bytes bot = .error e := by simp [gc_malloc, h1, h2]
        refine ⟨Or.inr (Or.inr (Or.inr ⟨e, hm, Or.inr (Or.inl ⟨s1, rfl, h2⟩)⟩)), ?_⟩
        intro s' a h
        rw [hm] at h
        cases h
      | ok s2 =>
        cases h3 : gc_malloc1 fuel s2 bytes with
        | error e =>
          have hm : gc_malloc fuel s bytes bot = .error e := by simp [gc_malloc, h1, h2, h3]
          refine ⟨Or.inr (Or.inr (Or.inr ⟨e, hm, Or.inr (Or.inr ⟨s1, s2, rfl, h2, h3⟩)⟩)), ?_⟩
          intro s' a h
          rw [hm] at h
          cases h
        | ok r3 =>
          obtain ⟨s3, a3⟩ := r3
          by_cases ha3 : a3 = 0
          · subst ha3
            have hm : gc_malloc fuel s bytes bot = .error Fault.aborted := by
              simp [gc_malloc, h1, h2, h3]
            refine ⟨Or.inr (Or.inr (Or.inl ⟨s1, s2, s3, rfl, h2, h3, hm⟩)), ?_⟩
            intro s' a h
            rw [hm] at h
            cases h
          · have hm : gc_malloc fuel s bytes bot = .ok (s3, a3) := by
              simp [gc_malloc, h1, h2, h3, ha3]
            refine ⟨Or.inr (Or.inl ⟨s1, s2, s3, a3, ha3, rfl, h2, h3, hm⟩), ?_⟩
            intro s' a h
            rw [hm] at h
            cases h
            exact ha3
    · have hm : gc_malloc fuel s bytes bot = .ok (s1, a1) := by
        simp [gc_malloc, h1, ha1]
      refine ⟨Or.inl ⟨s1, a1, ha1, rfl, hm⟩, ?_⟩
      intro s' a h
      rw [hm] at h
      cases h
      exact ha1

/-- C1 (the code departs from the claim): after `gc_init` and six allocations of
9362 slots, the first attempt of a seventh such allocation takes the last free
block (offset 56173, 9363 slots), splits it, and is then rejected by the
`MAX_INDEX` guard because the remainder starts at offset 65535; the 9362 slots
taken are on neither list.  `gc_malloc` collects, retries and returns, and in the
state it leaves the size fields of the two lists add up to 56173, not to
`CELL_COUNT - 1 = 65535`. -/
theorem max_index_guard_leaks_block :
    (gc_malloc1 100 ex_six 149784 = .ok (ex_rejected.1, 0) ∧
      IsList ex_rejected.1 ex_rejected.1.free_list [65535] ∧
      IsList ex_rejected.1 ex_rejected.1.used_list [46811, 37449, 28087, 18725, 9363, 1] ∧
      sizes_sum ex_rejected.1 [65535] +
        sizes_sum ex_rejected.1 [46811, 37449, 28087, 18725, 9363, 1] = 56173) ∧
    (Reachable ex_leak.1 ∧
      IsList ex_leak.1 ex_leak.1.free_list [9363, 65535] ∧
      IsList ex_leak.1 ex_leak.1.used_list [1] ∧
      sizes_sum ex_leak.1 [9363, 65535] + sizes_sum ex_leak.1 [1] = 56173 ∧
      sizes_sum ex_leak.1 [9363, 65535] + sizes_sum ex_leak.1 [1] ≠ CELL_COUNT - 1) := by
  refine ⟨⟨?_, by decide, by decide, by decide⟩, ⟨?_, by decide, by decide, by decide, by decide⟩⟩
  · have h : gc_malloc1 100 ex_six 149784 = .ok ex_rejected := eq_ok_of_isOk _ _ (by decide)
    have h2 : ex_rejected.2 = 0 := by decide
    rw [h, ← h2]
  · have h : gc_malloc 100 ex_six 149784 ex_bot = .ok (ex_leak.1, ex_leak.2) :=
      eq_ok_of_isOk _ (ex_six, 0) (by decide)
    exact Reachable.malloc ex_six 100 149784 ex_bot ex_leak.1 ex_leak.2 ex_six_reachable
      (by decide) h

/-- C4 (the code departs from the claim): eight allocations that all succeed on
their first attempt use up the heap, so the free list is empty; the following
`gc_collect`, whose scanned stack words are all zero, does not restore the
initial free list but stops at `assert(0)` in `sweep`, because `insert_free`
returns `-1` on an empty free list. -/
theorem collect_aborts_when_heap_is_full :
    run_first_attempts 100 ex_bot
        [149784, 149784, 149784, 149784, 149784, 149784, 149768, 24] ex_init = .ok ex_full ∧
      Reachable ex_full ∧ ex_full.free_list = 0 ∧
      IsList ex_full ex_full.used_list [65534, 56173, 46811, 37449, 28087, 18725, 9363, 1] ∧
      ex_full.stack_top = ex_bot + 32 ∧
      read64 ex_full.mem (ex_bot + 8) = 0 ∧ read64 ex_full.mem (ex_bot + 16) = 0 ∧
      read64 ex_full.mem (ex_bot + 24) = 0 ∧
      gc_collect 100 ex_full ex_bot = .error Fault.assertFailed := by
  have h : run_first_attempts 100 ex_bot
      [149784, 149784, 149784, 149784, 149784, 149784, 149768, 24] ex_init = .ok ex_full :=
    eq_ok_of_isOk _ _ (by decide)
  exact ⟨h, run_first_attempts_reachable 100 ex_bot _ ex_init ex_full ex_init_reachable h,
    by decide, by decide, by decide, by decide, by decide, by decide,
    eq_error_of_faultOf _ _ (by decide)⟩

/-- C10 (the code departs from the claim): after `gc_init`, `gc_malloc(16)`,
`gc_collect()` and `gc_malloc(0)` the free list consists of the remainder block
at offset 2, created by a split inside the payload of the first allocation;
its `used` field holds the poison byte `0x7F`, not `0`. -/
theorem split_remainder_keeps_stale_used_byte :
    Reachable ex_stale ∧ IsList ex_stale ex_stale.free_list [2] ∧
      IsList ex_stale ex_stale.used_list [1] ∧
      used ex_stale (o2p ex_stale 2) = 127 ∧ used ex_stale (o2p ex_stale 1) = 1 :=
  ⟨run_calls_reachable 100 ex_bot _ ex_init ex_stale ex_init_reachable
      (eq_ok_of_isOk _ _ (by decide)),
    by decide, by decide, by decide, by decide⟩

/-- C5 (the code departs from the claim): the used list consists of the single
one-slot block at offset 1, whose payload word holds the address of that
payload (the client stored it there), and the stack word at `ex_bot + 8` holds
the same address.  Scanning that one stack word never terminates: whatever the
fuel, `mark_range` runs out of it, because every hit re-enters the payload of
the block without testing the mark it has just set. -/
theorem mark_range_diverges_on_cycle :
    IsList ex_cyclic ex_cyclic.used_list [1] ∧ bsize ex_cyclic 1 = 1 ∧
      ex_one.2 = o2p ex_cyclic 1 + SIZEOF_CELL ∧
      read64 ex_cyclic.mem (o2p ex_cyclic 1 + SIZEOF_CELL) = o2p ex_cyclic 1 + SIZEOF_CELL ∧
      read64 ex_cyclic.mem (ex_bot + 8) = o2p ex_cyclic 1 + SIZEOF_CELL ∧
      ∀ fuel, mark_range fuel ex_cyclic (ex_bot + 8) (ex_bot + 16) = .error Fault.outOfFuel := by
  refine ⟨by decide, by decide, by decide, by decide, by decide, ?_⟩
  intro fuel
  have hs : SelfLoop ex_cyclic := by decide
  exact mark_range_selfLoop fuel ex_cyclic _ _ hs (by omega) (by decide)

/-! ## The heap after a request of more than 65535 slots -/

/-- C2 (the code departs from the claim): `gc_init` followed by
`gc_malloc(1048569)` returns.  The request is served with the one-slot block at
offset 1, and the poison bytes of its `memset` cover every header behind that
block.  In the state that is left the free list starts at offset 2; block 2 has
the size 32639 and the next field 32639 (`0x7F7F`), and block 32639 has the size
32639 as well.  The extents `[2, 32641)` and `[32639, 65278)` of these two
blocks of the free list share the slots 32639 and 32640. -/
theorem oversize_request_makes_blocks_overlap :
    run_calls 100 ex_bot [Call.malloc 1048569] ex_init = .ok ex_over ∧ Reachable ex_over ∧
      IsList ex_over ex_over.used_list [1] ∧ bsize ex_over 1 = 1 ∧
      ex_over.free_list = 2 ∧ bsize ex_over 2 = 32639 ∧ bnext ex_over 2 = 32639 ∧
      bsize ex_over 32639 = 32639 ∧
      32639 < 2 + bsize ex_over 2 ∧ 2 < 32639 + bsize ex_over 32639 :=
  ⟨eq_ok_of_isOk _ _ (by decide), ex_over_reachable, by decide, by decide, by decide, by decide,
    by decide, by decide, by decide, by decide⟩

/-- C3: let `s` be a well-formed heap state (free list `fl`, used list `ul`) and
let the scanned stack range, from the local variable of `mark` at `bot` up to
`stack_top`, lie outside the heap region.  When `gc_collect` returns, the state
it leaves has a free list `fl2` and a used list `ul2` such that every block of
`ul` whose payload range contains one of the scanned stack words (the
pointer-sized words at `bot`, `bot + 8`, ..., the one at `bot` holding zero) is
on `ul2`, every block of `ul` whose payload range contains one of the
pointer-sized words of the payload of a block of `ul2` is on `ul2` as well, and
none of these blocks is on `fl2`; `ul2` holds blocks of `ul` only. -/
theorem gc_collect_keeps_reachable (fuel : Nat) (s : State) (fl ul : List Nat) (bot : Nat)
    (s' : State) (hwf : WF s fl ul) (hst : StackOutsideHeap s bot)
    (hrange : s.stack_top ≤ s.chunk_base ∨ s.chunk_base + CHUNK_SIZE ≤ bot)
    (h : gc_collect fuel s bot = .ok s') :
    ∃ fl2 ul2, IsList s' s'.free_list fl2 ∧ IsList s' s'.used_list ul2 ∧
      (∀ v ∈ ul2, v ∈ ul) ∧
      (∀ u ∈ ul, ∀ k : Nat, bot + 8 * k < s.stack_top →
        PointsInto s u (toIntptr (read64 (write64 s.mem bot 0) (bot + 8 * k))) →
          u ∈ ul2 ∧ u ∉ fl2) ∧
      (∀ v ∈ ul2, ∀ u ∈ ul, ∀ k, k < 2 * bsize s v - 1 →
        PointsInto s u (toIntptr (read64 s.mem (o2p s v + SIZEOF_CELL + 8 * k))) →
          u ∈ ul2 ∧ u ∉ fl2) := by
  obtain ⟨fl2, ul2, hwf2, hsub, hroot, hpay⟩ :=
    gc_collect_closure fuel s fl ul bot s' hwf hst hrange h
  have hnot : ∀ u ∈ ul2, u ∉ fl2 := by
    intro u hu hf
    have hd := hwf2.cross u hf u hu
    have hb := (hwf2.bounds u (List.mem_append_right _ hu)).1
    unfold Disjoint at hd
    omega
  refine ⟨fl2, ul2, hwf2.free, hwf2.used, hsub, ?_, ?_⟩
  · intro u hu k hk hp
    have := hroot u hu k hk hp
    exact ⟨this, hnot u this⟩
  · intro v hv u hu k hk hp
    have hv0 := wf_ne_zero s fl ul hwf v (List.mem_append_right _ (hsub v hv))
    rw [o2p_of_ne_zero s v hv0] at hp
    have := hpay v hv u hu k hk hp
    exact ⟨this, hnot u this⟩

theorem gc_collect_keeps_reachable_witness :
    WF ex_linked [3] [2, 1] ∧ StackOutsideHeap ex_linked ex_bot ∧
      ex_linked.chunk_base + CHUNK_SIZE ≤ ex_bot ∧
      ∃ fl2 ul2,
        IsList (okOr (gc_collect 100 ex_linked ex_bot) ex_linked)
          (okOr (gc_collect 100 ex_linked ex_bot) ex_linked).free_list fl2 ∧
        IsList (okOr (gc_collect 100 ex_linked ex_bot) ex_linked)
          (okOr (gc_collect 100 ex_linked ex_bot) ex_linked).used_list ul2 ∧
        (∀ v ∈ ul2, v ∈ [2, 1]) ∧
        (∀ u ∈ [2, 1], ∀ k : Nat, ex_bot + 8 * k < ex_linked.stack_top →
          PointsInto ex_linked u
            (toIntptr (read64 (write64 ex_linked.mem ex_bot 0) (ex_bot + 8 * k))) →
            u ∈ ul2 ∧ u ∉ fl2) ∧
        (∀ v ∈ ul2, ∀ u ∈ [2, 1], ∀ k, k < 2 * bsize ex_linked v - 1 →
          PointsInto ex_linked u
            (toIntptr (read64 ex_linked.mem (o2p ex_linked v + SIZEOF_CELL + 8 * k))) →
            u ∈ ul2 ∧ u ∉ fl2) :=
  ⟨ex_linked_wf, by decide, by decide,
    gc_collect_keeps_reachable 100 ex_linked [3] [2, 1] ex_bot _ ex_linked_wf (by decide)
      (Or.inr (by decide)) (eq_ok_of_isOk _ _ (by decide))⟩

/-- C8 (the code departs from the claim): in the state that `gc_init` and
`gc_malloc(1048569)` leave, the free list starts at offset 2, the next field of
block 2 is 32639, and the next field of the free block at offset 32639 is 32639
again, its own offset: it is neither 0 nor greater than the offset of the
block, and following the free list never ends. -/
theorem oversize_request_breaks_free_list_order :
    Reachable ex_over ∧ ex_over.free_list = 2 ∧ bnext ex_over 2 = 32639 ∧
      bnext ex_over 32639 = 32639 :=
  ⟨ex_over_reachable, by decide, by decide, by decide⟩

/-- C11 (the code departs from the claim): right after `gc_init` the free list is
the single block at offset 1 with 65535 slots, and its `conf` field is `0`, not
`(7 * 65535) mod 2^16 = 65529`: `gc_init` stores the size and next fields only.
After one more `gc_malloc1(16)` the handed-out block has `conf = 14 = 7 * 2`, but
the remainder of the split (offset 3, 65533 slots) again has `conf = 0`, not
`(7 * 65533) mod 2^16 = 65515`. -/
theorem gc_init_leaves_conf_unset :
    (Reachable ex_init ∧ IsList ex_init ex_init.free_list [1] ∧
      IsList ex_init ex_init.used_list [] ∧ bsize ex_init 1 = 65535 ∧
      conf ex_init (o2p ex_init 1) = 0 ∧ (7 * bsize ex_init 1) % 65536 = 65529) ∧
    (IsList ex_alloc16.1 ex_alloc16.1.free_list [3] ∧
      IsList ex_alloc16.1 ex_alloc16.1.used_list [1] ∧
      bsize ex_alloc16.1 1 = 2 ∧ conf ex_alloc16.1 (o2p ex_alloc16.1 1) = 14 ∧
      bsize ex_alloc16.1 3 = 65533 ∧ conf ex_alloc16.1 (o2p ex_alloc16.1 3) = 0) :=
  ⟨⟨ex_init_reachable, by decide, by decide, by decide, by decide, by decide⟩,
    ⟨by decide, by decide, by decide, by decide, by decide, by decide⟩⟩

/-- C12 (as amended): for a main-frame address `a` that is non-negative as an
`intptr_t` and lies below the last 4 KiB page of that range (`a + 4096 < 2^63`)
`gc_init` returns, once `aligned_alloc` has delivered a region, and it sets
`stack_top` to a multiple of 4096 with `a < stack_top <= a + 4096`: the next
4 KiB boundary strictly above `a`, also when `a` is page-aligned. -/
theorem gc_init_stack_top (m : Mem) (main_frame base : Nat) (hb : base ≠ 0)
    (ha : main_frame + 4096 < 9223372036854775808) :
    ∃ s, gc_init (boot m) main_frame base = .ok s ∧ toIntptr main_frame = main_frame ∧
      s.stack_top % 4096 = 0 ∧ main_frame < s.stack_top ∧ s.stack_top ≤ main_frame + 4096 := by
  refine ⟨_, by unfold gc_init; simp only [if_neg hb]; rfl, toIntptr_small _ (by omega), ?_⟩
  show toIntptr ((Int.tdiv (toIntptr main_frame) 4096 + 1) * 4096 %
      18446744073709551616).toNat % 4096 = 0 ∧
    (main_frame : Int) < toIntptr ((Int.tdiv (toIntptr main_frame) 4096 + 1) * 4096 %
      18446744073709551616).toNat ∧
    toIntptr ((Int.tdiv (toIntptr main_frame) 4096 + 1) * 4096 %
      18446744073709551616).toNat ≤ (main_frame : Int) + 4096
  rw [stack_top_exact main_frame ha]
  omega

theorem gc_init_stack_top_witness :
    ex_base ≠ 0 ∧ 8192 + 4096 < 9223372036854775808 ∧
      ∃ s, gc_init (boot ex_mem) 8192 ex_base = .ok s ∧ toIntptr 8192 = (8192 : Nat) ∧
        s.stack_top % 4096 = 0 ∧ (8192 : Nat) < s.stack_top ∧
        s.stack_top ≤ (8192 : Nat) + 4096 :=
  ⟨by decide, by decide, gc_init_stack_top ex_mem 8192 ex_base (by decide) (by decide)⟩

/-- C12 (counterexample): the main-frame address `2^63 - 1` is non-negative as an
`intptr_t`, and `gc_init` returns for it, but the product `2^51 * 4096` does not
fit an `intptr_t`: `stack_top` becomes `-2^63`, which is below the address and
not above it. -/
theorem stack_top_wraps_in_last_page :
    toIntptr 9223372036854775807 = 9223372036854775807 ∧
      ∃ s, gc_init (boot ex_mem) 9223372036854775807 ex_base = .ok s ∧
        s.stack_top = -9223372036854775808 ∧ s.stack_top < 9223372036854775807 :=
  ⟨by decide, _, eq_ok_of_isOk _ (boot ex_mem) (by decide), by decide, by decide⟩

/-- C14 (the code departs from the claim): in the reachable state `ex_gap` the
free list is the single one-slot block at offset 1 and every used block lies
above it.  Inserting the used block at offset 56175 (not adjacent to the free
block) or the used block at offset 2 (adjacent to it) does not return `0`: the
walk of `insert_free` steps past the last free cell and reads the next field of
the null cell.  A collection in `ex_gap`, which frees the block at 56175 first,
stops the same way. -/
theorem insert_free_past_tail_derefs_null :
    Reachable ex_gap ∧ IsList ex_gap ex_gap.free_list [1] ∧ bsize ex_gap 1 = 1 ∧
      IsList ex_gap ex_gap.used_list [56175, 46813, 37451, 28089, 18727, 9365, 3, 2] ∧
      bsize ex_gap 56175 = 9361 ∧ bsize ex_gap 2 = 1 ∧
      insert_free 100 ex_gap 56175 (o2p ex_gap 56175) = .error Fault.nullDeref ∧
      insert_free 100 ex_gap 2 (o2p ex_gap 2) = .error Fault.nullDeref ∧
      gc_collect 100 ex_gap ex_bot = .error Fault.nullDeref :=
  ⟨ex_gap_reachable, by decide, by decide, by decide, by decide, by decide,
    eq_error_of_faultOf _ _ (by decide), eq_error_of_faultOf _ _ (by decide),
    eq_error_of_faultOf _ _ (by decide)⟩

/-- C17: `find_ptr_gc_used_list(w, &out)` returns on every used list (given fuel
beyond the length of the list).  It returns `TRUE` exactly when some block `b` of
the used list has `addr(b) + sizeof(cell) <= w < addr(b) + size(b) * ALLOC_UNIT`
(`PointsInto`, compared as `intptr_t`); on `TRUE` the out-parameter is the offset
of the first such block in list order, on `FALSE` it keeps its value `co`.  The
header address of a block and the first byte after its payload do not point
into the block, while the first payload byte does when the block has a payload
at all. -/
theorem find_ptr_gc_used_list_first_hit (fuel : Nat) (s : State) (ul : List Nat) (w : Int)
    (co : Nat) (hl : IsList s s.used_list ul) (hu16 : s.used_list < 65536)
    (hfuel : ul.length < fuel) :
    ∃ r, find_ptr_gc_used_list fuel s w co = .ok r ∧
      (r.1 = TRUE ∨ r.1 = FALSE) ∧
      (r.1 = TRUE ↔ ∃ b ∈ ul, PointsInto s b w) ∧
      (r.1 = TRUE → ∃ l1 l2, ul = l1 ++ r.2 :: l2 ∧ PointsInto s r.2 w ∧
        ∀ o ∈ l1, ¬ PointsInto s o w) ∧
      (r.1 = FALSE → r.2 = co) ∧
      (∀ b ∈ ul, ¬ PointsInto s b ((o2p s b : Nat) : Int) ∧
        (1 ≤ bsize s b → PointsInto s b ((o2p s b + SIZEOF_CELL : Nat) : Int)) ∧
        ¬ PointsInto s b ((o2p s b + ALLOC_UNIT * bsize s b : Nat) : Int)) := by
  obtain ⟨r, hr⟩ := find_ptr_loop_total s w co ul fuel _ hl hfuel
  have hlt := isList_lt s ul _ hl hu16
  refine ⟨r, hr, ?_⟩
  have hspec := find_ptr_loop_spec fuel s w co ul _ r hl hlt hr
  refine ⟨?_, ?_, ?_, ?_, ?_⟩
  · rcases hspec with ⟨h1, _⟩ | ⟨h1, _⟩
    · exact Or.inl h1
    · exact Or.inr h1
  · constructor
    · intro h1
      rcases hspec with ⟨_, l1, l2, h2, h3, _⟩ | ⟨h2, _⟩
      · exact ⟨r.2, by rw [h2]; simp, h3⟩
      · rw [h2] at h1; cases h1
    · rintro ⟨b, hb, hp⟩
      rcases hspec with ⟨h1, _⟩ | ⟨_, _, h3⟩
      · exact h1
      · exact absurd hp (h3 b hb)
  · intro h1
    rcases hspec with ⟨_, h2⟩ | ⟨h2, _⟩
    · exact h2
    · rw [h2] at h1; cases h1
  · intro h1
    rcases hspec with ⟨h2, _⟩ | ⟨_, h2, _⟩
    · rw [h2] at h1; cases h1
    · exact h2
  · intro b _
    unfold PointsInto
    simp only [SIZEOF_CELL, ALLOC_UNIT]
    refine ⟨by omega, ?_, by omega⟩
    intro h
    omega

theorem find_ptr_gc_used_list_first_hit_witness :
    IsList ex_linked ex_linked.used_list [2, 1] ∧ ex_linked.used_list < 65536 ∧
      [2, 1].length < 10 ∧
      ∃ r, find_ptr_gc_used_list 10 ex_linked ((ex_base + 24 : Nat) : Int) 7 = .ok r ∧
        (r.1 = TRUE ∨ r.1 = FALSE) ∧
        (r.1 = TRUE ↔ ∃ b ∈ [2, 1], PointsInto ex_linked b ((ex_base + 24 : Nat) : Int)) ∧
        (r.1 = TRUE → ∃ l1 l2, [2, 1] = l1 ++ r.2 :: l2 ∧
          PointsInto ex_linked r.2 ((ex_base + 24 : Nat) : Int) ∧
          ∀ o ∈ l1, ¬ PointsInto ex_linked o ((ex_base + 24 : Nat) : Int)) ∧
        (r.1 = FALSE → r.2 = 7) ∧
        (∀ b ∈ [2, 1], ¬ PointsInto ex_linked b ((o2p ex_linked b : Nat) : Int) ∧
          (1 ≤ bsize ex_linked b →
            PointsInto ex_linked b ((o2p ex_linked b + SIZEOF_CELL : Nat) : Int)) ∧
          ¬ PointsInto ex_linked b
            ((o2p ex_linked b + ALLOC_UNIT * bsize ex_linked b : Nat) : Int)) :=
  ⟨by decide, by decide, by decide,
    find_ptr_gc_used_list_first_hit 10 ex_linked [2, 1] _ 7 (by decide) (by decide) (by decide)⟩

/-- C18 (the code departs from the claim): in the state right after `gc_init` a
request of 149800 bytes asks for 9363 slots; the free block at offset 1 fits
(65535 slots), the remainder of the split starts at offset 9364, so the
`MAX_INDEX` guard passes.  Line 290 stores `7 * 9363 = 65541` into the 16-bit
`conf` field, which keeps `65541 mod 2^16 = 5`; the assertion
`dd->conf == 7*dd->size` then compares `5` with `65541` and fails. -/
theorem conf_assertion_fails_above_9362_slots :
    units_of 149800 = 9363 ∧ IsList ex_init ex_init.free_list [1] ∧
      9363 ≤ bsize ex_init 1 ∧
      okAnd (take_relink (take_shrink ex_init 9363 (o2p ex_init 1)) 9363 Link.free_head
          (o2p ex_init 1) ((bsize ex_init 1 - 9363) % 65536))
        (fun t => decide (Link.free_head.get t = 9364 ∧ Link.free_head.get t < MAX_INDEX ∧
          size t (o2p ex_init 1) = 9363 ∧ conf t (o2p ex_init 1) = 5)) = true ∧
      7 * 9363 = 65541 ∧
      gc_malloc1 100 ex_init 149800 = .error Fault.assertFailed ∧
      gc_malloc 100 ex_init 149800 ex_bot = .error Fault.assertFailed :=
  ⟨by decide, by decide, by decide, by decide, by decide,
    eq_error_of_faultOf _ _ (by decide), eq_error_of_faultOf _ _ (by decide)⟩

/-- C19 (the code departs from the claim): two reachable states in which an
`insert_free` call of `sweep` does not return `0`.  In `ex_full` (heap used up,
free list empty) the call for the first swept block returns `-1` (`65535` as
`u16`) and `sweep` stops at `assert(0)`.  In `ex_gap` (free list `[1]`, every
used block above it) the call for the first swept block, offset 56175,
dereferences the null cell, and so do `sweep` and `gc_collect`. -/
theorem sweep_insert_free_fails :
    (Reachable ex_full ∧ ex_full_marked.free_list = 0 ∧
      IsList ex_full_marked ex_full_marked.used_list
        [65534, 56173, 46811, 37449, 28087, 18725, 9363, 1] ∧
      mark_of ex_full_marked (o2p ex_full_marked 65534) = GC_NO_MARK ∧
      okAnd (insert_free 100 (set_used ex_full_marked (o2p ex_full_marked 65534) 0)
          (p2o ex_full_marked (o2p ex_full_marked 65534)) (o2p ex_full_marked 65534))
        (fun r => decide (r.2 = 65535)) = true ∧
      sweep 100 ex_full_marked = .error Fault.assertFailed ∧
      gc_collect 100 ex_full ex_bot = .error Fault.assertFailed) ∧
    (Reachable ex_gap ∧ IsList ex_gap ex_gap.free_list [1] ∧
      IsList ex_gap ex_gap.used_list [56175, 46813, 37451, 28089, 18727, 9365, 3, 2] ∧
      mark_of ex_gap (o2p ex_gap 56175) = GC_NO_MARK ∧
      insert_free 100 (set_used ex_gap (o2p ex_gap 56175) 0)
          (p2o ex_gap (o2p ex_gap 56175)) (o2p ex_gap 56175) = .error Fault.nullDeref ∧
      sweep 100 ex_gap = .error Fault.nullDeref ∧
      gc_collect 100 ex_gap ex_bot = .error Fault.nullDeref) :=
  ⟨⟨ex_full_reachable, by decide, by decide, by decide, by decide,
      eq_error_of_faultOf _ _ (by decide), eq_error_of_faultOf _ _ (by decide)⟩,
    ⟨ex_gap_reachable, by decide, by decide, by decide,
      eq_error_of_faultOf _ _ (by decide), eq_error_of_faultOf _ _ (by decide),
      eq_error_of_faultOf _ _ (by decide)⟩⟩

/-- C20: `o2p(0)` is null and `p2o(null)` is `0`; for every 16-bit offset
`k >= 1`, `o2p(k) = chunk_base + k * ALLOC_UNIT`, the product `k * ALLOC_UNIT`
stays below `CHUNK_SIZE` (no overflow), and `p2o(o2p(k)) = k`. -/
theorem offset_codec_round_trip (s : State) :
    o2p s 0 = 0 ∧ p2o s 0 = 0 ∧
      ∀ k, 1 ≤ k → k < 65536 →
        o2p s k = s.chunk_base + k * ALLOC_UNIT ∧ k * ALLOC_UNIT < CHUNK_SIZE ∧
          p2o s (o2p s k) = k := by
  refine ⟨rfl, rfl, ?_⟩
  intro k h1 h2
  have hk : k ≠ 0 := by omega
  rw [o2p_of_ne_zero s k hk]
  refine ⟨rfl, ?_, p2o_cell s k hk h2⟩
  simp only [ALLOC_UNIT, CHUNK_SIZE]
  omega

theorem offset_codec_round_trip_witness :
    o2p ex_init 0 = 0 ∧ p2o ex_init 0 = 0 ∧ 1 ≤ 65535 ∧ 65535 < 65536 ∧
      o2p ex_init 65535 = ex_init.chunk_base + 65535 * ALLOC_UNIT ∧
      65535 * ALLOC_UNIT < CHUNK_SIZE ∧ p2o ex_init (o2p ex_init 65535) = 65535 :=
  ⟨(offset_codec_round_trip ex_init).1, (offset_codec_round_trip ex_init).2.1, by decide,
    by decide, (offset_codec_round_trip ex_init).2.2 65535 (by decide) (by decide)⟩

/-- C13 (amended): on a well-formed heap, for a request of at most 9362 slots
(`units = ceil((bytes + sizeof(cell)) / ALLOC_UNIT)`) and fuel beyond the length
of the free list:
* if no free block has `size >= units`, `gc_malloc1` returns null and leaves the
  memory and both list heads as they were;
* if `c` is the first free block in list order with `size >= units` and the link
  written in its place (`c + units` on a split, the next field of `c` on an exact
  fit) is below `MAX_INDEX`, then `gc_malloc1` returns the payload address of `c`;
  the free list is the old one with `c` replaced by the remainder `c + units`
  (size `size(c) - units`, same next) when `c` was larger, and with `c` removed
  when it fitted exactly; every other block keeps its size; `c` heads the used
  list with `size = units`, `used = 1`, `mark = GC_NO_MARK`;
* if that link is `MAX_INDEX` or more, `gc_malloc1` returns null. -/
theorem gc_malloc1_first_fit (fuel : Nat) (s : State) (fl ul : List Nat) (bytes : Nat)
    (hwf : WF s fl ul) (hreq : bytes + SIZEOF_CELL ≤ ALLOC_UNIT * 9362)
    (hfuel : fl.length < fuel) :
    ((∀ f ∈ fl, bsize s f < units_of bytes) →
      ∃ s', gc_malloc1 fuel s bytes = .ok (s', 0) ∧ s'.mem = s.mem ∧
        s'.free_list = s.free_list ∧ s'.used_list = s.used_list) ∧
    (∀ pre c post, fl = pre ++ c :: post → (∀ f ∈ pre, bsize s f < units_of bytes) →
      units_of bytes ≤ bsize s c →
      (if units_of bytes = bsize s c then bnext s c else c + units_of bytes) < MAX_INDEX →
      ∃ s', gc_malloc1 fuel s bytes = .ok (s', o2p s c + SIZEOF_CELL) ∧
        WF s' (pre ++ (if units_of bytes = bsize s c then [] else [c + units_of bytes]) ++ post)
          (c :: ul) ∧
        bsize s' c = units_of bytes ∧ used s' (o2p s' c) = 1 ∧
        mark_of s' (o2p s' c) = GC_NO_MARK ∧
        (units_of bytes < bsize s c →
          bsize s' (c + units_of bytes) = bsize s c - units_of bytes ∧
            bnext s' (c + units_of bytes) = bnext s c) ∧
        (∀ o ∈ pre ++ post ++ ul, bsize s' o = bsize s o)) ∧
    (∀ pre c post, fl = pre ++ c :: post → (∀ f ∈ pre, bsize s f < units_of bytes) →
      units_of bytes ≤ bsize s c →
      MAX_INDEX ≤ (if units_of bytes = bsize s c then bnext s c else c + units_of bytes) →
      ∃ s', gc_malloc1 fuel s bytes = .ok (s', 0)) := by
  have hu : units_of bytes = (bytes + 8 + 15) / 16 :=
    units_of_small bytes (by simp only [SIZEOF_CELL, ALLOC_UNIT] at hreq; omega)
  simp only [SIZEOF_CELL, ALLOC_UNIT] at hreq
  have hwf1 : WF { s with
      bytes_allocated := (s.bytes_allocated + units_of bytes * ALLOC_UNIT) % 18446744073709551616,
      blocks_allocated := (s.blocks_allocated + 1) % 18446744073709551616 } fl ul :=
    wf_congr s _ fl ul hwf rfl rfl ⟨rfl, fun _ _ => ⟨rfl, rfl⟩⟩
  refine ⟨?_, ?_, ?_⟩
  · intro hsk
    refine ⟨{ s with
      bytes_allocated := (s.bytes_allocated + units_of bytes * ALLOC_UNIT) % 18446744073709551616,
      blocks_allocated := (s.blocks_allocated + 1) % 18446744073709551616 }, ?_, rfl, rfl, rfl⟩
    unfold gc_malloc1
    simp only []
    exact gc_malloc1_loop_no_fit _ bytes (units_of bytes) fl ul fuel hwf1 hsk hfuel
  · intro pre c post hfl hsk hfit hguard
    subst hfl
    obtain ⟨s', h1, h2, h3, h4, h5, h6, _, h8, h9⟩ :=
      gc_malloc1_take_spec _ pre post ul c (units_of bytes) bytes hwf1 (by omega) hfit
        (by omega) hguard
    have hb : s'.chunk_base = s.chunk_base := h3
    have ho : o2p s' c = o2p s c := o2p_congr s s' c hb
    refine ⟨s', ?_, h2, h4, ?_, ?_, h8, h9⟩
    · unfold gc_malloc1
      simp only []
      rw [gc_malloc1_loop_first_fit _ bytes (units_of bytes) pre post ul c fuel hwf1 hsk hfit
        (by simp at hfuel; omega)]
      exact h1
    · rw [ho]; exact h5
    · rw [ho]; exact h6
  · intro pre c post hfl hsk hfit hguard
    subst hfl
    obtain ⟨s', h1⟩ := gc_malloc1_take_rejected _ pre post ul c (units_of bytes) bytes hwf1
      (by omega) hfit hguard
    refine ⟨s', ?_⟩
    unfold gc_malloc1
    simp only []
    rw [gc_malloc1_loop_first_fit _ bytes (units_of bytes) pre post ul c fuel hwf1 hsk hfit
      (by simp at hfuel; omega)]
    exact h1

theorem gc_malloc1_first_fit_witness :
    WF ex_init [1] [] ∧ 16 + SIZEOF_CELL ≤ ALLOC_UNIT * 9362 ∧ [1].length < 10 ∧
      [1] = [] ++ 1 :: [] ∧ units_of 16 ≤ bsize ex_init 1 ∧
      (if units_of 16 = bsize ex_init 1 then bnext ex_init 1 else 1 + units_of 16) < MAX_INDEX ∧
      ∃ s', gc_malloc1 10 ex_init 16 = .ok (s', o2p ex_init 1 + SIZEOF_CELL) ∧
        WF s' ([] ++ (if units_of 16 = bsize ex_init 1 then [] else [1 + units_of 16]) ++ [])
          (1 :: []) ∧
        bsize s' 1 = units_of 16 ∧ used s' (o2p s' 1) = 1 ∧
        mark_of s' (o2p s' 1) = GC_NO_MARK ∧
        (units_of 16 < bsize ex_init 1 →
          bsize s' (1 + units_of 16) = bsize ex_init 1 - units_of 16 ∧
            bnext s' (1 + units_of 16) = bnext ex_init 1) ∧
        (∀ o ∈ [] ++ [] ++ [], bsize s' o = bsize ex_init o) :=
  ⟨gc_init_wf ex_mem ex_frame ex_base ex_init (eq_ok_of_isOk _ _ (by decide)), by decide,
    by decide, rfl, by decide, by decide,
    (gc_malloc1_first_fit 10 ex_init [1] [] 16
      (gc_init_wf ex_mem ex_frame ex_base ex_init (eq_ok_of_isOk _ _ (by decide)))
      (by decide) (by decide)).2.1 [] 1 [] rfl (by simp) (by decide) (by decide)⟩

/-- C13 (counterexample): in `ex_six` the free list is the single block at offset
56173 with 9363 slots and the request of 149784 bytes asks for 9362 slots, so
the block fits and is larger than the request.  The claim has the allocator
take it and push it on the used list; the code returns null (the remainder would
start at offset 65535, which the `MAX_INDEX` guard rejects), the used list is
as before, and the free list has changed all the same.  And in the initial
state a request of 9363 slots, which the first free block fits as well, does
not return at all: it stops at the assertion on `conf`. -/
theorem first_fit_block_not_taken :
    (IsList ex_six ex_six.free_list [56173] ∧ units_of 149784 = 9362 ∧
      bsize ex_six 56173 = 9363 ∧
      IsList ex_six ex_six.used_list [46811, 37449, 28087, 18725, 9363, 1] ∧
      okAnd (gc_malloc1 100 ex_six 149784) (fun r => decide (r.2 = 0 ∧
        IsList r.1 r.1.used_list [46811, 37449, 28087, 18725, 9363, 1] ∧
        IsList r.1 r.1.free_list [65535])) = true) ∧
    (IsList ex_init ex_init.free_list [1] ∧ units_of 149800 = 9363 ∧
      bsize ex_init 1 = 65535 ∧
      faultOf (gc_malloc1 100 ex_init 149800) = some Fault.assertFailed) := by
  refine ⟨⟨by decide, by decide, by decide, by decide, by decide⟩,
    ⟨by decide, by decide, by decide, by decide⟩⟩

/-- C15: let the free list `fl` of `s` be sorted and fully coalesced (`FreeOK`:
every free block ends more than zero slots before the next one starts) and let
`I` be a block of at least one slot inside the region that overlaps no free
block and has some free block at an offset `>= offset(I)`.  Then, with fuel
beyond the length of the free list, `insert_free(offset(I), I)` returns `0`; the
free list `fl2` it leaves is again sorted and fully coalesced, it is the list
that the table of the spec produces (`spec_insert`: head, merge both, merge
into the predecessor, merge the successor, splice), and it covers exactly the
slots of `fl` together with the slots of `I`.  `bytes_freed` grows by
`I.size * ALLOC_UNIT` (the size before merging) and `blocks_freed` by one, both
as `size_t` (modulo `2^64`). -/
theorem insert_free_follows_table (fuel : Nat) (s : State) (fl : List Nat) (i : Nat)
    (hok : FreeOK s fl) (hi0 : i ≠ 0) (hi1 : 1 ≤ bsize s i) (hilt : i + bsize s i ≤ 65536)
    (hdisj : ∀ f ∈ fl, Disjoint s f i) (hC : ∃ f ∈ fl, i ≤ f) (hfuel : fl.length < fuel) :
    ∃ s' fl2, insert_free fuel s i (o2p s i) = .ok (s', 0) ∧ FreeOK s' fl2 ∧
      blocks s' fl2 = spec_insert (i, bsize s i) (blocks s fl) ∧
      (∀ x, Covers (blocks s' fl2) x ↔ Covers (blocks s fl) x ∨ (i ≤ x ∧ x < i + bsize s i)) ∧
      s'.bytes_freed = (s.bytes_freed + bsize s i * ALLOC_UNIT) % 18446744073709551616 ∧
      s'.blocks_freed = (s.blocks_freed + 1) % 18446744073709551616 := by
  obtain ⟨pre, c, post, hfl, hpre, hic⟩ := list_split_first i fl hC
  subst hfl
  obtain ⟨s', hs'⟩ := insert_free_total fuel s pre post c i hok.1 hi0 (by omega) hpre hic
    (by simp at hfuel; omega)
  obtain ⟨fl2, h1, _, _, _, _, _, _, h8, _, _, h11, h12⟩ :=
    insert_free_spec fuel s _ [] i s' 0 hok hi0 hi1 hilt hdisj (by intro u hu; cases hu) hs' rfl
  refine ⟨s', fl2, hs', h1, h8, ?_, ?_, h12⟩
  · intro x
    rw [h8, covers_spec_insert]
  · rw [h11, Nat.mul_comm]

theorem insert_free_follows_table_witness :
    FreeOK ex_hole [1, 3] ∧ 2 ≠ 0 ∧ 1 ≤ bsize ex_hole 2 ∧ 2 + bsize ex_hole 2 ≤ 65536 ∧
      (∀ f ∈ [1, 3], Disjoint ex_hole f 2) ∧ (∃ f ∈ [1, 3], 2 ≤ f) ∧ [1, 3].length < 10 ∧
      ∃ s' fl2, insert_free 10 ex_hole 2 (o2p ex_hole 2) = .ok (s', 0) ∧ FreeOK s' fl2 ∧
        blocks s' fl2 = spec_insert (2, bsize ex_hole 2) (blocks ex_hole [1, 3]) ∧
        (∀ x, Covers (blocks s' fl2) x ↔
          Covers (blocks ex_hole [1, 3]) x ∨ (2 ≤ x ∧ x < 2 + bsize ex_hole 2)) ∧
        s'.bytes_freed
          = (ex_hole.bytes_freed + bsize ex_hole 2 * ALLOC_UNIT) % 18446744073709551616 ∧
        s'.blocks_freed = (ex_hole.blocks_freed + 1) % 18446744073709551616 :=
  ⟨⟨by decide, by decide, by decide⟩, by decide, by decide, by decide, by decide,
    ⟨3, by decide, by decide⟩, by decide,
    insert_free_follows_table 10 ex_hole [1, 3] 2 ⟨by decide, by decide, by decide⟩
      (by decide) (by decide) (by decide) (by decide) ⟨3, by decide, by decide⟩ (by decide)⟩

/-- C16: let `s` be a well-formed heap with used list `ul`, and let the fuel
exceed the lengths of the two lists (`fl.length + 2 * ul.length + 2`).  Then
`sweep` does not run out of fuel: it returns, or it stops in a free-list
insertion that failed.  When it returns, the used list is the sublist of the
blocks of `ul` that carried a mark, in their original order; each of them has
its `size`, `conf`, `used` and `mark` fields unchanged (marks are not cleared);
every block of `ul` that was unmarked is off the used list, has `used = 0`, and
each of its slots belongs to a block of the free list `fl2`.  The free list
covers exactly the slots it covered before and the slots of the unmarked
blocks. -/
theorem sweep_keeps_exactly_the_marked (fuel : Nat) (s : State) (fl ul : List Nat)
    (hwf : WF s fl ul) (hfuel : fl.length + 2 * ul.length + 2 ≤ fuel) :
    sweep fuel s ≠ .error Fault.outOfFuel ∧
    ∀ s', sweep fuel s = .ok s' →
      ∃ fl2, IsList s' s'.free_list fl2 ∧
        IsList s' s'.used_list (ul.filter (fun u => decide (Marked s u))) ∧
        (∀ u ∈ ul, Marked s u →
          bsize s' u = bsize s u ∧ conf s' (o2p s' u) = conf s (o2p s u) ∧
            used s' (o2p s' u) = used s (o2p s u) ∧
            mark_of s' (o2p s' u) = mark_of s (o2p s u)) ∧
        (∀ u ∈ ul, ¬ Marked s u →
          u ∉ ul.filter (fun u => decide (Marked s u)) ∧ used s' (o2p s' u) = 0 ∧
            ∀ x, u ≤ x → x < u + bsize s u → Covers (blocks s' fl2) x) ∧
        (∀ x, Covers (blocks s' fl2) x ↔
          Covers (blocks s fl) x ∨ ∃ u ∈ ul, ¬ Marked s u ∧ u ≤ x ∧ x < u + bsize s u) := by
  refine ⟨sweep_fuel fuel s fl ul hwf hfuel, ?_⟩
  intro s' h
  obtain ⟨fl2, h1, h2, _, h4, h5, h6, h7, h8, h9⟩ := sweep_spec fuel s fl ul s' hwf h
  have h0 := wf_ne_zero s fl ul hwf
  refine ⟨fl2, h1.free, h1.used, ?_, ?_, h9⟩
  · intro u hu hm
    have hu0 := h0 u (List.mem_append_right _ hu)
    rw [o2p_of_ne_zero s' u hu0, o2p_of_ne_zero s u hu0, h2]
    exact ⟨h5 u (List.mem_filter.2 ⟨hu, decide_eq_true hm⟩), h6 u,
      h8 u (fun hx => hx.2 hm), h4 u⟩
  · intro u hu hm
    have hu0 := h0 u (List.mem_append_right _ hu)
    rw [o2p_of_ne_zero s' u hu0, h2]
    refine ⟨?_, h7 u hu hm, ?_⟩
    · intro hx
      exact hm (of_decide_eq_true (List.mem_filter.1 hx).2)
    · intro x hx1 hx2
      exact (h9 x).2 (Or.inr ⟨u, hu, hm, hx1, hx2⟩)

theorem sweep_keeps_exactly_the_marked_witness :
    WF ex_two_marked [3] [2, 1] ∧ [3].length + 2 * [2, 1].length + 2 ≤ 100 ∧
      sweep 100 ex_two_marked ≠ .error Fault.outOfFuel ∧
      ∃ fl2, IsList (okOr (sweep 100 ex_two_marked) ex_two_marked)
          (okOr (sweep 100 ex_two_marked) ex_two_marked).free_list fl2 ∧
        IsList (okOr (sweep 100 ex_two_marked) ex_two_marked)
          (okOr (sweep 100 ex_two_marked) ex_two_marked).used_list
          ([2, 1].filter (fun u => decide (Marked ex_two_marked u))) ∧
        (∀ u ∈ [2, 1], Marked ex_two_marked u →
          bsize (okOr (sweep 100 ex_two_marked) ex_two_marked) u = bsize ex_two_marked u ∧
            conf (okOr (sweep 100 ex_two_marked) ex_two_marked)
                (o2p (okOr (sweep 100 ex_two_marked) ex_two_marked) u)
              = conf ex_two_marked (o2p ex_two_marked u) ∧
            used (okOr (sweep 100 ex_two_marked) ex_two_marked)
                (o2p (okOr (sweep 100 ex_two_marked) ex_two_marked) u)
              = used ex_two_marked (o2p ex_two_marked u) ∧
            mark_of (okOr (sweep 100 ex_two_marked) ex_two_marked)
                (o2p (okOr (sweep 100 ex_two_marked) ex_two_marked) u)
              = mark_of ex_two_marked (o2p ex_two_marked u)) ∧
        (∀ u ∈ [2, 1], ¬ Marked ex_two_marked u →
          u ∉ [2, 1].filter (fun u => decide (Marked ex_two_marked u)) ∧
            used (okOr (sweep 100 ex_two_marked) ex_two_marked)
              (o2p (okOr (sweep 100 ex_two_marked) ex_two_marked) u) = 0 ∧
            ∀ x, u ≤ x → x < u + bsize ex_two_marked u →
              Covers (blocks (okOr (sweep 100 ex_two_marked) ex_two_marked) fl2) x) ∧
        (∀ x, Covers (blocks (okOr (sweep 100 ex_two_marked) ex_two_marked) fl2) x ↔
          Covers (blocks ex_two_marked [3]) x ∨
            ∃ u ∈ [2, 1], ¬ Marked ex_two_marked u ∧ u ≤ x ∧ x < u + bsize ex_two_marked u) :=
  ⟨ex_two_marked_wf, by decide,
    (sweep_keeps_exactly_the_marked 100 ex_two_marked [3] [2, 1] ex_two_marked_wf
      (by decide)).1,
    (sweep_keeps_exactly_the_marked 100 ex_two_marked [3] [2, 1] ex_two_marked_wf
      (by decide)).2 _ (eq_ok_of_isOk _ _ (by decide))⟩

end GC
